import Mathlib

/-!
Verification of the TinyHashMap / TinyHashMap64 open-addressing hash maps
from schellingb/c-data-structures.

The two C headers implement linear-probing hash maps whose handle is a
pointer to the value region, with a header (length, maxlen/cap, keys
pointer) stored before it and a reserved null-value slot at index -1.

Modelling conventions (shallow embedding):
* a handle is `Option (Hmap V)` / `Option (Hmap64 V)`, `none` being the
  NULL handle;
* the keys buffer is a `List Nat` of length `maxlen + 1` (32-bit map)
  resp. `cap` (64-bit map); key values are the natural-number values of
  the C `uint32_t`/`uint64_t` keys;
* the value region is a `List V` of the same length plus the separate
  reserved slot `nullv` (the C slot at index -1); memory the C code
  leaves uninitialized is modelled as `default`;
* `size_t` arithmetic that can overflow is taken modulo `W = 2 ^ 64`
  exactly where the C source computes in `size_t`;
* the C probe loops have no fuel; every loop is modelled with enough
  fuel to visit each slot once (the table size), which is exactly the
  set of slots a terminating execution of the C loop can visit.  A
  `fuelOut`/`none` result marks an execution on which the C loop does
  not terminate;
* `malloc`/`calloc` success is an explicit oracle argument (`mOk`,
  `cOk`) of every operation that can grow.
-/

namespace CDS

/-- Modulus of `size_t` arithmetic (LP64). -/
def W : Nat := 2 ^ 64

/-- Byte size of `struct hmap__hdr`/`struct hmap64__hdr` on LP64:
two `size_t` fields and one pointer. -/
def hdrSize : Nat := 24

/-- Result of one probe loop: the C loop either returns at a slot whose
key matches, returns/acts at an empty slot, or never terminates. -/
inductive ScanRes where
  | found (i : Nat)
  | empty (i : Nat)
  | fuelOut
deriving DecidableEq, Repr

/-- The probe loop shared by `hmap__idx` and `hmap64__idx`:
`for (i = key;; i++) { if (keys[i &= m] == key) ...; if (!keys[i]) ...; }`
where `m` is `hdr->maxlen` (32-bit map) resp. `hdr->cap - 1` (64-bit map).
`i` is the running index, `fuel` bounds the number of iterations. -/
def probeLoop (keys : List Nat) (m key : Nat) : Nat → Nat → ScanRes
  | _, 0 => ScanRes.fuelOut
  | i, fuel + 1 =>
    let j := Nat.land i m
    if keys.getD j 0 = key then ScanRes.found j
    else if keys.getD j 0 = 0 then ScanRes.empty j
    else probeLoop keys m key (j + 1) fuel

/-- The rehash placement loop shared by `hmap__grow` and `hmap64__grow`:
`for (j = key;; j++) if (!new_keys[j &= m]) { ...; break; }` — it looks
only for an empty slot and never compares keys. -/
def emptyLoop (keys : List Nat) (m : Nat) : Nat → Nat → Option Nat
  | _, 0 => none
  | i, fuel + 1 =>
    let j := Nat.land i m
    if keys.getD j 0 = 0 then some j else emptyLoop keys m (j + 1) fuel

/-- Outcome of the capacity-doubling loop at the top of the grow
functions: a computed capacity, a detected overflow
(`return old_ptr; /* overflow */`), or non-termination. -/
inductive CapRes where
  | ok (n : Nat)
  | overflow
  | diverge
deriving DecidableEq, Repr

/-- Capacity loop of the 32-bit `hmap__grow`:
`while (new_max && new_max / 2 <= reserve)
   if (!(new_max = new_max * 2 + 1)) return old_ptr;`
in `size_t` arithmetic.  `fuel` bounds the number of iterations; on the
inputs used by the theorems below the loop either exits within the fuel
or is provably stuck on the fixed point `2 ^ 64 - 1`. -/
def hmapCapLoop (reserve : Nat) : Nat → Nat → CapRes
  | _, 0 => CapRes.diverge
  | nm, fuel + 1 =>
    if nm ≠ 0 ∧ nm / 2 ≤ reserve then
      let nm2 := (nm * 2 + 1) % W
      if nm2 = 0 then CapRes.overflow else hmapCapLoop reserve nm2 fuel
    else CapRes.ok nm

/-- Capacity loop of the 64-bit `hmap64__grow`:
`while (new_cap && new_cap / 2 < res)
   if (!(new_cap *= 2)) return old_ptr;` in `size_t` arithmetic. -/
def hmap64CapLoop (res : Nat) : Nat → Nat → CapRes
  | _, 0 => CapRes.diverge
  | nc, fuel + 1 =>
    if nc ≠ 0 ∧ nc / 2 < res then
      let nc2 := (nc * 2) % W
      if nc2 = 0 then CapRes.overflow else hmap64CapLoop res nc2 fuel
    else CapRes.ok nc

/-- Byte count passed to `malloc` by `hmap__grow`:
`sizeof(struct hmap__hdr) + (new_max + 2) * elem_size`, a `size_t`
computation that the source does not check for overflow. -/
def hmapMallocBytes (new_max elemSize : Nat) : Nat :=
  (hdrSize + (new_max + 2) * elemSize) % W

/-- Byte count passed to `malloc` by `hmap64__grow`:
`sizeof(struct hmap64__hdr) + (new_cap + 1) * elem_size`. -/
def hmap64MallocBytes (new_cap elemSize : Nat) : Nat :=
  (hdrSize + (new_cap + 1) * elemSize) % W

section Maps

variable {V : Type} [Inhabited V]

/-! ## 32-bit map (`tinyhashmap.h`) -/

/-- One allocated 32-bit map: `struct hmap__hdr { size_t len, maxlen;
uint32_t *keys; }` plus the value region `b[-1] .. b[maxlen]`.
`keys` has `maxlen + 1` entries, `vals` holds `b[0] .. b[maxlen]`, and
`nullv` is the reserved slot `b[-1]`. -/
structure Hmap (V : Type) where
  len : Nat
  maxlen : Nat
  keys : List Nat
  vals : List V
  nullv : V
deriving DecidableEq, Repr

/-- Capacity of an allocated 32-bit map (`HMAP_CAP` on a non-null
handle). -/
def Hmap.cap (h : Hmap V) : Nat := h.maxlen + 1

/-- `hmap__idx(hdr, key, 0, 0)`: pure lookup.  `none` models the C
result `-1`; a `fuelOut` probe (C non-termination) is also mapped to
`none` but never occurs on the well-formed states below. -/
def hmap__idx_lookup (h : Hmap V) (key : Nat) : Option Nat :=
  if key = 0 then none
  else
    match probeLoop h.keys h.maxlen key key (h.maxlen + 1) with
    | ScanRes.found i => some i
    | _ => none

/-- `hmap__idx(hdr, key, 1, 0)`: lookup-or-insert, used by `HMAP_SET`
and `HMAP_PTR` and by the deletion back-shift.  Returns the slot index
and the updated map (`len++` and the key written when an empty slot is
claimed).  `none` models the two non-returning cases: key 0 (C returns
-1) and probe non-termination. -/
def hmap__idx_add (h : Hmap V) (key : Nat) : Option (Nat × Hmap V) :=
  if key = 0 then none
  else
    match probeLoop h.keys h.maxlen key key (h.maxlen + 1) with
    | ScanRes.found i => some (i, h)
    | ScanRes.empty i =>
        some (i, { h with len := h.len + 1, keys := h.keys.set i key })
    | ScanRes.fuelOut => none

/-- Back-shift scan of `hmap__idx` after the matched slot has been
cleared: `while ((key = keys[i = (i + 1) & maxlen]) != 0) { if ((key =
hmap__idx(hdr, key, 1, 0)) == i) continue; len--; keys[i] = 0;
memcpy(vals + key, vals + i, elem); }`.  `i` is the previously examined
slot, `fuel` bounds the iterations. -/
def hmap__delScan (h : Hmap V) (i : Nat) : Nat → Hmap V
  | 0 => h
  | fuel + 1 =>
    let i2 := Nat.land (i + 1) h.maxlen
    let key := h.keys.getD i2 0
    if key = 0 then h
    else
      match hmap__idx_add h key with
      | none => h
      | some (j, h1) =>
        if j = i2 then hmap__delScan h1 i2 fuel
        else
          hmap__delScan
            { h1 with
              len := h1.len - 1
              keys := h1.keys.set i2 0
              vals := h1.vals.set j (h1.vals.getD i2 h1.nullv) } i2 fuel

/-- `hmap__idx(hdr, key, 0, del)` with `del != 0`, used by `HMAP_DEL`:
find the key; on a match clear the slot, decrement the length and run
the back-shift scan.  Only `!= -1` of the result is ever used by the
caller, so the returned index is the matched slot. -/
def hmap__idx_del (h : Hmap V) (key : Nat) : Option (Nat × Hmap V) :=
  if key = 0 then none
  else
    match probeLoop h.keys h.maxlen key key (h.maxlen + 1) with
    | ScanRes.found i =>
        some (i, hmap__delScan
          { h with len := h.len - 1, keys := h.keys.set i 0 } i (h.maxlen + 1))
    | _ => none

/-- One step of the rehash loop of `hmap__grow`/`hmap64__grow`: skip an
empty old slot, otherwise place the key (and copy its value) into the
first empty slot of its probe sequence in the new table. -/
def rehashStep (m : Nat) (acc : List Nat × List V) (kv : Nat × V) :
    List Nat × List V :=
  if kv.1 = 0 then acc
  else
    match emptyLoop acc.1 m kv.1 (m + 1) with
    | some j => (acc.1.set j kv.1, acc.2.set j kv.2)
    | none => acc

/-- Rehash loop of `hmap__grow`: every non-zero key of the old table is
placed into the first empty slot of its probe sequence in the new
table (values copied along), in increasing order of the old index. -/
def hmapRehash (oldKeys : List Nat) (oldVals : List V) (m : Nat)
    (start : List Nat × List V) : List Nat × List V :=
  (oldKeys.zip oldVals).foldl (rehashStep m) start

/-- `hmap__grow(old_hdr, old_ptr, elem_size, reserve)` with the
allocation oracle `mOk`/`cOk` for `malloc`/`calloc`.  Failure paths
(detected overflow, allocation failure) return the old handle
unchanged; the `CapRes.diverge` case is a C execution that never
terminates (see `hmapCapLoop`) and is mapped to the old handle so that
the function stays total. -/
def hmap__grow (b : Option (Hmap V)) (reserve : Nat) (mOk cOk : Bool) :
    Option (Hmap V) :=
  let startMax : Nat :=
    match b with
    | some h => (h.maxlen * 2 + 1) % W
    | none => 15
  match hmapCapLoop reserve startMax 200 with
  | CapRes.overflow => b
  | CapRes.diverge => b
  | CapRes.ok new_max =>
    if mOk = false then b
    else if cOk = false then b
    else
      match b with
      | some h =>
        let nk := hmapRehash h.keys h.vals new_max
          (List.replicate (new_max + 1) 0, List.replicate (new_max + 1) default)
        some { len := h.len, maxlen := new_max, keys := nk.1, vals := nk.2,
               nullv := h.nullv }
      | none =>
        some { len := 0, maxlen := new_max,
               keys := List.replicate (new_max + 1) 0,
               vals := List.replicate (new_max + 1) default,
               nullv := default }

/-- `HMAP_LEN(b)`. -/
def HMAP_LEN (b : Option (Hmap V)) : Nat :=
  match b with
  | some h => h.len
  | none => 0

/-- `HMAP_MAX(b)`. -/
def HMAP_MAX (b : Option (Hmap V)) : Nat :=
  match b with
  | some h => h.maxlen
  | none => 0

/-- `HMAP_CAP(b)`. -/
def HMAP_CAP (b : Option (Hmap V)) : Nat :=
  match b with
  | some h => h.maxlen + 1
  | none => 0

/-- `HMAP__FIT1(b)`: grow unless the handle is non-null and
`len * 2 <= maxlen`. -/
def HMAP__FIT1 (b : Option (Hmap V)) (mOk cOk : Bool) : Option (Hmap V) :=
  match b with
  | some h => if h.len * 2 ≤ h.maxlen then some h else hmap__grow (some h) 0 mOk cOk
  | none => hmap__grow none 0 mOk cOk

/-- `HMAP_SET(b, key, val)`: `HMAP__FIT1(b)` followed by
`b[hmap__idx(hdr, key, 1, 0)] = val`.  With key 0 the C index is -1 and
the write lands in the reserved null-value slot `b[-1]`.  The `none`
result models the C null-handle dereference after a failed first
allocation; the unchanged-handle fallback the unreachable
probe-non-termination case. -/
def HMAP_SET (b : Option (Hmap V)) (key : Nat) (v : V) (mOk cOk : Bool) :
    Option (Hmap V) :=
  match HMAP__FIT1 b mOk cOk with
  | none => none
  | some h =>
    match hmap__idx_add h key with
    | some (i, h1) => some { h1 with vals := h1.vals.set i v }
    | none => if key = 0 then some { h with nullv := v } else some h

/-- `HMAP_GET(b, key)`: `HMAP__FIT1(b)` followed by reading
`b[hmap__idx(hdr, key, 0, 0)]`; index -1 reads the null-value slot.
Returns the value read and the (possibly reallocated) handle. -/
def HMAP_GET (b : Option (Hmap V)) (key : Nat) (mOk cOk : Bool) :
    V × Option (Hmap V) :=
  match HMAP__FIT1 b mOk cOk with
  | none => (default, none)
  | some h =>
    match hmap__idx_lookup h key with
    | some i => (h.vals.getD i h.nullv, some h)
    | none => (h.nullv, some h)

/-- `HMAP_HAS(b, key)`: `(b) ? hmap__idx(hdr, key, 0, 0) != -1 : 0`.
The macro contains no `HMAP__FIT1`, so it has no side effect. -/
def HMAP_HAS (b : Option (Hmap V)) (key : Nat) : Bool :=
  match b with
  | some h => (hmap__idx_lookup h key).isSome
  | none => false

/-- `HMAP_DEL(b, key)`: `(b) ? hmap__idx(hdr, key, 0, sizeof *b) != -1 : 0`;
returns the flag and the mutated handle (deletion mutates in place). -/
def HMAP_DEL (b : Option (Hmap V)) (key : Nat) : Bool × Option (Hmap V) :=
  match b with
  | some h =>
    match hmap__idx_del h key with
    | some (_, h1) => (true, some h1)
    | none => (false, some h)
  | none => (false, none)

/-- `HMAP_IDX(b, key)`: `(b) ? hmap__idx(hdr, key, 0, 0) : -1`; `none`
models -1.  No side effect. -/
def HMAP_IDX (b : Option (Hmap V)) (key : Nat) : Option Nat :=
  match b with
  | some h => hmap__idx_lookup h key
  | none => none

/-- `HMAP_FIT(b, n)`: grow unless `n` is 0 or the handle already fits
`(size_t)(n) * 2 <= HMAP_MAX(b)` (note the `size_t` wrap of `n * 2`). -/
def HMAP_FIT (b : Option (Hmap V)) (n : Nat) (mOk cOk : Bool) :
    Option (Hmap V) :=
  if n = 0 ∨ (b.isSome ∧ (n * 2) % W ≤ HMAP_MAX b) then b
  else hmap__grow b n mOk cOk

/-- `HMAP_TRYFIT(b, n)`: `HMAP_FIT` followed by re-evaluating the fit
condition on the new handle. -/
def HMAP_TRYFIT (b : Option (Hmap V)) (n : Nat) (mOk cOk : Bool) :
    Bool × Option (Hmap V) :=
  let b1 := HMAP_FIT b n mOk cOk
  (decide (n = 0 ∨ (b1.isSome ∧ (n * 2) % W ≤ HMAP_MAX b1)), b1)

/-! ## 64-bit map (`tinyhashmap64.h`) -/

/-- One allocated 64-bit map: `struct hmap64__hdr { size_t len, cap;
uint64_t *keys; }` plus the value region.  `keys` and `vals` have `cap`
entries; `nullv` is the reserved slot `b[-1]`. -/
structure Hmap64 (V : Type) where
  len : Nat
  cap : Nat
  keys : List Nat
  vals : List V
  nullv : V
deriving DecidableEq, Repr

/-- `hmap64__idx(hdr, key, 0, 0)`: pure lookup (mask `cap - 1`). -/
def hmap64__idx_lookup (h : Hmap64 V) (key : Nat) : Option Nat :=
  if key = 0 then none
  else
    match probeLoop h.keys (h.cap - 1) key key h.cap with
    | ScanRes.found i => some i
    | _ => none

/-- `hmap64__idx(hdr, key, 1, 0)`: lookup-or-insert. -/
def hmap64__idx_add (h : Hmap64 V) (key : Nat) : Option (Nat × Hmap64 V) :=
  if key = 0 then none
  else
    match probeLoop h.keys (h.cap - 1) key key h.cap with
    | ScanRes.found i => some (i, h)
    | ScanRes.empty i =>
        some (i, { h with len := h.len + 1, keys := h.keys.set i key })
    | ScanRes.fuelOut => none

/-- `hmap64__idx(hdr, key, 0, 1)` used by `HMAP64_DEL`: on a match just
`len--; keys[i] = 0;` — no back-shift scan. -/
def hmap64__idx_del (h : Hmap64 V) (key : Nat) : Option (Nat × Hmap64 V) :=
  if key = 0 then none
  else
    match probeLoop h.keys (h.cap - 1) key key h.cap with
    | ScanRes.found i =>
        some (i, { h with len := h.len - 1, keys := h.keys.set i 0 })
    | _ => none

/-- `hmap64__grow(old_hdr, old_ptr, elem_size, res)` with the
allocation oracle. -/
def hmap64__grow (b : Option (Hmap64 V)) (res : Nat) (mOk cOk : Bool) :
    Option (Hmap64 V) :=
  let startCap : Nat :=
    match b with
    | some h => (h.cap * 2) % W
    | none => 16
  match hmap64CapLoop res startCap 200 with
  | CapRes.overflow => b
  | CapRes.diverge => b
  | CapRes.ok new_cap =>
    if mOk = false then b
    else if cOk = false then b
    else
      match b with
      | some h =>
        let nk := hmapRehash h.keys h.vals (new_cap - 1)
          (List.replicate new_cap 0, List.replicate new_cap default)
        some { len := h.len, cap := new_cap, keys := nk.1, vals := nk.2,
               nullv := h.nullv }
      | none =>
        some { len := 0, cap := new_cap,
               keys := List.replicate new_cap 0,
               vals := List.replicate new_cap default,
               nullv := default }

/-- `HMAP64_LEN(b)`. -/
def HMAP64_LEN (b : Option (Hmap64 V)) : Nat :=
  match b with
  | some h => h.len
  | none => 0

/-- `HMAP64_CAP(b)`. -/
def HMAP64_CAP (b : Option (Hmap64 V)) : Nat :=
  match b with
  | some h => h.cap
  | none => 0

/-- `HMAP64__FIT1(b)`: grow unless the handle is non-null and
`len * 2 < cap` (strict, unlike the 32-bit map). -/
def HMAP64__FIT1 (b : Option (Hmap64 V)) (mOk cOk : Bool) : Option (Hmap64 V) :=
  match b with
  | some h => if h.len * 2 < h.cap then some h else hmap64__grow (some h) 0 mOk cOk
  | none => hmap64__grow none 0 mOk cOk

/-- `HMAP64_SET(b, key, val)`. -/
def HMAP64_SET (b : Option (Hmap64 V)) (key : Nat) (v : V) (mOk cOk : Bool) :
    Option (Hmap64 V) :=
  match HMAP64__FIT1 b mOk cOk with
  | none => none
  | some h =>
    match hmap64__idx_add h key with
    | some (i, h1) => some { h1 with vals := h1.vals.set i v }
    | none => if key = 0 then some { h with nullv := v } else some h

/-- `HMAP64_GET(b, key)`. -/
def HMAP64_GET (b : Option (Hmap64 V)) (key : Nat) (mOk cOk : Bool) :
    V × Option (Hmap64 V) :=
  match HMAP64__FIT1 b mOk cOk with
  | none => (default, none)
  | some h =>
    match hmap64__idx_lookup h key with
    | some i => (h.vals.getD i h.nullv, some h)
    | none => (h.nullv, some h)

/-- `HMAP64_HAS(b, key)`. -/
def HMAP64_HAS (b : Option (Hmap64 V)) (key : Nat) : Bool :=
  match b with
  | some h => (hmap64__idx_lookup h key).isSome
  | none => false

/-- `HMAP64_DEL(b, key)`. -/
def HMAP64_DEL (b : Option (Hmap64 V)) (key : Nat) : Bool × Option (Hmap64 V) :=
  match b with
  | some h =>
    match hmap64__idx_del h key with
    | some (_, h1) => (true, some h1)
    | none => (false, some h)
  | none => (false, none)

/-- `HMAP64_IDX(b, key)`. -/
def HMAP64_IDX (b : Option (Hmap64 V)) (key : Nat) : Option Nat :=
  match b with
  | some h => hmap64__idx_lookup h key
  | none => none

/-- `HMAP64_FIT(b, n)` (fit test `(size_t)(n) * 2 < HMAP64_CAP(b)`,
strict). -/
def HMAP64_FIT (b : Option (Hmap64 V)) (n : Nat) (mOk cOk : Bool) :
    Option (Hmap64 V) :=
  if n = 0 ∨ (b.isSome ∧ (n * 2) % W < HMAP64_CAP b) then b
  else hmap64__grow b n mOk cOk

/-- `HMAP64_TRYFIT(b, n)`. -/
def HMAP64_TRYFIT (b : Option (Hmap64 V)) (n : Nat) (mOk cOk : Bool) :
    Bool × Option (Hmap64 V) :=
  let b1 := HMAP64_FIT b n mOk cOk
  (decide (n = 0 ∨ (b1.isSome ∧ (n * 2) % W < HMAP64_CAP b1)), b1)

/-! ## Operation sequences and reachability -/

/-- Public mutating operations used to define reachable map states
(allocation always succeeds along a reachable history). -/
inductive Op (V : Type) where
  | set (k : Nat) (v : V)
  | del (k : Nat)

/-- Apply one operation to a 32-bit handle. -/
def applyOp (b : Option (Hmap V)) : Op V → Option (Hmap V)
  | Op.set k v => HMAP_SET b k v true true
  | Op.del k => (HMAP_DEL b k).2

/-- Run a list of operations on a 32-bit handle, first operation
first. -/
def runOps (b : Option (Hmap V)) : List (Op V) → Option (Hmap V)
  | [] => b
  | op :: ops => runOps (applyOp b op) ops

/-- Apply one operation to a 64-bit handle. -/
def applyOp64 (b : Option (Hmap64 V)) : Op V → Option (Hmap64 V)
  | Op.set k v => HMAP64_SET b k v true true
  | Op.del k => (HMAP64_DEL b k).2

/-- Run a list of operations on a 64-bit handle. -/
def runOps64 (b : Option (Hmap64 V)) : List (Op V) → Option (Hmap64 V)
  | [] => b
  | op :: ops => runOps64 (applyOp64 b op) ops

/-- Number of `set` operations in a list. -/
def countSets : List (Op V) → Nat
  | [] => 0
  | Op.set _ _ :: ops => countSets ops + 1
  | Op.del _ :: ops => countSets ops

/-- A 32-bit handle is reachable if some physically realizable sequence
of `set`/`del` calls starting from the NULL handle produces it.  The
length bound keeps every intermediate capacity far below the `size_t`
overflow regime (capacities stay `≤ 2 ^ 62`), which is where the C
allocator could honour the requests at all; the overflow regime itself
is analyzed separately (see the theorems about `hmapCapLoop`). -/
def Reachable (b : Option (Hmap V)) : Prop :=
  ∃ ops : List (Op V), ops.length ≤ 2 ^ 58 ∧ runOps none ops = b

/-- Reachability for the 64-bit map. -/
def Reachable64 (b : Option (Hmap64 V)) : Prop :=
  ∃ ops : List (Op V), ops.length ≤ 2 ^ 58 ∧ runOps64 none ops = b

end Maps

/-! ## Preliminaries: masking, cyclic distance, list utilities -/

/-- Masking with an all-ones mask is reduction modulo the power of two:
this is why the probe index computations `i &= maxlen` (32-bit map) and
`i &= cap - 1` (64-bit map) are uniform wraparound. -/
theorem land_two_pow_sub_one (i n : Nat) : Nat.land i (2 ^ n - 1) = i % 2 ^ n := by
  apply Nat.eq_of_testBit_eq
  intro j
  have h1 : Nat.land i (2 ^ n - 1) = i &&& (2 ^ n - 1) := rfl
  rw [h1, Nat.testBit_and, Nat.testBit_two_pow_sub_one, Nat.testBit_mod_two_pow]
  exact Bool.and_comm _ _

/-- Number of probe steps from slot `a` to slot `b` in a table of `c`
slots. -/
def dist (c a b : Nat) : Nat := (b + (c - a % c)) % c

theorem dist_lt (c a b : Nat) (hc : 0 < c) : dist c a b < c :=
  Nat.mod_lt _ hc

theorem add_dist (c a b : Nat) (hc : 0 < c) : (a + dist c a b) % c = b % c := by
  have hmod : a % c < c := Nat.mod_lt _ hc
  have hdiv : c * (a / c) + a % c = a := Nat.div_add_mod a c
  rw [dist, Nat.add_mod_mod]
  have hre : a + (b + (c - a % c)) = b + c * (a / c) + c * 1 := by omega
  rw [hre, Nat.add_assoc, ← Nat.mul_add, Nat.add_mul_mod_self_left]

theorem dist_unique (c a b d : Nat) (hc : 0 < c) (hd : d < c)
    (h : (a + d) % c = b % c) : d = dist c a b := by
  have h2 : a + d ≡ a + dist c a b [MOD c] := by
    unfold Nat.ModEq
    rw [h, add_dist c a b hc]
  have h3 : d ≡ dist c a b [MOD c] := Nat.ModEq.add_left_cancel' a h2
  have h4 : d % c = dist c a b % c := h3
  rwa [Nat.mod_eq_of_lt hd, Nat.mod_eq_of_lt (dist_lt c a b hc)] at h4

theorem dist_of_add (c a e : Nat) (hc : 0 < c) (he : e < c) :
    dist c a ((a + e) % c) = e :=
  (dist_unique c a ((a + e) % c) e hc he (Nat.mod_mod_of_dvd (a + e) dvd_rfl).symm).symm

theorem slot_of_dist (c a b : Nat) (hc : 0 < c) (hb : b < c) :
    (a + dist c a b) % c = b := by
  rw [add_dist c a b hc, Nat.mod_eq_of_lt hb]

theorem dist_inj (c a x y : Nat) (hc : 0 < c) (hx : x < c) (hy : y < c)
    (h : dist c a x = dist c a y) : x = y := by
  have h1 := slot_of_dist c a x hc hx
  have h2 := slot_of_dist c a y hc hy
  rw [h] at h1
  rw [h1] at h2
  exact h2

theorem dist_self (c a : Nat) (hc : 0 < c) : dist c a a = 0 := by
  have := dist_unique c a a 0 hc hc (by rw [Nat.add_zero])
  exact this.symm

theorem getD_set_self {α : Type _} : ∀ (l : List α) (i : Nat) (a d : α),
    i < l.length → (l.set i a).getD i d = a
  | [], _, _, _, h => absurd h (by simp)
  | _ :: _, 0, _, _, _ => rfl
  | _ :: xs, i + 1, a, d, h => getD_set_self xs i a d (by simpa using h)

theorem getD_set_ne {α : Type _} : ∀ (l : List α) (i j : Nat) (a d : α), i ≠ j →
    (l.set i a).getD j d = l.getD j d
  | [], _, _, _, _, _ => rfl
  | _ :: _, 0, 0, _, _, h => absurd rfl h
  | _ :: _, 0, _ + 1, _, _, _ => rfl
  | _ :: _, _ + 1, 0, _, _, _ => rfl
  | _ :: xs, i + 1, j + 1, a, d, h => getD_set_ne xs i j a d (fun he => h (by rw [he]))

/-- Number of occupied slots of a keys buffer. -/
def countNZ (keys : List Nat) : Nat := keys.countP (fun k => k != 0)

theorem countNZ_cons (a : Nat) (tl : List Nat) :
    countNZ (a :: tl) = countNZ tl + if a ≠ 0 then 1 else 0 := by
  unfold countNZ
  rw [List.countP_cons]
  congr 1
  by_cases h : a = 0 <;> simp [h]

/-- The slot count is the number of occupied positions. -/
theorem countNZ_pos_card : ∀ keys : List Nat,
    countNZ keys = ((Finset.range keys.length).filter
      (fun t => keys.getD t 0 ≠ 0)).card
  | [] => by simp [countNZ]
  | a :: tl => by
    rw [countNZ_cons, countNZ_pos_card tl]
    rw [Finset.card_filter, Finset.card_filter]
    simp only [List.length_cons]
    rw [Finset.sum_range_succ']
    simp only [List.getD_cons_succ, List.getD_cons_zero]

/-- Along a fully occupied probe path of length `d + 1` there are at
least `d + 1` occupied slots. -/
theorem count_path_nonzero (keys : List Nat) (c a d : Nat) (hc : 0 < c)
    (hlen : keys.length = c) (hd : d < c)
    (hpath : ∀ e, e ≤ d → keys.getD ((a + e) % c) 0 ≠ 0) :
    d + 1 ≤ countNZ keys := by
  rw [countNZ_pos_card, hlen]
  have hcard : (Finset.range (d + 1)).card = d + 1 := Finset.card_range _
  rw [← hcard]
  apply Finset.card_le_card_of_injOn (fun e => (a + e) % c)
  · intro e he
    rw [Finset.mem_range] at he
    rw [Finset.mem_filter, Finset.mem_range]
    exact ⟨Nat.mod_lt _ hc, hpath e (by omega)⟩
  · intro e1 h1 e2 h2 heq
    simp only [Finset.coe_range, Set.mem_Iio] at h1 h2
    have heq2 : (a + e1) % c = (a + e2) % c := heq
    have d1 := dist_of_add c a e1 hc (by omega)
    have d2 := dist_of_add c a e2 hc (by omega)
    rw [heq2] at d1
    rw [d2] at d1
    exact d1.symm

/-! ### Pairs: the multiset of (key, value) pairs stored in a table -/

section Pairs

variable {V : Type}

/-- Occupied (key, value) pairs of a table, in slot order. -/
def pairsList (keys : List Nat) (vals : List V) : List (Nat × V) :=
  (keys.zip vals).filter (fun kv => kv.1 != 0)

/-- Occupied (key, value) pairs of a table, as a multiset. -/
def pairs (keys : List Nat) (vals : List V) : Multiset (Nat × V) :=
  (pairsList keys vals : List (Nat × V))

theorem pairs_nil_left (vals : List V) : pairs [] vals = 0 := rfl

theorem pairs_nil_right (keys : List Nat) : pairs keys ([] : List V) = 0 := by
  simp [pairs, pairsList]

theorem pairs_cons_nz (a : Nat) (b : V) (ks : List Nat) (vs : List V) (ha : a ≠ 0) :
    pairs (a :: ks) (b :: vs) = (a, b) ::ₘ pairs ks vs := by
  simp [pairs, pairsList, List.filter_cons, ha]

theorem pairs_cons_z (b : V) (ks : List Nat) (vs : List V) :
    pairs (0 :: ks) (b :: vs) = pairs ks vs := by
  simp [pairs, pairsList, List.filter_cons]

/-- Writing a fresh pair into an empty slot adds it to the pair
multiset. -/
theorem pairs_set_both : ∀ (keys : List Nat) (vals : List V) (j k : Nat) (v : V),
    j < keys.length → j < vals.length → keys.getD j 0 = 0 → k ≠ 0 →
    pairs (keys.set j k) (vals.set j v) = (k, v) ::ₘ pairs keys vals := by
  intro keys
  induction keys with
  | nil => intro vals j k v hj _ _ _; simp at hj
  | cons a ks ih =>
    intro vals j k v hj hjv hz hk
    match vals, j with
    | [], _ => simp at hjv
    | b :: vs, 0 =>
      have ha : a = 0 := hz
      subst ha
      rw [List.set_cons_zero, List.set_cons_zero, pairs_cons_nz _ _ _ _ hk,
        pairs_cons_z]
    | b :: vs, j + 1 =>
      have step := ih vs j k v (by simpa using hj) (by simpa using hjv) hz hk
      rw [List.set_cons_succ, List.set_cons_succ]
      by_cases ha : a = 0
      · subst ha
        rw [pairs_cons_z, pairs_cons_z, step]
      · rw [pairs_cons_nz _ _ _ _ ha, pairs_cons_nz _ _ _ _ ha, step,
          Multiset.cons_swap]

/-- Clearing an occupied slot removes exactly its pair. -/
theorem pairs_clear_slot (dflt : V) : ∀ (keys : List Nat) (vals : List V) (j : Nat),
    j < keys.length → j < vals.length → keys.getD j 0 ≠ 0 →
    pairs keys vals = (keys.getD j 0, vals.getD j dflt) ::ₘ pairs (keys.set j 0) vals := by
  intro keys
  induction keys with
  | nil => intro vals j hj _ _; simp at hj
  | cons a ks ih =>
    intro vals j hj hjv hnz
    match vals, j with
    | [], _ => simp at hjv
    | b :: vs, 0 =>
      have ha : a ≠ 0 := hnz
      show pairs (a :: ks) (b :: vs) = (a, b) ::ₘ pairs (0 :: ks) (b :: vs)
      rw [pairs_cons_nz _ _ _ _ ha, pairs_cons_z]
    | b :: vs, j + 1 =>
      have step := ih vs j (by simpa using hj) (by simpa using hjv) hnz
      show pairs (a :: ks) (b :: vs)
        = (ks.getD j 0, vs.getD j dflt) ::ₘ pairs (a :: ks.set j 0) (b :: vs)
      by_cases ha : a = 0
      · subst ha
        rw [pairs_cons_z, pairs_cons_z, step]
      · rw [pairs_cons_nz _ _ _ _ ha, pairs_cons_nz _ _ _ _ ha, step,
          Multiset.cons_swap]

/-- Overwriting the value of an occupied slot. -/
theorem pairs_update_val (dflt : V) : ∀ (keys : List Nat) (vals : List V) (j k : Nat) (v : V),
    j < keys.length → j < vals.length → keys.getD j 0 = k → k ≠ 0 →
    pairs keys (vals.set j v) = (k, v) ::ₘ pairs (keys.set j 0) vals := by
  intro keys
  induction keys with
  | nil => intro vals j k v hj _ _ _; simp at hj
  | cons a ks ih =>
    intro vals j k v hj hjv hkey hk
    match vals, j with
    | [], _ => simp at hjv
    | b :: vs, 0 =>
      have ha : a = k := hkey
      subst ha
      rw [List.set_cons_zero, List.set_cons_zero]
      rw [pairs_cons_nz _ _ _ _ hk, pairs_cons_z]
    | b :: vs, j + 1 =>
      have step := ih vs j k v (by simpa using hj) (by simpa using hjv) hkey hk
      rw [List.set_cons_succ, List.set_cons_succ]
      by_cases ha : a = 0
      · subst ha
        rw [pairs_cons_z, pairs_cons_z, step]
      · rw [pairs_cons_nz _ _ _ _ ha, pairs_cons_nz _ _ _ _ ha, step,
          Multiset.cons_swap]

/-- Membership in the pair multiset is existence of a slot holding the
pair. -/
theorem mem_pairs (dflt : V) : ∀ (keys : List Nat) (vals : List V) (k : Nat) (v : V),
    ((k, v) ∈ pairs keys vals) ↔
      k ≠ 0 ∧ ∃ j, j < keys.length ∧ j < vals.length ∧
        keys.getD j 0 = k ∧ vals.getD j dflt = v := by
  intro keys
  induction keys with
  | nil => intro vals k v; simp [pairs_nil_left]
  | cons a ks ih =>
    intro vals k v
    match vals with
    | [] =>
      rw [pairs_nil_right]
      simp
    | b :: vs =>
      by_cases ha : a = 0
      · subst ha
        rw [pairs_cons_z, ih vs k v]
        constructor
        · rintro ⟨hk, j, hj1, hj2, hj3, hj4⟩
          exact ⟨hk, j + 1, by simpa using hj1, by simpa using hj2, hj3, hj4⟩
        · rintro ⟨hk, j, hj1, hj2, hj3, hj4⟩
          match j with
          | 0 => exact absurd hj3.symm hk
          | j + 1 =>
            exact ⟨hk, j, by simpa using hj1, by simpa using hj2, hj3, hj4⟩
      · rw [pairs_cons_nz _ _ _ _ ha, Multiset.mem_cons, ih vs k v]
        constructor
        · rintro (heq | ⟨hk, j, hj1, hj2, hj3, hj4⟩)
          · have h1 : k = a := congrArg Prod.fst heq
            have h2 : v = b := congrArg Prod.snd heq
            subst h1
            subst h2
            exact ⟨ha, 0, by simp, by simp, rfl, rfl⟩
          · exact ⟨hk, j + 1, by simpa using hj1, by simpa using hj2, hj3, hj4⟩
        · rintro ⟨hk, j, hj1, hj2, hj3, hj4⟩
          match j with
          | 0 =>
            left
            have h1 : a = k := hj3
            have h2 : b = v := hj4
            rw [h1, h2]
          | j + 1 =>
            right
            exact ⟨hk, j, by simpa using hj1, by simpa using hj2, hj3, hj4⟩

end Pairs

/-- Occupancy after writing a non-zero key into an empty slot. -/
theorem countNZ_set_nz : ∀ (keys : List Nat) (j k : Nat),
    j < keys.length → keys.getD j 0 = 0 → k ≠ 0 →
    countNZ (keys.set j k) = countNZ keys + 1 := by
  intro keys
  induction keys with
  | nil => intro j k hj _ _; simp at hj
  | cons a ks ih =>
    intro j k hj hz hk
    match j with
    | 0 =>
      have ha : a = 0 := hz
      subst ha
      rw [List.set_cons_zero, countNZ_cons, countNZ_cons]
      simp [hk]
    | j + 1 =>
      rw [List.set_cons_succ, countNZ_cons, countNZ_cons,
        ih j k (by simpa using hj) hz hk]
      omega

/-- Occupancy after clearing an occupied slot. -/
theorem countNZ_set_z : ∀ (keys : List Nat) (j : Nat),
    j < keys.length → keys.getD j 0 ≠ 0 →
    countNZ (keys.set j 0) + 1 = countNZ keys := by
  intro keys
  induction keys with
  | nil => intro j hj _; simp at hj
  | cons a ks ih =>
    intro j hj hnz
    match j with
    | 0 =>
      have ha : a ≠ 0 := hnz
      rw [List.set_cons_zero, countNZ_cons, countNZ_cons]
      simp [ha]
    | j + 1 =>
      rw [List.set_cons_succ, countNZ_cons, countNZ_cons]
      rw [← ih j (by simpa using hj) hnz]
      omega

/-! ### Probe loop characterization -/

theorem probeLoop_succ (keys : List Nat) (m key i fuel : Nat) :
    probeLoop keys m key i (fuel + 1) =
      if keys.getD (Nat.land i m) 0 = key then ScanRes.found (Nat.land i m)
      else if keys.getD (Nat.land i m) 0 = 0 then ScanRes.empty (Nat.land i m)
      else probeLoop keys m key (Nat.land i m + 1) fuel := rfl

theorem emptyLoop_succ (keys : List Nat) (m i fuel : Nat) :
    emptyLoop keys m i (fuel + 1) =
      if keys.getD (Nat.land i m) 0 = 0 then some (Nat.land i m)
      else emptyLoop keys m (Nat.land i m + 1) fuel := rfl

/-- A slot at which the probe loop for `key` stops: it holds `key` or
is empty. -/
def IsHit (keys : List Nat) (key j : Nat) : Prop :=
  keys.getD j 0 = key ∨ keys.getD j 0 = 0

instance (keys : List Nat) (key j : Nat) : Decidable (IsHit keys key j) := by
  unfold IsHit
  infer_instance

theorem exists_first_hit (keys : List Nat) (key c i : Nat) (hc : 0 < c)
    (hz : ∃ z, z < c ∧ IsHit keys key z) :
    ∃ d, d < c ∧ IsHit keys key ((i + d) % c) ∧
      ∀ e, e < d → ¬ IsHit keys key ((i + e) % c) := by
  obtain ⟨z, hzc, hzhit⟩ := hz
  have hwit : IsHit keys key ((i + dist c i z) % c) := by
    rw [add_dist c i z hc, Nat.mod_eq_of_lt hzc]
    exact hzhit
  have hex : ∃ d, IsHit keys key ((i + d) % c) := ⟨dist c i z, hwit⟩
  refine ⟨Nat.find hex, ?_, Nat.find_spec hex, fun e he => Nat.find_min hex he⟩
  have hle : Nat.find hex ≤ dist c i z := Nat.find_min' hex hwit
  exact Nat.lt_of_le_of_lt hle (dist_lt c i z hc)

/-- If the first hit of the probe sequence is within the fuel, the
probe loop stops exactly there: `found` if the slot carries the key,
`empty` if the slot is empty. -/
theorem probeLoop_first_hit (keys : List Nat) (key n : Nat) :
    ∀ (d i fuel : Nat), d < fuel →
    IsHit keys key ((i + d) % 2 ^ n) →
    (∀ e, e < d → ¬ IsHit keys key ((i + e) % 2 ^ n)) →
    probeLoop keys (2 ^ n - 1) key i fuel =
      if keys.getD ((i + d) % 2 ^ n) 0 = key then ScanRes.found ((i + d) % 2 ^ n)
      else ScanRes.empty ((i + d) % 2 ^ n) := by
  intro d
  induction d with
  | zero =>
    intro i fuel hf hhit _
    match fuel, hf with
    | fuel + 1, _ =>
      rw [probeLoop_succ, land_two_pow_sub_one]
      simp only [Nat.add_zero] at hhit ⊢
      by_cases hk : keys.getD (i % 2 ^ n) 0 = key
      · rw [if_pos hk, if_pos hk]
      · have h0 : keys.getD (i % 2 ^ n) 0 = 0 := hhit.resolve_left hk
        rw [if_neg hk, if_pos h0, if_neg hk]
  | succ d ih =>
    intro i fuel hf hhit hmin
    match fuel, hf with
    | fuel + 1, hf =>
      rw [probeLoop_succ, land_two_pow_sub_one]
      have h0 : ¬ IsHit keys key ((i + 0) % 2 ^ n) := hmin 0 (Nat.succ_pos d)
      rw [Nat.add_zero] at h0
      have hA : keys.getD (i % 2 ^ n) 0 ≠ key := fun h => h0 (Or.inl h)
      have hB : keys.getD (i % 2 ^ n) 0 ≠ 0 := fun h => h0 (Or.inr h)
      rw [if_neg hA, if_neg hB]
      have hstep : ∀ e, (i % 2 ^ n + 1 + e) % 2 ^ n = (i + (e + 1)) % 2 ^ n := by
        intro e
        rw [Nat.add_assoc, Nat.mod_add_mod, Nat.add_comm 1 e]
      have hd2 : d < fuel := by omega
      have hhit2 : IsHit keys key ((i % 2 ^ n + 1 + d) % 2 ^ n) := by
        rw [hstep d]
        exact hhit
      have hmin2 : ∀ e, e < d → ¬ IsHit keys key ((i % 2 ^ n + 1 + e) % 2 ^ n) := by
        intro e he
        rw [hstep e]
        exact hmin (e + 1) (by omega)
      rw [ih (i % 2 ^ n + 1) fuel hd2 hhit2 hmin2, hstep d]

/-- Packaged form: any probe on a table with a stopping slot terminates
within one sweep, at the first hit of the probe sequence. -/
theorem probeLoop_result (keys : List Nat) (key n i : Nat)
    (hz : ∃ z, z < 2 ^ n ∧ IsHit keys key z) :
    ∃ d, d < 2 ^ n ∧ (∀ e, e < d → ¬ IsHit keys key ((i + e) % 2 ^ n)) ∧
      IsHit keys key ((i + d) % 2 ^ n) ∧
      probeLoop keys (2 ^ n - 1) key i (2 ^ n) =
        (if keys.getD ((i + d) % 2 ^ n) 0 = key
          then ScanRes.found ((i + d) % 2 ^ n)
          else ScanRes.empty ((i + d) % 2 ^ n)) := by
  have hc : 0 < 2 ^ n := Nat.pos_pow_of_pos n (by omega)
  obtain ⟨d, hd, hhit, hmin⟩ := exists_first_hit keys key (2 ^ n) i hc hz
  exact ⟨d, hd, hmin, hhit, probeLoop_first_hit keys key n d i (2 ^ n) hd hhit hmin⟩

/-- The rehash placement loop is the probe loop for key 0 (both stop at
the first empty slot). -/
theorem emptyLoop_eq_probeLoop (keys : List Nat) (m : Nat) :
    ∀ (fuel i : Nat), emptyLoop keys m i fuel =
      match probeLoop keys m 0 i fuel with
      | ScanRes.found j => some j
      | _ => none := by
  intro fuel
  induction fuel with
  | zero => intro i; rfl
  | succ f ih =>
    intro i
    rw [emptyLoop_succ, probeLoop_succ]
    by_cases h : keys.getD (Nat.land i m) 0 = 0
    · rw [if_pos h, if_pos h]
    · rw [if_neg h, if_neg h, if_neg h, ih]

/-! ### Table invariants -/

/-- No two occupied slots hold the same key. -/
def KeysDistinct (keys : List Nat) : Prop :=
  ∀ i j, i < keys.length → j < keys.length →
    keys.getD i 0 ≠ 0 → keys.getD i 0 = keys.getD j 0 → i = j

/-- Probe-chain invariant: every occupied slot is reachable from its
key's home slot through occupied slots only, so a lookup probe cannot
stop early at an empty slot. -/
def ChainInv (keys : List Nat) (c : Nat) : Prop :=
  ∀ j, j < c → keys.getD j 0 ≠ 0 →
    ∀ e, e < dist c (keys.getD j 0) j →
      keys.getD ((keys.getD j 0 + e) % c) 0 ≠ 0

/-- On a distinct table satisfying the chain invariant, the probe for a
stored key stops exactly at its slot. -/
theorem probe_lookup_found (n : Nat) (keys : List Nat) (key j : Nat)
    (hn : keys.length = 2 ^ n) (hdis : KeysDistinct keys)
    (hchain : ChainInv keys (2 ^ n)) (hj : j < 2 ^ n)
    (hkey : keys.getD j 0 = key) (hk0 : key ≠ 0) :
    probeLoop keys (2 ^ n - 1) key key (2 ^ n) = ScanRes.found j := by
  have hc : 0 < 2 ^ n := Nat.pos_pow_of_pos n (by omega)
  have hd : dist (2 ^ n) key j < 2 ^ n := dist_lt _ _ _ hc
  have hslot : (key + dist (2 ^ n) key j) % 2 ^ n = j := slot_of_dist _ _ _ hc hj
  have hhit : IsHit keys key ((key + dist (2 ^ n) key j) % 2 ^ n) := by
    rw [hslot]
    exact Or.inl hkey
  have hmin : ∀ e, e < dist (2 ^ n) key j → ¬ IsHit keys key ((key + e) % 2 ^ n) := by
    intro e he hit
    have hec : e < 2 ^ n := Nat.lt_trans he hd
    have hlt : (key + e) % 2 ^ n < 2 ^ n := Nat.mod_lt _ hc
    rcases hit with h | h
    · have heq : (key + e) % 2 ^ n = j := by
        apply hdis _ _ (by omega) (by omega)
        · rw [h]; exact hk0
        · rw [h, hkey]
      have : e = dist (2 ^ n) key j := by
        have := dist_of_add (2 ^ n) key e hc hec
        rw [heq] at this
        exact this.symm
      omega
    · have hch := hchain j hj (by rw [hkey]; exact hk0) e (by rw [hkey]; exact he)
      rw [hkey] at hch
      exact hch h
  have := probeLoop_first_hit keys key n (dist (2 ^ n) key j) key (2 ^ n) hd hhit hmin
  rw [hslot] at this
  rw [this, if_pos hkey]

/-- The probe for an absent key on a table with an empty slot stops at
the first empty slot of its probe sequence. -/
theorem probe_lookup_absent (n : Nat) (keys : List Nat) (key : Nat)
    (hz : ∃ z, z < 2 ^ n ∧ keys.getD z 0 = 0)
    (habs : ∀ t, t < 2 ^ n → keys.getD t 0 ≠ key) :
    ∃ j d, j < 2 ^ n ∧ keys.getD j 0 = 0 ∧ j = (key + d) % 2 ^ n ∧ d < 2 ^ n ∧
      (∀ e, e < d → keys.getD ((key + e) % 2 ^ n) 0 ≠ 0) ∧
      probeLoop keys (2 ^ n - 1) key key (2 ^ n) = ScanRes.empty j := by
  have hc : 0 < 2 ^ n := Nat.pos_pow_of_pos n (by omega)
  obtain ⟨z, hzc, hz0⟩ := hz
  obtain ⟨d, hd, hmin, hhit, hres⟩ := probeLoop_result keys key n key
    ⟨z, hzc, Or.inr hz0⟩
  have hjc : (key + d) % 2 ^ n < 2 ^ n := Nat.mod_lt _ hc
  have hne : keys.getD ((key + d) % 2 ^ n) 0 ≠ key := habs _ hjc
  have h0 : keys.getD ((key + d) % 2 ^ n) 0 = 0 := hhit.resolve_left hne
  refine ⟨(key + d) % 2 ^ n, d, hjc, h0, rfl, hd, ?_, ?_⟩
  · intro e he
    have := hmin e he
    intro hzero
    exact this (Or.inr hzero)
  · rw [hres, if_neg hne]

/-- Inserting an absent key into the first empty slot of its probe path
preserves the chain invariant. -/
theorem chainInv_insert (n : Nat) (keys : List Nat) (key j d : Nat)
    (hn : keys.length = 2 ^ n) (hchain : ChainInv keys (2 ^ n))
    (hj : j < 2 ^ n) (hjz : keys.getD j 0 = 0) (hk0 : key ≠ 0)
    (hd : d < 2 ^ n) (hjd : j = (key + d) % 2 ^ n)
    (hpath : ∀ e, e < d → keys.getD ((key + e) % 2 ^ n) 0 ≠ 0) :
    ChainInv (keys.set j key) (2 ^ n) := by
  have hc : 0 < 2 ^ n := Nat.pos_pow_of_pos n (by omega)
  have hdistj : dist (2 ^ n) key j = d := by
    rw [hjd]
    exact dist_of_add _ _ _ hc hd
  intro t ht hnz e he
  by_cases htj : t = j
  · subst htj
    rw [getD_set_self _ _ _ _ (by omega)] at hnz he ⊢
    rw [hdistj] at he
    have hec : e < 2 ^ n := by omega
    have hslot : (key + e) % 2 ^ n ≠ t := by
      intro heq
      have := dist_of_add (2 ^ n) key e hc hec
      rw [heq, hdistj] at this
      omega
    rw [getD_set_ne _ _ _ _ _ (fun hh => hslot hh.symm)]
    exact hpath e he
  · rw [getD_set_ne _ _ _ _ _ (fun hh => htj hh.symm)] at hnz he ⊢
    have hch := hchain t ht hnz e he
    by_cases hpj : (keys.getD t 0 + e) % 2 ^ n = j
    · rw [hpj, getD_set_self _ _ _ _ (by omega)]
      exact hk0
    · rw [getD_set_ne _ _ _ _ _ (fun hh => hpj hh.symm)]
      exact hch

/-- Inserting an absent key preserves distinctness. -/
theorem keysDistinct_insert (keys : List Nat) (key j : Nat)
    (hdis : KeysDistinct keys) (hj : j < keys.length)
    (habs : ∀ t, t < keys.length → keys.getD t 0 ≠ key) :
    KeysDistinct (keys.set j key) := by
  intro i1 j1 hi1 hj1 hnz heq
  rw [List.length_set] at hi1 hj1
  by_cases h1 : i1 = j
  · by_cases h2 : j1 = j
    · rw [h1, h2]
    · subst h1
      rw [getD_set_self _ _ _ _ hj] at heq
      rw [getD_set_ne _ _ _ _ _ (fun hh => h2 hh.symm)] at heq
      exact absurd heq.symm (habs j1 hj1)
  · rw [getD_set_ne _ _ _ _ _ (fun hh => h1 hh.symm)] at hnz heq
    by_cases h2 : j1 = j
    · subst h2
      rw [getD_set_self _ _ _ _ hj] at heq
      exact absurd heq (habs i1 hi1)
    · rw [getD_set_ne _ _ _ _ _ (fun hh => h2 hh.symm)] at heq
      exact hdis i1 j1 hi1 hj1 hnz heq

/-- Clearing a slot preserves distinctness. -/
theorem keysDistinct_clear (keys : List Nat) (i : Nat)
    (hdis : KeysDistinct keys) : KeysDistinct (keys.set i 0) := by
  intro i1 j1 hi1 hj1 hnz heq
  rw [List.length_set] at hi1 hj1
  by_cases h1 : i1 = i
  · subst h1
    rw [getD_set_self _ _ _ _ hi1] at hnz
    exact absurd rfl hnz
  · rw [getD_set_ne _ _ _ _ _ (fun hh => h1 hh.symm)] at hnz heq
    by_cases h2 : j1 = i
    · subst h2
      rw [getD_set_self _ _ _ _ hj1] at heq
      exact absurd heq hnz
    · rw [getD_set_ne _ _ _ _ _ (fun hh => h2 hh.symm)] at heq
      exact hdis i1 j1 hi1 hj1 hnz heq

/-- Moving a key from slot `b` into the empty slot `a` preserves
distinctness. -/
theorem keysDistinct_move (keys : List Nat) (a b κ : Nat)
    (hdis : KeysDistinct keys) (ha : a < keys.length) (hb : b < keys.length)
    (hab : a ≠ b) (haz : keys.getD a 0 = 0) (hbk : keys.getD b 0 = κ)
    (hκ : κ ≠ 0) : KeysDistinct ((keys.set a κ).set b 0) := by
  intro i1 j1 hi1 hj1 hnz heq
  rw [List.length_set, List.length_set] at hi1 hj1
  have val : ∀ t, t < keys.length → ((keys.set a κ).set b 0).getD t 0 =
      if t = b then 0 else if t = a then κ else keys.getD t 0 := by
    intro t htl
    by_cases htb : t = b
    · subst htb
      rw [getD_set_self _ _ _ _ (by rw [List.length_set]; exact htl), if_pos rfl]
    · rw [getD_set_ne _ _ _ _ _ (fun hh => htb hh.symm), if_neg htb]
      by_cases hta : t = a
      · subst hta
        rw [getD_set_self _ _ _ _ htl, if_pos rfl]
      · rw [getD_set_ne _ _ _ _ _ (fun hh => hta hh.symm), if_neg hta]
  rw [val i1 hi1] at hnz heq
  rw [val j1 hj1] at heq
  by_cases h1b : i1 = b
  · rw [if_pos h1b] at hnz
    exact absurd rfl hnz
  · rw [if_neg h1b] at hnz heq
    by_cases h1a : i1 = a
    · rw [if_pos h1a] at hnz heq
      by_cases h2b : j1 = b
      · rw [if_pos h2b] at heq
        exact absurd heq hnz
      · rw [if_neg h2b] at heq
        by_cases h2a : j1 = a
        · rw [h1a, h2a]
        · rw [if_neg h2a] at heq
          have hbj : b = j1 := hdis b j1 hb hj1 (by rw [hbk]; exact hκ)
            (hbk.trans heq)
          exact absurd hbj.symm h2b
    · rw [if_neg h1a] at hnz heq
      by_cases h2b : j1 = b
      · rw [if_pos h2b] at heq
        exact absurd heq hnz
      · rw [if_neg h2b] at heq
        by_cases h2a : j1 = a
        · rw [if_pos h2a] at heq
          have := hdis i1 b hi1 hb hnz (by rw [hbk, heq])
          exact absurd this h1b
        · rw [if_neg h2a] at heq
          exact hdis i1 j1 hi1 hj1 hnz heq

theorem getD_replicate {α : Type _} (a : α) : ∀ (c t : Nat),
    (List.replicate c a).getD t a = a
  | 0, _ => rfl
  | _ + 1, 0 => rfl
  | c + 1, t + 1 => getD_replicate a c t

theorem countNZ_replicate : ∀ c : Nat, countNZ (List.replicate c 0) = 0
  | 0 => rfl
  | c + 1 => by
    rw [List.replicate_succ, countNZ_cons, countNZ_replicate c]
    simp

theorem pairs_replicate_zero {V : Type} (d : V) : ∀ (c c2 : Nat),
    pairs (List.replicate c 0) (List.replicate c2 d) = 0
  | 0, _ => rfl
  | _ + 1, 0 => pairs_nil_right _
  | c + 1, c2 + 1 => by
    rw [List.replicate_succ, List.replicate_succ, pairs_cons_z]
    exact pairs_replicate_zero d c c2

/-- An under-full table has an empty slot. -/
theorem exists_zero_slot (keys : List Nat) (h : countNZ keys < keys.length) :
    ∃ z, z < keys.length ∧ keys.getD z 0 = 0 := by
  by_contra hno
  push_neg at hno
  have hall : ∀ t, t < keys.length → keys.getD t 0 ≠ 0 := hno
  have : keys.length ≤ countNZ keys := by
    rw [countNZ_pos_card]
    have : (Finset.range keys.length).filter (fun t => keys.getD t 0 ≠ 0)
        = Finset.range keys.length := by
      apply Finset.filter_true_of_mem
      intro t ht
      exact hall t (Finset.mem_range.mp ht)
    rw [this, Finset.card_range]
  omega

section RehashSpec

variable {V : Type}

/-- Occupied count of a list of (key, value) pairs. -/
def countNZP (l : List (Nat × V)) : Nat := l.countP (fun kv => kv.1 != 0)

/-- Occupied pairs of a list of (key, value) pairs. -/
def pairsP (l : List (Nat × V)) : Multiset (Nat × V) :=
  (l.filter (fun kv => kv.1 != 0) : List (Nat × V))

theorem countNZP_cons (kv : Nat × V) (tl : List (Nat × V)) :
    countNZP (kv :: tl) = countNZP tl + if kv.1 ≠ 0 then 1 else 0 := by
  unfold countNZP
  rw [List.countP_cons]
  congr 1
  by_cases h : kv.1 = 0 <;> simp [h]

theorem pairsP_cons_nz (kv : Nat × V) (tl : List (Nat × V)) (h : kv.1 ≠ 0) :
    pairsP (kv :: tl) = kv ::ₘ pairsP tl := by
  simp [pairsP, List.filter_cons, h]

theorem pairsP_cons_z (kv : Nat × V) (tl : List (Nat × V)) (h : kv.1 = 0) :
    pairsP (kv :: tl) = pairsP tl := by
  simp [pairsP, List.filter_cons, h]

theorem pairsP_zip (keys : List Nat) (vals : List V) :
    pairsP (keys.zip vals) = pairs keys vals := rfl

theorem countNZP_zip : ∀ (keys : List Nat) (vals : List V),
    keys.length = vals.length → countNZP (keys.zip vals) = countNZ keys
  | [], [], _ => rfl
  | [], _ :: _, h => by simp at h
  | _ :: _, [], h => by simp at h
  | k :: ks, v :: vs, h => by
    rw [List.zip_cons_cons, countNZP_cons, countNZ_cons,
      countNZP_zip ks vs (by simpa using h)]

/-- Invariant of the rehash loop: each processed non-zero pair is
placed into the first empty slot of its probe sequence, preserving
lengths, the chain invariant, distinctness, occupancy accounting and
the multiset of stored pairs. -/
theorem rehash_fold_spec (n : Nat) :
    ∀ (l : List (Nat × V)) (acc : List Nat × List V),
    acc.1.length = 2 ^ n → acc.2.length = 2 ^ n →
    ChainInv acc.1 (2 ^ n) → KeysDistinct acc.1 →
    countNZ acc.1 + countNZP l < 2 ^ n →
    l.Pairwise (fun kv1 kv2 => kv1.1 = 0 ∨ kv2.1 = 0 ∨ kv1.1 ≠ kv2.1) →
    (∀ kv, kv ∈ l → kv.1 ≠ 0 → ∀ t, t < 2 ^ n → acc.1.getD t 0 ≠ kv.1) →
    (l.foldl (rehashStep (2 ^ n - 1)) acc).1.length = 2 ^ n ∧
    (l.foldl (rehashStep (2 ^ n - 1)) acc).2.length = 2 ^ n ∧
    ChainInv (l.foldl (rehashStep (2 ^ n - 1)) acc).1 (2 ^ n) ∧
    KeysDistinct (l.foldl (rehashStep (2 ^ n - 1)) acc).1 ∧
    countNZ (l.foldl (rehashStep (2 ^ n - 1)) acc).1
      = countNZ acc.1 + countNZP l ∧
    pairs (l.foldl (rehashStep (2 ^ n - 1)) acc).1
        (l.foldl (rehashStep (2 ^ n - 1)) acc).2
      = pairs acc.1 acc.2 + pairsP l := by
  intro l
  induction l with
  | nil =>
    intro acc h1 h2 h3 h4 _ _ _
    refine ⟨h1, h2, h3, h4, ?_, ?_⟩
    · simp [countNZP, List.foldl_nil]
    · simp [pairsP, List.foldl_nil]
  | cons kv tl ih =>
    intro acc h1 h2 hchain hdis hcnt hpw hnotin
    rw [List.foldl_cons]
    rw [List.pairwise_cons] at hpw
    by_cases hk : kv.1 = 0
    · have hstep : rehashStep (2 ^ n - 1) acc kv = acc := by
        simp [rehashStep, hk]
      rw [hstep]
      have hcnt2 : countNZ acc.1 + countNZP tl < 2 ^ n := by
        rw [countNZP_cons] at hcnt
        omega
      have hout := ih acc h1 h2 hchain hdis hcnt2 hpw.2
        (fun kv2 hm hnz => hnotin kv2 (List.mem_cons_of_mem _ hm) hnz)
      refine ⟨hout.1, hout.2.1, hout.2.2.1, hout.2.2.2.1, ?_, ?_⟩
      · rw [hout.2.2.2.2.1, countNZP_cons, if_neg (by simp [hk])]
        omega
      · rw [hout.2.2.2.2.2, pairsP_cons_z kv tl hk]
    · have hc : 0 < 2 ^ n := Nat.pos_pow_of_pos n (by omega)
      have hcnt1 : countNZ acc.1 < 2 ^ n := by
        rw [countNZP_cons, if_pos hk] at hcnt
        omega
      obtain ⟨z, hzl, hz0⟩ := exists_zero_slot acc.1 (by rw [h1]; exact hcnt1)
      rw [h1] at hzl
      obtain ⟨d, hd, hmin, hhit, hres⟩ := probeLoop_result acc.1 0 n kv.1
        ⟨z, hzl, Or.inr hz0⟩
      have hslot0 : acc.1.getD ((kv.1 + d) % 2 ^ n) 0 = 0 := by
        rcases hhit with h | h
        · exact h
        · exact h
      have hfuel : (2 ^ n - 1) + 1 = 2 ^ n := by omega
      have hel : emptyLoop acc.1 (2 ^ n - 1) kv.1 ((2 ^ n - 1) + 1)
          = some ((kv.1 + d) % 2 ^ n) := by
        rw [hfuel, emptyLoop_eq_probeLoop, hres, if_pos hslot0]
      have hstep : rehashStep (2 ^ n - 1) acc kv
          = (acc.1.set ((kv.1 + d) % 2 ^ n) kv.1,
             acc.2.set ((kv.1 + d) % 2 ^ n) kv.2) := by
        rw [rehashStep, if_neg hk, hel]
      rw [hstep]
      have hjc : (kv.1 + d) % 2 ^ n < 2 ^ n := Nat.mod_lt _ hc
      have hpath : ∀ e, e < d → acc.1.getD ((kv.1 + e) % 2 ^ n) 0 ≠ 0 := by
        intro e he hzero
        exact hmin e he (Or.inr hzero)
      have hchain2 : ChainInv (acc.1.set ((kv.1 + d) % 2 ^ n) kv.1) (2 ^ n) :=
        chainInv_insert n acc.1 kv.1 ((kv.1 + d) % 2 ^ n) d h1 hchain hjc
          hslot0 hk hd rfl hpath
      have habs : ∀ t, t < acc.1.length → acc.1.getD t 0 ≠ kv.1 := by
        intro t ht
        exact hnotin kv (List.mem_cons_self kv tl) hk t (by omega)
      have hdis2 : KeysDistinct (acc.1.set ((kv.1 + d) % 2 ^ n) kv.1) :=
        keysDistinct_insert acc.1 kv.1 _ hdis (by omega) habs
      have hcnt3 : countNZ (acc.1.set ((kv.1 + d) % 2 ^ n) kv.1)
          = countNZ acc.1 + 1 :=
        countNZ_set_nz acc.1 _ kv.1 (by omega) hslot0 hk
      have hpairs2 : pairs (acc.1.set ((kv.1 + d) % 2 ^ n) kv.1)
            (acc.2.set ((kv.1 + d) % 2 ^ n) kv.2)
          = (kv.1, kv.2) ::ₘ pairs acc.1 acc.2 :=
        pairs_set_both acc.1 acc.2 _ kv.1 kv.2 (by omega) (by omega) hslot0 hk
      have hnotin2 : ∀ kv2, kv2 ∈ tl → kv2.1 ≠ 0 → ∀ t, t < 2 ^ n →
          (acc.1.set ((kv.1 + d) % 2 ^ n) kv.1).getD t 0 ≠ kv2.1 := by
        intro kv2 hm hnz t ht
        by_cases htj : t = (kv.1 + d) % 2 ^ n
        · subst htj
          rw [getD_set_self _ _ _ _ (by omega)]
          rcases hpw.1 kv2 hm with h | h | h
          · exact absurd h hk
          · exact absurd h hnz
          · exact h
        · rw [getD_set_ne _ _ _ _ _ (fun hh => htj hh.symm)]
          exact hnotin kv2 (List.mem_cons_of_mem _ hm) hnz t ht
      have hcnt4 : countNZ (acc.1.set ((kv.1 + d) % 2 ^ n) kv.1) + countNZP tl
          < 2 ^ n := by
        rw [hcnt3]
        rw [countNZP_cons, if_pos hk] at hcnt
        omega
      have hout := ih (acc.1.set ((kv.1 + d) % 2 ^ n) kv.1,
          acc.2.set ((kv.1 + d) % 2 ^ n) kv.2)
        (by simp [h1]) (by simp [h2]) hchain2 hdis2 hcnt4 hpw.2 hnotin2
      refine ⟨hout.1, hout.2.1, hout.2.2.1, hout.2.2.2.1, ?_, ?_⟩
      · rw [hout.2.2.2.2.1]
        simp only []
        rw [hcnt3, countNZP_cons, if_pos hk]
        omega
      · rw [hout.2.2.2.2.2]
        simp only []
        rw [hpairs2, pairsP_cons_nz kv tl hk]
        rw [Multiset.cons_add, Multiset.add_cons]

/-- Pair-multiset bookkeeping of the rehash loop with no distinctness
assumptions: the placement loop looks only for an empty slot and never
compares keys, so every non-zero pair — duplicate keys included — is
written into its own empty slot and the multiset of stored pairs grows
by exactly the processed pairs. -/
theorem rehash_fold_pairs (n : Nat) :
    ∀ (l : List (Nat × V)) (acc : List Nat × List V),
    acc.1.length = 2 ^ n → acc.2.length = 2 ^ n →
    countNZ acc.1 + countNZP l < 2 ^ n →
    (l.foldl (rehashStep (2 ^ n - 1)) acc).1.length = 2 ^ n ∧
    (l.foldl (rehashStep (2 ^ n - 1)) acc).2.length = 2 ^ n ∧
    countNZ (l.foldl (rehashStep (2 ^ n - 1)) acc).1
      = countNZ acc.1 + countNZP l ∧
    pairs (l.foldl (rehashStep (2 ^ n - 1)) acc).1
        (l.foldl (rehashStep (2 ^ n - 1)) acc).2
      = pairs acc.1 acc.2 + pairsP l := by
  intro l
  induction l with
  | nil =>
    intro acc h1 h2 _
    refine ⟨h1, h2, ?_, ?_⟩
    · simp [countNZP, List.foldl_nil]
    · simp [pairsP, List.foldl_nil]
  | cons kv tl ih =>
    intro acc h1 h2 hcnt
    rw [List.foldl_cons]
    by_cases hk : kv.1 = 0
    · have hstep : rehashStep (2 ^ n - 1) acc kv = acc := by
        simp [rehashStep, hk]
      rw [hstep]
      have hcnt2 : countNZ acc.1 + countNZP tl < 2 ^ n := by
        rw [countNZP_cons] at hcnt
        omega
      have hout := ih acc h1 h2 hcnt2
      refine ⟨hout.1, hout.2.1, ?_, ?_⟩
      · rw [hout.2.2.1, countNZP_cons, if_neg (by simp [hk])]
        omega
      · rw [hout.2.2.2, pairsP_cons_z kv tl hk]
    · have hc : 0 < 2 ^ n := Nat.pos_pow_of_pos n (by omega)
      have hcnt1 : countNZ acc.1 < 2 ^ n := by
        rw [countNZP_cons, if_pos hk] at hcnt
        omega
      obtain ⟨z, hzl, hz0⟩ := exists_zero_slot acc.1 (by rw [h1]; exact hcnt1)
      rw [h1] at hzl
      obtain ⟨d, hd, hmin, hhit, hres⟩ := probeLoop_result acc.1 0 n kv.1
        ⟨z, hzl, Or.inr hz0⟩
      have hslot0 : acc.1.getD ((kv.1 + d) % 2 ^ n) 0 = 0 := by
        rcases hhit with h | h
        · exact h
        · exact h
      have hfuel : (2 ^ n - 1) + 1 = 2 ^ n := by omega
      have hel : emptyLoop acc.1 (2 ^ n - 1) kv.1 ((2 ^ n - 1) + 1)
          = some ((kv.1 + d) % 2 ^ n) := by
        rw [hfuel, emptyLoop_eq_probeLoop, hres, if_pos hslot0]
      have hstep : rehashStep (2 ^ n - 1) acc kv
          = (acc.1.set ((kv.1 + d) % 2 ^ n) kv.1,
             acc.2.set ((kv.1 + d) % 2 ^ n) kv.2) := by
        rw [rehashStep, if_neg hk, hel]
      rw [hstep]
      have hjc : (kv.1 + d) % 2 ^ n < 2 ^ n := Nat.mod_lt _ hc
      have hcnt3 : countNZ (acc.1.set ((kv.1 + d) % 2 ^ n) kv.1)
          = countNZ acc.1 + 1 :=
        countNZ_set_nz acc.1 _ kv.1 (by omega) hslot0 hk
      have hpairs2 : pairs (acc.1.set ((kv.1 + d) % 2 ^ n) kv.1)
            (acc.2.set ((kv.1 + d) % 2 ^ n) kv.2)
          = (kv.1, kv.2) ::ₘ pairs acc.1 acc.2 :=
        pairs_set_both acc.1 acc.2 _ kv.1 kv.2 (by omega) (by omega) hslot0 hk
      have hcnt4 : countNZ (acc.1.set ((kv.1 + d) % 2 ^ n) kv.1) + countNZP tl
          < 2 ^ n := by
        rw [hcnt3]
        rw [countNZP_cons, if_pos hk] at hcnt
        omega
      have hout := ih (acc.1.set ((kv.1 + d) % 2 ^ n) kv.1,
          acc.2.set ((kv.1 + d) % 2 ^ n) kv.2)
        (by simp [h1]) (by simp [h2]) hcnt4
      refine ⟨hout.1, hout.2.1, ?_, ?_⟩
      · rw [hout.2.2.1]
        simp only []
        rw [hcnt3, countNZP_cons, if_pos hk]
        omega
      · rw [hout.2.2.2]
        simp only []
        rw [hpairs2, pairsP_cons_nz kv tl hk]
        rw [Multiset.cons_add, Multiset.add_cons]

end RehashSpec

/-! ### Capacity loop lemmas -/

theorem hmapCapLoop_succ (reserve nm fuel : Nat) :
    hmapCapLoop reserve nm (fuel + 1) =
      if nm ≠ 0 ∧ nm / 2 ≤ reserve then
        if (nm * 2 + 1) % W = 0 then CapRes.overflow
        else hmapCapLoop reserve ((nm * 2 + 1) % W) fuel
      else CapRes.ok nm := rfl

theorem hmap64CapLoop_succ (res nc fuel : Nat) :
    hmap64CapLoop res nc (fuel + 1) =
      if nc ≠ 0 ∧ nc / 2 < res then
        if (nc * 2) % W = 0 then CapRes.overflow
        else hmap64CapLoop res ((nc * 2) % W) fuel
      else CapRes.ok nc := rfl

/-- With reserve 0 and a start value of at least 2 the 32-bit capacity
loop exits immediately. -/
theorem hmapCapLoop_zero_reserve (nm fuel : Nat) (h2 : 2 ≤ nm) :
    hmapCapLoop 0 nm (fuel + 1) = CapRes.ok nm := by
  rw [hmapCapLoop_succ, if_neg]
  intro hcond
  omega

/-- With reserve 0 the 64-bit capacity loop exits immediately. -/
theorem hmap64CapLoop_zero_reserve (nc fuel : Nat) :
    hmap64CapLoop 0 nc (fuel + 1) = CapRes.ok nc := by
  rw [hmap64CapLoop_succ, if_neg]
  intro hcond
  omega

/-- Every value of the 32-bit capacity loop that starts on an all-ones
value keeps the all-ones form `2 ^ j - 1` (saturating at `j = 64`), so
a successful exit is an all-ones capacity at least as large as the
start. -/
theorem hmapCapLoop_pow (reserve : Nat) : ∀ (fuel nm j nm2 : Nat), 1 ≤ j → j ≤ 64 →
    nm = 2 ^ j - 1 → hmapCapLoop reserve nm fuel = CapRes.ok nm2 →
    ∃ j2, j ≤ j2 ∧ j2 ≤ 64 ∧ nm2 = 2 ^ j2 - 1 := by
  intro fuel
  induction fuel with
  | zero =>
    intro nm j nm2 _ _ _ h
    exact absurd h (by simp [hmapCapLoop])
  | succ f ih =>
    intro nm j nm2 hj1 hj64 hform h
    rw [hmapCapLoop_succ] at h
    by_cases hcond : nm ≠ 0 ∧ nm / 2 ≤ reserve
    · rw [if_pos hcond] at h
      by_cases hj63 : j ≤ 63
      · have hlt : 2 ^ (j + 1) - 1 < W := by
          have : 2 ^ (j + 1) ≤ 2 ^ 64 := Nat.pow_le_pow_right (by omega) (by omega)
          have hpos : 0 < 2 ^ (j + 1) := Nat.pos_pow_of_pos _ (by omega)
          unfold W
          omega
        have hstep : (nm * 2 + 1) % W = 2 ^ (j + 1) - 1 := by
          have hpos : 0 < 2 ^ j := Nat.pos_pow_of_pos _ (by omega)
          have h2 : nm * 2 + 1 = 2 ^ (j + 1) - 1 := by
            rw [hform, Nat.pow_succ]
            omega
          rw [h2, Nat.mod_eq_of_lt hlt]
        have hne : (nm * 2 + 1) % W ≠ 0 := by
          rw [hstep]
          have hpos : 0 < 2 ^ (j + 1) := Nat.pos_pow_of_pos _ (by omega)
          have h4 : 4 ≤ 2 ^ (j + 1) := by
            calc 4 = 2 ^ 2 := by norm_num
            _ ≤ 2 ^ (j + 1) := Nat.pow_le_pow_right (by omega) (by omega)
          omega
        rw [if_neg hne, hstep] at h
        obtain ⟨j2, hle, hub, hf⟩ := ih _ (j + 1) nm2 (by omega) (by omega) rfl h
        exact ⟨j2, by omega, hub, hf⟩
      · have hj : j = 64 := by omega
        subst hj
        have hsat : (nm * 2 + 1) % W = 2 ^ 64 - 1 := by
          have h2 : nm * 2 + 1 = 2 ^ 64 + (2 ^ 64 - 1) := by
            rw [hform]
            have hpos : 0 < 2 ^ 64 := Nat.pos_pow_of_pos _ (by omega)
            omega
          rw [h2]
          unfold W
          rw [Nat.add_mod_left]
          apply Nat.mod_eq_of_lt
          have hpos : 0 < 2 ^ 64 := Nat.pos_pow_of_pos _ (by omega)
          omega
        have hne : (nm * 2 + 1) % W ≠ 0 := by
          rw [hsat]
          have hpos : 2 ≤ 2 ^ 64 := by
            calc 2 = 2 ^ 1 := by norm_num
            _ ≤ 2 ^ 64 := Nat.pow_le_pow_right (by omega) (by omega)
          omega
        rw [if_neg hne, hsat] at h
        exact ih _ 64 nm2 (by omega) (by omega) rfl h
    · rw [if_neg hcond] at h
      cases h
      exact ⟨j, le_rfl, hj64, hform⟩

/-- Every value of the 64-bit capacity loop keeps the power-of-two form
`2 ^ j` with `j ≤ 63` (doubling past `2 ^ 63` is caught by the overflow
test), so a successful exit is a power of two at least as large as the
start. -/
theorem hmap64CapLoop_pow (res : Nat) : ∀ (fuel nc j nc2 : Nat), 1 ≤ j → j ≤ 63 →
    nc = 2 ^ j → hmap64CapLoop res nc fuel = CapRes.ok nc2 →
    ∃ j2, j ≤ j2 ∧ j2 ≤ 63 ∧ nc2 = 2 ^ j2 := by
  intro fuel
  induction fuel with
  | zero =>
    intro nc j nc2 _ _ _ h
    exact absurd h (by simp [hmap64CapLoop])
  | succ f ih =>
    intro nc j nc2 hj1 hj63 hform h
    rw [hmap64CapLoop_succ] at h
    by_cases hcond : nc ≠ 0 ∧ nc / 2 < res
    · rw [if_pos hcond] at h
      by_cases hj62 : j ≤ 62
      · have hlt : 2 ^ (j + 1) < W := by
          unfold W
          exact Nat.pow_lt_pow_right (by omega) (by omega)
        have hstep : (nc * 2) % W = 2 ^ (j + 1) := by
          have h2 : nc * 2 = 2 ^ (j + 1) := by
            rw [hform, Nat.pow_succ]
          rw [h2, Nat.mod_eq_of_lt hlt]
        have hne : ¬ ((nc * 2) % W = 0) := by
          rw [hstep]
          have := Nat.pos_pow_of_pos (j + 1) (show 0 < 2 by omega)
          omega
        rw [if_neg hne, hstep] at h
        obtain ⟨j2, hle, hub, hf⟩ := ih _ (j + 1) nc2 (by omega) (by omega) rfl h
        exact ⟨j2, by omega, hub, hf⟩
      · have hj : j = 63 := by omega
        subst hj
        have hzero : (nc * 2) % W = 0 := by
          have h2 : nc * 2 = 2 ^ 64 := by
            rw [hform, ← Nat.pow_succ]
          rw [h2]
          unfold W
          exact Nat.mod_self _
        rw [if_pos hzero] at h
        cases h
    · rw [if_neg hcond] at h
      cases h
      exact ⟨j, le_rfl, hj63, hform⟩

/-! ### Map level well-formedness and operation specifications -/

theorem getD_eq_get {α : Type _} (l : List α) (d : α) (i : Nat) (h : i < l.length) :
    l.getD i d = l.get ⟨i, h⟩ := by
  rw [List.getD_eq_getElem l d h, List.get_eq_getElem]

section MapLemmas

variable {V : Type} [Inhabited V]

/-- Well-formedness of an allocated 32-bit map: every state the public
operations produce satisfies it (capacity a power of two, parallel
keys/values arrays, distinct non-zero keys, accurate length, load
factor at most one half, unbroken probe chains). -/
structure HmapWF (h : Hmap V) : Prop where
  pow : ∃ n, 4 ≤ n ∧ h.maxlen + 1 = 2 ^ n
  klen : h.keys.length = h.maxlen + 1
  vlen : h.vals.length = h.maxlen + 1
  dis : KeysDistinct h.keys
  lenEq : h.len = countNZ h.keys
  room : h.len * 2 ≤ h.maxlen + 1
  chain : ChainInv h.keys (h.maxlen + 1)

/-- Well-formedness of an allocated 64-bit map. -/
structure Hmap64WF (h : Hmap64 V) : Prop where
  pow : ∃ n, 4 ≤ n ∧ h.cap = 2 ^ n
  klen : h.keys.length = h.cap
  vlen : h.vals.length = h.cap
  dis : KeysDistinct h.keys
  lenEq : h.len = countNZ h.keys
  room : h.len * 2 ≤ h.cap
  chain : ChainInv h.keys h.cap

theorem zip_pairwise_of_distinct (keys : List Nat) (vals : List V)
    (hdis : KeysDistinct keys) :
    (keys.zip vals).Pairwise
      (fun kv1 kv2 => kv1.1 = 0 ∨ kv2.1 = 0 ∨ kv1.1 ≠ kv2.1) := by
  rw [List.pairwise_iff_get]
  intro i j hij
  have hzl : (keys.zip vals).length ≤ keys.length := by
    rw [List.length_zip]
    omega
  have hi : i.1 < keys.length := Nat.lt_of_lt_of_le i.2 hzl
  have hjlt : j.1 < keys.length := Nat.lt_of_lt_of_le j.2 hzl
  rw [List.get_zip, List.get_zip]
  by_cases h1 : keys.get ⟨i.1, hi⟩ = 0
  · left
    exact h1
  · by_cases h2 : keys.get ⟨j.1, hjlt⟩ = 0
    · right; left
      exact h2
    · right; right
      intro heq
      have hgi : keys.getD i.1 0 = keys.get ⟨i.1, hi⟩ := getD_eq_get _ _ _ hi
      have hgj : keys.getD j.1 0 = keys.get ⟨j.1, hjlt⟩ := getD_eq_get _ _ _ hjlt
      have hii := hdis i.1 j.1 hi hjlt (by rw [hgi]; exact h1) (by rw [hgi, hgj]; exact heq)
      have : i.1 < j.1 := hij
      omega

/-- The zero-filled fresh table is trivially chain-invariant and
distinct. -/
theorem chainInv_zero_table (c c2 : Nat) : ChainInv (List.replicate c 0) c2 := by
  intro j _ hnz
  exact absurd (getD_replicate 0 c j) hnz

theorem keysDistinct_zero_table (c : Nat) : KeysDistinct (List.replicate c 0) := by
  intro i j _ _ hnz _
  exact absurd (getD_replicate 0 c i) hnz

/-- A successful, non-overflowing growth of an allocated 32-bit map:
the capacity becomes a strictly larger power of two, length and null
value are preserved, and the rehashed table stores exactly the old
pairs under intact invariants. -/
theorem hmap__grow_some_spec (h : Hmap V) (reserve n nm : Nat)
    (hpow : h.maxlen + 1 = 2 ^ n) (hn : 1 ≤ n) (hsz : n ≤ 62)
    (hklen : h.keys.length = h.maxlen + 1) (hvlen : h.vals.length = h.maxlen + 1)
    (hdis : KeysDistinct h.keys)
    (hok : hmapCapLoop reserve ((h.maxlen * 2 + 1) % W) 200 = CapRes.ok nm)
    (hnm : nm < 2 ^ 63) :
    ∃ h2 n2, hmap__grow (some h) reserve true true = some h2 ∧
      h2.maxlen = nm ∧ h2.maxlen + 1 = 2 ^ n2 ∧ n < n2 ∧ n2 ≤ 63 ∧
      h2.len = h.len ∧ h2.nullv = h.nullv ∧
      h2.keys.length = h2.maxlen + 1 ∧ h2.vals.length = h2.maxlen + 1 ∧
      ChainInv h2.keys (h2.maxlen + 1) ∧ KeysDistinct h2.keys ∧
      countNZ h2.keys = countNZ h.keys ∧
      pairs h2.keys h2.vals = pairs h.keys h.vals := by
  have hml : h.maxlen = 2 ^ n - 1 := by omega
  have hpos : 0 < 2 ^ n := Nat.pos_pow_of_pos n (by omega)
  have hlt : 2 ^ (n + 1) - 1 < W := by
    unfold W
    have : 2 ^ (n + 1) ≤ 2 ^ 63 := Nat.pow_le_pow_right (by omega) (by omega)
    have : (0:Nat) < 2 ^ 63 := Nat.pos_pow_of_pos _ (by omega)
    have h64 : (2:Nat) ^ 63 < 2 ^ 64 := Nat.pow_lt_pow_right (by omega) (by omega)
    omega
  have hstart : (h.maxlen * 2 + 1) % W = 2 ^ (n + 1) - 1 := by
    have h2 : h.maxlen * 2 + 1 = 2 ^ (n + 1) - 1 := by
      rw [hml, Nat.pow_succ]
      omega
    rw [h2, Nat.mod_eq_of_lt hlt]
  rw [hstart] at hok
  obtain ⟨n2, hn2ge, hn2le, hform⟩ := hmapCapLoop_pow reserve 200 _ (n + 1) nm
    (by omega) (by omega) rfl hok
  have hpos2 : 0 < 2 ^ n2 := Nat.pos_pow_of_pos n2 (by omega)
  have hn2le63 : n2 ≤ 63 := by
    by_contra hgt
    have h64 : n2 = 64 := by omega
    subst h64
    have : (2:Nat) ^ 63 < 2 ^ 64 := Nat.pow_lt_pow_right (by omega) (by omega)
    have hpos3 : 0 < 2 ^ 64 := Nat.pos_pow_of_pos _ (by omega)
    omega
  have hcap2 : nm + 1 = 2 ^ n2 := by omega
  -- reduce the grow body
  have hgrow : hmap__grow (some h) reserve true true
      = some { len := h.len, maxlen := nm,
               keys := (hmapRehash h.keys h.vals nm
                 (List.replicate (nm + 1) 0, List.replicate (nm + 1) default)).1,
               vals := (hmapRehash h.keys h.vals nm
                 (List.replicate (nm + 1) 0, List.replicate (nm + 1) default)).2,
               nullv := h.nullv } := by
    rw [hmap__grow, hstart, hok]
    rfl
  have hmask : nm = 2 ^ n2 - 1 := hform
  have hcnt : countNZ h.keys ≤ 2 ^ n := by
    rw [← hpow, ← hklen]
    exact List.countP_le_length _
  have h2n : (2:Nat) ^ n < 2 ^ n2 := Nat.pow_lt_pow_right (by omega) (by omega)
  have hfold := rehash_fold_spec (V := V) n2 (h.keys.zip h.vals)
    (List.replicate (nm + 1) 0, List.replicate (nm + 1) default)
    (by simp only [List.length_replicate]; omega)
    (by simp only [List.length_replicate]; omega)
    (chainInv_zero_table (nm + 1) (2 ^ n2))
    (keysDistinct_zero_table _)
    (by
      show countNZ (List.replicate (nm + 1) 0) + countNZP (h.keys.zip h.vals) < 2 ^ n2
      rw [countNZ_replicate, countNZP_zip _ _ (hklen.trans hvlen.symm)]
      omega)
    (zip_pairwise_of_distinct h.keys h.vals hdis)
    (by
      intro kv _ hnz t _
      show (List.replicate (nm + 1) 0).getD t 0 ≠ kv.1
      rw [getD_replicate]
      exact fun hh => hnz hh.symm)
  have hbr : hmapRehash h.keys h.vals nm
        (List.replicate (nm + 1) 0, List.replicate (nm + 1) default)
      = (h.keys.zip h.vals).foldl (rehashStep (2 ^ n2 - 1))
        (List.replicate (nm + 1) 0, List.replicate (nm + 1) default) := by
    rw [hmapRehash, ← hmask]
  obtain ⟨hl1, hl2, hch, hds, hcn, hpr⟩ := hfold
  rw [← hbr] at hl1 hl2 hch hds hcn hpr
  refine ⟨_, n2, hgrow, rfl, by simpa using hcap2, by omega, hn2le63, rfl, rfl,
    ?_, ?_, ?_, ?_, ?_, ?_⟩
  · show (hmapRehash h.keys h.vals nm _).1.length = nm + 1
    omega
  · show (hmapRehash h.keys h.vals nm _).2.length = nm + 1
    omega
  · show ChainInv (hmapRehash h.keys h.vals nm _).1 (nm + 1)
    exact hcap2.symm ▸ hch
  · exact hds
  · show countNZ (hmapRehash h.keys h.vals nm _).1 = countNZ h.keys
    rw [hcn, countNZ_replicate, countNZP_zip _ _ (hklen.trans hvlen.symm)]
    omega
  · show pairs (hmapRehash h.keys h.vals nm _).1 (hmapRehash h.keys h.vals nm _).2
      = pairs h.keys h.vals
    rw [hpr, pairsP_zip, pairs_replicate_zero, zero_add]

/-- A successful, non-overflowing growth of an allocated 64-bit map. -/
theorem hmap64__grow_some_spec (h : Hmap64 V) (res n nc : Nat)
    (hpow : h.cap = 2 ^ n) (hn : 1 ≤ n) (hsz : n ≤ 62)
    (hklen : h.keys.length = h.cap) (hvlen : h.vals.length = h.cap)
    (hdis : KeysDistinct h.keys)
    (hok : hmap64CapLoop res ((h.cap * 2) % W) 200 = CapRes.ok nc) :
    ∃ h2 n2, hmap64__grow (some h) res true true = some h2 ∧
      h2.cap = nc ∧ h2.cap = 2 ^ n2 ∧ n < n2 ∧ n2 ≤ 63 ∧
      h2.len = h.len ∧ h2.nullv = h.nullv ∧
      h2.keys.length = h2.cap ∧ h2.vals.length = h2.cap ∧
      ChainInv h2.keys h2.cap ∧ KeysDistinct h2.keys ∧
      countNZ h2.keys = countNZ h.keys ∧
      pairs h2.keys h2.vals = pairs h.keys h.vals := by
  have hpos : 0 < 2 ^ n := Nat.pos_pow_of_pos n (by omega)
  have hlt : 2 ^ (n + 1) < W := by
    unfold W
    exact Nat.pow_lt_pow_right (by omega) (by omega)
  have hstart : (h.cap * 2) % W = 2 ^ (n + 1) := by
    have h2 : h.cap * 2 = 2 ^ (n + 1) := by
      rw [hpow, Nat.pow_succ]
    rw [h2, Nat.mod_eq_of_lt hlt]
  rw [hstart] at hok
  obtain ⟨n2, hn2ge, hn2le, hform⟩ := hmap64CapLoop_pow res 200 _ (n + 1) nc
    (by omega) (by omega) rfl hok
  have hpos2 : 0 < 2 ^ n2 := Nat.pos_pow_of_pos n2 (by omega)
  have hgrow : hmap64__grow (some h) res true true
      = some { len := h.len, cap := nc,
               keys := (hmapRehash h.keys h.vals (nc - 1)
                 (List.replicate nc 0, List.replicate nc default)).1,
               vals := (hmapRehash h.keys h.vals (nc - 1)
                 (List.replicate nc 0, List.replicate nc default)).2,
               nullv := h.nullv } := by
    rw [hmap64__grow, hstart, hok]
    rfl
  have hcnt : countNZ h.keys ≤ 2 ^ n := by
    rw [← hpow, ← hklen]
    exact List.countP_le_length _
  have h2n : (2:Nat) ^ n < 2 ^ n2 := Nat.pow_lt_pow_right (by omega) (by omega)
  have hfold := rehash_fold_spec (V := V) n2 (h.keys.zip h.vals)
    (List.replicate nc 0, List.replicate nc default)
    (by simp only [List.length_replicate]; omega)
    (by simp only [List.length_replicate]; omega)
    (hform ▸ chainInv_zero_table nc (2 ^ n2))
    (keysDistinct_zero_table _)
    (by
      show countNZ (List.replicate nc 0) + countNZP (h.keys.zip h.vals) < 2 ^ n2
      rw [countNZ_replicate, countNZP_zip _ _ (hklen.trans hvlen.symm)]
      omega)
    (zip_pairwise_of_distinct h.keys h.vals hdis)
    (by
      intro kv _ hnz t _
      show (List.replicate nc 0).getD t 0 ≠ kv.1
      rw [getD_replicate]
      exact fun hh => hnz hh.symm)
  have hbr : hmapRehash h.keys h.vals (nc - 1)
        (List.replicate nc 0, List.replicate nc default)
      = (h.keys.zip h.vals).foldl (rehashStep (2 ^ n2 - 1))
        (List.replicate nc 0, List.replicate nc default) := by
    rw [hmapRehash, hform]
  obtain ⟨hl1, hl2, hch, hds, hcn, hpr⟩ := hfold
  rw [← hbr] at hl1 hl2 hch hds hcn hpr
  refine ⟨_, n2, hgrow, rfl, hform, by omega, by omega, rfl, rfl,
    ?_, ?_, ?_, ?_, ?_, ?_⟩
  · show (hmapRehash h.keys h.vals (nc - 1) _).1.length = nc
    omega
  · show (hmapRehash h.keys h.vals (nc - 1) _).2.length = nc
    omega
  · show ChainInv (hmapRehash h.keys h.vals (nc - 1) _).1 nc
    exact hform.symm ▸ hch
  · exact hds
  · show countNZ (hmapRehash h.keys h.vals (nc - 1) _).1 = countNZ h.keys
    rw [hcn, countNZ_replicate, countNZP_zip _ _ (hklen.trans hvlen.symm)]
    omega
  · show pairs (hmapRehash h.keys h.vals (nc - 1) _).1
        (hmapRehash h.keys h.vals (nc - 1) _).2 = pairs h.keys h.vals
    rw [hpr, pairsP_zip, pairs_replicate_zero, zero_add]

/-- A successful growth of an allocated 64-bit map preserves the
multiset of stored pairs, the length and the null value, assuming only
the table geometry — no probe-chain soundness and no key distinctness.
The rehash placement loop looks only for empty slots, so a table
holding duplicate copies of a key (possible after the chain-breaking
64-bit deletion) has every copy re-placed. -/
theorem hmap64__grow_pairs (h : Hmap64 V) (res n nc : Nat)
    (hpow : h.cap = 2 ^ n) (hn : 1 ≤ n) (hsz : n ≤ 62)
    (hklen : h.keys.length = h.cap) (hvlen : h.vals.length = h.cap)
    (hok : hmap64CapLoop res ((h.cap * 2) % W) 200 = CapRes.ok nc) :
    ∃ h2, hmap64__grow (some h) res true true = some h2 ∧
      pairs h2.keys h2.vals = pairs h.keys h.vals ∧
      h2.len = h.len ∧ h2.nullv = h.nullv := by
  have hpos : 0 < 2 ^ n := Nat.pos_pow_of_pos n (by omega)
  have hlt : 2 ^ (n + 1) < W := by
    unfold W
    exact Nat.pow_lt_pow_right (by omega) (by omega)
  have hstart : (h.cap * 2) % W = 2 ^ (n + 1) := by
    have h2 : h.cap * 2 = 2 ^ (n + 1) := by
      rw [hpow, Nat.pow_succ]
    rw [h2, Nat.mod_eq_of_lt hlt]
  rw [hstart] at hok
  obtain ⟨n2, hn2ge, hn2le, hform⟩ := hmap64CapLoop_pow res 200 _ (n + 1) nc
    (by omega) (by omega) rfl hok
  have hpos2 : 0 < 2 ^ n2 := Nat.pos_pow_of_pos n2 (by omega)
  have hgrow : hmap64__grow (some h) res true true
      = some { len := h.len, cap := nc,
               keys := (hmapRehash h.keys h.vals (nc - 1)
                 (List.replicate nc 0, List.replicate nc default)).1,
               vals := (hmapRehash h.keys h.vals (nc - 1)
                 (List.replicate nc 0, List.replicate nc default)).2,
               nullv := h.nullv } := by
    rw [hmap64__grow, hstart, hok]
    rfl
  have hcnt : countNZ h.keys ≤ 2 ^ n := by
    rw [← hpow, ← hklen]
    exact List.countP_le_length _
  have h2n : (2:Nat) ^ n < 2 ^ n2 := Nat.pow_lt_pow_right (by omega) (by omega)
  have hfold := rehash_fold_pairs (V := V) n2 (h.keys.zip h.vals)
    (List.replicate nc 0, List.replicate nc default)
    (by simp only [List.length_replicate]; omega)
    (by simp only [List.length_replicate]; omega)
    (by
      show countNZ (List.replicate nc 0) + countNZP (h.keys.zip h.vals) < 2 ^ n2
      rw [countNZ_replicate, countNZP_zip _ _ (hklen.trans hvlen.symm)]
      omega)
  have hbr : hmapRehash h.keys h.vals (nc - 1)
        (List.replicate nc 0, List.replicate nc default)
      = (h.keys.zip h.vals).foldl (rehashStep (2 ^ n2 - 1))
        (List.replicate nc 0, List.replicate nc default) := by
    rw [hmapRehash, hform]
  obtain ⟨hl1, hl2, hcn, hpr⟩ := hfold
  rw [← hbr] at hpr
  refine ⟨_, hgrow, ?_, rfl, rfl⟩
  show pairs (hmapRehash h.keys h.vals (nc - 1) _).1
      (hmapRehash h.keys h.vals (nc - 1) _).2 = pairs h.keys h.vals
  rw [hpr, pairsP_zip, pairs_replicate_zero, zero_add]

/-- The first allocation of a 32-bit map: 16 zeroed slots. -/
theorem hmap__grow_none_spec :
    hmap__grow (none : Option (Hmap V)) 0 true true
      = some { len := 0, maxlen := 15, keys := List.replicate 16 0,
               vals := List.replicate 16 default, nullv := default } := by
  rw [hmap__grow]
  rw [show hmapCapLoop 0 15 200 = CapRes.ok 15 from
    hmapCapLoop_zero_reserve 15 199 (by omega)]
  rfl

/-- The first allocation of a 64-bit map: 16 zeroed slots. -/
theorem hmap64__grow_none_spec :
    hmap64__grow (none : Option (Hmap64 V)) 0 true true
      = some { len := 0, cap := 16, keys := List.replicate 16 0,
               vals := List.replicate 16 default, nullv := default } := by
  rw [hmap64__grow]
  rw [show hmap64CapLoop 0 16 200 = CapRes.ok 16 from
    hmap64CapLoop_zero_reserve 16 199]
  rfl

/-! ### Lookup and insert specifications (32-bit map) -/

/-- Specification-level observation of a 32-bit map: the stored value
of a key, `none` if absent.  `HMAP_HAS`, `HMAP_IDX` and the value read
by `HMAP_GET` are all determined by it. -/
def hmapObserve (h : Hmap V) (key : Nat) : Option V :=
  (hmap__idx_lookup h key).map (fun j => h.vals.getD j h.nullv)

theorem HMAP_HAS_eq_observe (h : Hmap V) (key : Nat) :
    HMAP_HAS (some h) key = (hmapObserve h key).isSome := by
  rw [HMAP_HAS, hmapObserve]
  cases hmap__idx_lookup h key <;> rfl

theorem hmap__idx_lookup_found (h : Hmap V) (n key j : Nat)
    (hpow : h.maxlen + 1 = 2 ^ n) (hklen : h.keys.length = h.maxlen + 1)
    (hdis : KeysDistinct h.keys) (hchain : ChainInv h.keys (h.maxlen + 1))
    (hj : j < h.maxlen + 1) (hkey : h.keys.getD j 0 = key) (hk0 : key ≠ 0) :
    hmap__idx_lookup h key = some j := by
  have hm : h.maxlen = 2 ^ n - 1 := by omega
  have hfuel : h.maxlen + 1 = 2 ^ n := hpow
  rw [hmap__idx_lookup, if_neg hk0, hpow, hm]
  rw [probe_lookup_found n h.keys key j (by omega) hdis (by rw [← hpow]; exact hchain)
    (by omega) hkey hk0]

theorem hmap__idx_lookup_absent (h : Hmap V) (n key : Nat)
    (hpow : h.maxlen + 1 = 2 ^ n) (hklen : h.keys.length = h.maxlen + 1)
    (hz : ∃ z, z < h.maxlen + 1 ∧ h.keys.getD z 0 = 0)
    (habs : ∀ t, t < h.maxlen + 1 → h.keys.getD t 0 ≠ key) :
    hmap__idx_lookup h key = none := by
  by_cases hk0 : key = 0
  · rw [hmap__idx_lookup, if_pos hk0]
  · have hm : h.maxlen = 2 ^ n - 1 := by omega
    rw [hmap__idx_lookup, if_neg hk0, hpow, hm]
    obtain ⟨j, d, hjc, hj0, hjd, hd, hpath, hres⟩ := probe_lookup_absent n h.keys key
      (by rw [← hpow]; exact hz) (by rw [← hpow]; exact habs)
    rw [hres]

/-- `hmap__idx(add=1)` on a stored key: found, no mutation. -/
theorem hmap__idx_add_found (h : Hmap V) (n key j : Nat)
    (hpow : h.maxlen + 1 = 2 ^ n) (hklen : h.keys.length = h.maxlen + 1)
    (hdis : KeysDistinct h.keys) (hchain : ChainInv h.keys (h.maxlen + 1))
    (hj : j < h.maxlen + 1) (hkey : h.keys.getD j 0 = key) (hk0 : key ≠ 0) :
    hmap__idx_add h key = some (j, h) := by
  have hm : h.maxlen = 2 ^ n - 1 := by omega
  rw [hmap__idx_add, if_neg hk0, hpow, hm]
  rw [probe_lookup_found n h.keys key j (by omega) hdis (by rw [← hpow]; exact hchain)
    (by omega) hkey hk0]

/-- `hmap__idx(add=1)` on an absent key: the first empty slot of the
probe sequence is claimed and all table invariants are preserved. -/
theorem hmap__idx_add_insert (h : Hmap V) (n key : Nat)
    (hpow : h.maxlen + 1 = 2 ^ n) (hklen : h.keys.length = h.maxlen + 1)
    (hdis : KeysDistinct h.keys) (hchain : ChainInv h.keys (h.maxlen + 1))
    (hz : ∃ z, z < h.maxlen + 1 ∧ h.keys.getD z 0 = 0)
    (habs : ∀ t, t < h.maxlen + 1 → h.keys.getD t 0 ≠ key) (hk0 : key ≠ 0) :
    ∃ j, hmap__idx_add h key
        = some (j, { h with len := h.len + 1, keys := h.keys.set j key }) ∧
      j < h.maxlen + 1 ∧ h.keys.getD j 0 = 0 ∧
      ChainInv (h.keys.set j key) (h.maxlen + 1) ∧
      KeysDistinct (h.keys.set j key) ∧
      countNZ (h.keys.set j key) = countNZ h.keys + 1 := by
  have hm : h.maxlen = 2 ^ n - 1 := by omega
  obtain ⟨j, d, hjc, hj0, hjd, hd, hpath, hres⟩ := probe_lookup_absent n h.keys key
    (by rw [← hpow]; exact hz) (by rw [← hpow]; exact habs)
  refine ⟨j, ?_, by omega, hj0, ?_, ?_, ?_⟩
  · rw [hmap__idx_add, if_neg hk0, hpow, hm, hres]
  · rw [hpow]
    exact chainInv_insert n h.keys key j d (by omega) (by rw [← hpow]; exact hchain)
      (by omega) hj0 hk0 hd hjd hpath
  · exact keysDistinct_insert h.keys key j hdis (by omega)
      (fun t ht => habs t (by omega))
  · exact countNZ_set_nz h.keys j key (by omega) hj0 hk0

/-- Two well-formed tables storing the same pairs are observationally
identical. -/
theorem observe_eq_of_pairs (h1 h2 : Hmap V)
    (hWF1 : HmapWF h1) (hWF2 : HmapWF h2)
    (hpr : pairs h1.keys h1.vals = pairs h2.keys h2.vals) (key : Nat) :
    hmapObserve h1 key = hmapObserve h2 key := by
  obtain ⟨n1, hn1, hpow1⟩ := hWF1.pow
  obtain ⟨n2, hn2, hpow2⟩ := hWF2.pow
  have hc1 : 0 < h1.maxlen + 1 := by omega
  have hc2 : 0 < h2.maxlen + 1 := by omega
  have hroom1 : countNZ h1.keys < h1.maxlen + 1 := by
    have hr := hWF1.room
    have hle := hWF1.lenEq
    have : (16:Nat) ≤ 2 ^ n1 := by
      calc (16:Nat) = 2 ^ 4 := by norm_num
      _ ≤ 2 ^ n1 := Nat.pow_le_pow_right (by omega) (by omega)
    omega
  have hroom2 : countNZ h2.keys < h2.maxlen + 1 := by
    have hr := hWF2.room
    have hle := hWF2.lenEq
    have : (16:Nat) ≤ 2 ^ n2 := by
      calc (16:Nat) = 2 ^ 4 := by norm_num
      _ ≤ 2 ^ n2 := Nat.pow_le_pow_right (by omega) (by omega)
    omega
  by_cases hk0 : key = 0
  · rw [hmapObserve, hmapObserve, hmap__idx_lookup, hmap__idx_lookup,
      if_pos hk0, if_pos hk0]
    rfl
  have hk1 := hWF1.klen
  have hv1 := hWF1.vlen
  have hk2 := hWF2.klen
  have hv2 := hWF2.vlen
  by_cases hpres : ∃ j, j < h1.maxlen + 1 ∧ h1.keys.getD j 0 = key
  · obtain ⟨j, hj, hkey⟩ := hpres
    have hmem : (key, h1.vals.getD j h1.nullv) ∈ pairs h1.keys h1.vals := by
      rw [mem_pairs h1.nullv]
      exact ⟨hk0, j, by omega, by omega, hkey, rfl⟩
    rw [hpr] at hmem
    rw [mem_pairs h1.nullv] at hmem
    obtain ⟨_, j2, hj2k, hj2v, hkey2, hval2⟩ := hmem
    have hl1 : hmap__idx_lookup h1 key = some j
      := hmap__idx_lookup_found h1 n1 key j hpow1 hWF1.klen hWF1.dis hWF1.chain
        hj hkey hk0
    have hl2 : hmap__idx_lookup h2 key = some j2
      := hmap__idx_lookup_found h2 n2 key j2 hpow2 hWF2.klen hWF2.dis hWF2.chain
        (by omega) hkey2 hk0
    rw [hmapObserve, hmapObserve, hl1, hl2]
    simp only [Option.map_some']
    have hdfl : h2.vals.getD j2 h2.nullv = h2.vals.getD j2 h1.nullv := by
      rw [getD_eq_get _ _ _ hj2v, getD_eq_get _ _ _ hj2v]
    rw [hdfl, hval2]
  · push_neg at hpres
    have habs1 : ∀ t, t < h1.maxlen + 1 → h1.keys.getD t 0 ≠ key := hpres
    have habs2 : ∀ t, t < h2.maxlen + 1 → h2.keys.getD t 0 ≠ key := by
      intro t ht hkey2
      have hmem : (key, h2.vals.getD t h2.nullv) ∈ pairs h2.keys h2.vals := by
        rw [mem_pairs h2.nullv]
        refine ⟨hk0, t, by omega, by omega, hkey2, rfl⟩
      rw [← hpr] at hmem
      rw [mem_pairs h2.nullv] at hmem
      obtain ⟨_, j1, hj1k, _, hkey1, _⟩ := hmem
      exact habs1 j1 (by omega) hkey1
    have hz1 : ∃ z, z < h1.maxlen + 1 ∧ h1.keys.getD z 0 = 0 := by
      obtain ⟨z, hz, h0⟩ := exists_zero_slot h1.keys (by
        rw [hWF1.klen]
        exact hroom1)
      exact ⟨z, by rw [← hWF1.klen]; omega, h0⟩
    have hz2 : ∃ z, z < h2.maxlen + 1 ∧ h2.keys.getD z 0 = 0 := by
      obtain ⟨z, hz, h0⟩ := exists_zero_slot h2.keys (by
        rw [hWF2.klen]
        exact hroom2)
      exact ⟨z, by rw [← hWF2.klen]; omega, h0⟩
    rw [hmapObserve, hmapObserve,
      hmap__idx_lookup_absent h1 n1 key hpow1 hWF1.klen hz1 habs1,
      hmap__idx_lookup_absent h2 n2 key hpow2 hWF2.klen hz2 habs2]
    rfl

/-- `HMAP__FIT1` on a well-formed allocated map with a successful
allocator: the result is well formed, has strict insert headroom
(`len * 2 ≤ maxlen`), and stores the same pairs, length and null
value.  Growth at most doubles the capacity. -/
theorem HMAP__FIT1_spec (h : Hmap V) (hWF : HmapWF h)
    (hsz : h.maxlen + 1 ≤ 2 ^ 62) :
    ∃ h1, HMAP__FIT1 (some h) true true = some h1 ∧ HmapWF h1 ∧
      h1.len * 2 ≤ h1.maxlen ∧ h1.len = h.len ∧ h1.nullv = h.nullv ∧
      h1.maxlen + 1 ≤ 2 * (h.maxlen + 1) ∧ h.maxlen ≤ h1.maxlen ∧
      (h1.maxlen = h.maxlen ∨ h.maxlen < h.len * 2) ∧
      pairs h1.keys h1.vals = pairs h.keys h.vals := by
  obtain ⟨n, hn4, hpow⟩ := hWF.pow
  by_cases hfit : h.len * 2 ≤ h.maxlen
  · refine ⟨h, ?_, hWF, hfit, rfl, rfl, by omega, le_rfl, Or.inl rfl, rfl⟩
    rw [HMAP__FIT1, if_pos hfit]
  · have hpos : 0 < 2 ^ n := Nat.pos_pow_of_pos n (by omega)
    have hnsz : n ≤ 62 := by
      by_contra hgt
      have : (2:Nat) ^ 62 < 2 ^ n := Nat.pow_lt_pow_right (by omega) (by omega)
      have : (0:Nat) < 2 ^ 62 := Nat.pos_pow_of_pos _ (by omega)
      omega
    have h16 : (16:Nat) ≤ 2 ^ n := by
      calc (16:Nat) = 2 ^ 4 := by norm_num
      _ ≤ 2 ^ n := Nat.pow_le_pow_right (by omega) hn4
    have hp62 : (2:Nat) ^ 62 * 4 = 2 ^ 64 := by norm_num
    have hp63 : (2:Nat) ^ 62 * 2 = 2 ^ 63 := by norm_num
    have hstartv : (h.maxlen * 2 + 1) % W = h.maxlen * 2 + 1 := by
      apply Nat.mod_eq_of_lt
      unfold W
      omega
    have hok : hmapCapLoop 0 ((h.maxlen * 2 + 1) % W) 200
        = CapRes.ok ((h.maxlen * 2 + 1) % W) := by
      have := hmapCapLoop_zero_reserve ((h.maxlen * 2 + 1) % W) 199
        (by rw [hstartv]; omega)
      exact this
    have hnm : (h.maxlen * 2 + 1) % W < 2 ^ 63 := by
      rw [hstartv]
      omega
    obtain ⟨h2, n2, hgrow, hml2, hcap2, hlt2, hn2le, hlen2, hnull2, hklen2,
      hvlen2, hchain2, hdis2, hcnt2, hpairs2⟩ :=
      hmap__grow_some_spec h 0 n ((h.maxlen * 2 + 1) % W) hpow (by omega) hnsz
        hWF.klen hWF.vlen hWF.dis hok hnm
    have hml2v : h2.maxlen = h.maxlen * 2 + 1 := by rw [hml2, hstartv]
    refine ⟨h2, ?_, ?_, ?_, hlen2, hnull2, by omega, by omega,
      Or.inr (by omega), hpairs2⟩
    · rw [HMAP__FIT1, if_neg hfit]
      exact hgrow
    · exact {
        pow := ⟨n2, by omega, hcap2⟩
        klen := hklen2
        vlen := hvlen2
        dis := hdis2
        lenEq := by rw [hlen2, hcnt2]; exact hWF.lenEq
        room := by
          have := hWF.room
          omega
        chain := hchain2 }
    · have := hWF.room
      omega

/-- `HMAP_GET` on a well-formed allocated map: the value read is the
stored value of the key (the null value if absent), and the possibly
reallocated handle is well formed and observationally unchanged. -/
theorem HMAP_GET_spec (h : Hmap V) (key : Nat) (hWF : HmapWF h)
    (hsz : h.maxlen + 1 ≤ 2 ^ 62) :
    ∃ h1, HMAP_GET (some h) key true true
        = ((hmapObserve h key).getD h.nullv, some h1) ∧
      HmapWF h1 ∧ (∀ k2, hmapObserve h1 k2 = hmapObserve h k2) ∧
      h1.len = h.len ∧ h1.nullv = h.nullv ∧
      h1.maxlen + 1 ≤ 2 * (h.maxlen + 1) ∧ h.maxlen ≤ h1.maxlen := by
  obtain ⟨h1, hfit, hWF1, hroom1, hlen1, hnull1, hle1, hge1, _, hpairs1⟩ :=
    HMAP__FIT1_spec h hWF hsz
  have hobs : ∀ k2, hmapObserve h1 k2 = hmapObserve h k2 :=
    fun k2 => observe_eq_of_pairs h1 h hWF1 hWF hpairs1 k2
  refine ⟨h1, ?_, hWF1, hobs, hlen1, hnull1, hle1, hge1⟩
  rw [HMAP_GET, hfit]
  show (match hmap__idx_lookup h1 key with
      | some i => (h1.vals.getD i h1.nullv, some h1)
      | none => (h1.nullv, some h1))
    = ((hmapObserve h key).getD h.nullv, some h1)
  rw [← hobs key, hmapObserve]
  cases hl : hmap__idx_lookup h1 key with
  | none => rw [hnull1]; rfl
  | some j => rfl

/-- The freshly allocated 32-bit map (16 zeroed slots, zeroed null
value). -/
def hmapFresh : Hmap V :=
  { len := 0, maxlen := 15, keys := List.replicate 16 0,
    vals := List.replicate 16 default, nullv := default }

theorem hmap__grow_none_fresh :
    hmap__grow (none : Option (Hmap V)) 0 true true = some hmapFresh :=
  hmap__grow_none_spec

theorem hmapFresh_WF : HmapWF (hmapFresh : Hmap V) where
  pow := ⟨4, by omega, by norm_num [hmapFresh]⟩
  klen := by simp [hmapFresh]
  vlen := by simp [hmapFresh]
  dis := keysDistinct_zero_table 16
  lenEq := (countNZ_replicate 16).symm
  room := by simp [hmapFresh]
  chain := chainInv_zero_table 16 16

theorem hmapFresh_observe (k : Nat) : hmapObserve (hmapFresh : Hmap V) k = none := by
  by_cases hk0 : k = 0
  · rw [hmapObserve, hmap__idx_lookup, if_pos hk0]
    rfl
  · rw [hmapObserve, hmap__idx_lookup_absent hmapFresh 4 k (by norm_num [hmapFresh])
      (by simp [hmapFresh]) ⟨0, by omega, rfl⟩
      (fun t ht => by
        show (List.replicate 16 0).getD t 0 ≠ k
        rw [getD_replicate]
        exact fun hh => hk0 hh.symm)]
    rfl

/-- Handle-level observation (the NULL handle stores nothing). -/
def hmapObserveB (b : Option (Hmap V)) (key : Nat) : Option V :=
  match b with
  | some h => hmapObserve h key
  | none => none

/-- Handle-level null value (NULL handle: zeroed on first allocation). -/
def hmapNullvB (b : Option (Hmap V)) : V :=
  match b with
  | some h => h.nullv
  | none => default

/-- Handle-level well-formedness. -/
def HmapWFB (b : Option (Hmap V)) : Prop := ∀ h0, b = some h0 → HmapWF h0

/-- `HMAP__FIT1` at handle level (allocating on the NULL handle). -/
theorem HMAP__FIT1_handle_spec (b : Option (Hmap V)) (hWF : HmapWFB b)
    (hsz : HMAP_CAP b ≤ 2 ^ 62) :
    ∃ h1, HMAP__FIT1 b true true = some h1 ∧ HmapWF h1 ∧
      h1.len * 2 ≤ h1.maxlen ∧ h1.len = HMAP_LEN b ∧
      h1.nullv = hmapNullvB b ∧
      (∀ k2, hmapObserve h1 k2 = hmapObserveB b k2) ∧
      HMAP_CAP b ≤ h1.maxlen + 1 ∧
      h1.maxlen + 1 ≤ max 16 (2 * HMAP_CAP b) ∧
      h1.maxlen + 1 ≤ max 16 (max (HMAP_CAP b) (4 * HMAP_LEN b)) := by
  match b with
  | none =>
    refine ⟨hmapFresh, ?_, hmapFresh_WF, by norm_num [hmapFresh], rfl, rfl, ?_,
      ?_, ?_, ?_⟩
    · rw [HMAP__FIT1]
      exact hmap__grow_none_fresh
    · intro k2
      rw [hmapFresh_observe k2]
      rfl
    · show HMAP_CAP (none : Option (Hmap V)) ≤ hmapFresh.maxlen + 1
      norm_num [HMAP_CAP, hmapFresh]
    · show hmapFresh.maxlen + 1 ≤ max 16 (2 * HMAP_CAP (none : Option (Hmap V)))
      norm_num [HMAP_CAP, hmapFresh]
    · show hmapFresh.maxlen + 1
        ≤ max 16 (max (HMAP_CAP (none : Option (Hmap V)))
            (4 * HMAP_LEN (none : Option (Hmap V))))
      norm_num [HMAP_CAP, HMAP_LEN, hmapFresh]
  | some h =>
    have hWFh : HmapWF h := hWF h rfl
    obtain ⟨h1, hfit, hWF1, hroom1, hlen1, hnull1, hle1, hge1, hgrow1, hpairs1⟩ :=
      HMAP__FIT1_spec h hWFh (by simpa [HMAP_CAP] using hsz)
    refine ⟨h1, hfit, hWF1, hroom1, hlen1, hnull1,
      fun k2 => observe_eq_of_pairs h1 h hWF1 hWFh hpairs1 k2, ?_, ?_, ?_⟩
    · show h.maxlen + 1 ≤ h1.maxlen + 1
      omega
    · show h1.maxlen + 1 ≤ max 16 (2 * (h.maxlen + 1))
      omega
    · show h1.maxlen + 1 ≤ max 16 (max (h.maxlen + 1) (4 * h.len))
      rcases hgrow1 with hsame | hfull
      · have : h.maxlen + 1 ≤ max 16 (max (h.maxlen + 1) (4 * h.len)) := by omega
        omega
      · have h4 : h1.maxlen + 1 ≤ 4 * h.len := by omega
        omega

/-- `HMAP_SET` with a non-zero key on a well-formed handle: afterwards
the key is stored with the new value, every other key's observation is
unchanged, the null value is kept, the length grows by at most one and
the capacity at most doubles (16 on first allocation). -/
theorem HMAP_SET_spec (b : Option (Hmap V)) (key : Nat) (v : V)
    (hWF : HmapWFB b) (hsz : HMAP_CAP b ≤ 2 ^ 62) (hk0 : key ≠ 0) :
    ∃ h2, HMAP_SET b key v true true = some h2 ∧ HmapWF h2 ∧
      hmapObserve h2 key = some v ∧
      (∀ k2, k2 ≠ key → hmapObserve h2 k2 = hmapObserveB b k2) ∧
      h2.nullv = hmapNullvB b ∧
      (h2.len = HMAP_LEN b ∨ h2.len = HMAP_LEN b + 1) ∧
      HMAP_CAP b ≤ h2.maxlen + 1 ∧
      h2.maxlen + 1 ≤ max 16 (2 * HMAP_CAP b) ∧
      h2.maxlen + 1 ≤ max 16 (max (HMAP_CAP b) (4 * HMAP_LEN b)) := by
  obtain ⟨h1, hfit, hWF1, hroom1, hlen1, hnull1, hobs1, hcap1, hcap2, hcap3⟩ :=
    HMAP__FIT1_handle_spec b hWF hsz
  obtain ⟨n, hn4, hpow⟩ := hWF1.pow
  have h16 : (16:Nat) ≤ 2 ^ n := by
    calc (16:Nat) = 2 ^ 4 := by norm_num
    _ ≤ 2 ^ n := Nat.pow_le_pow_right (by omega) hn4
  have hklen1 := hWF1.klen
  have hvlen1 := hWF1.vlen
  have hcnt1 : countNZ h1.keys * 2 ≤ h1.maxlen := by
    have := hWF1.lenEq
    omega
  by_cases hpres : ∃ t, t < h1.maxlen + 1 ∧ h1.keys.getD t 0 = key
  · -- key already stored: only its value slot is overwritten
    obtain ⟨j, hj, hkey⟩ := hpres
    have hadd : hmap__idx_add h1 key = some (j, h1) :=
      hmap__idx_add_found h1 n key j hpow hklen1 hWF1.dis hWF1.chain hj hkey hk0
    have hset : HMAP_SET b key v true true
        = some { h1 with vals := h1.vals.set j v } := by
      rw [HMAP_SET, hfit]
      show (match hmap__idx_add h1 key with
        | some (i, h2) => some { h2 with vals := h2.vals.set i v }
        | none => if key = 0 then some { h1 with nullv := v } else some h1)
        = some { h1 with vals := h1.vals.set j v }
      rw [hadd]
    have hWF2 : HmapWF { h1 with vals := h1.vals.set j v } :=
      { pow := ⟨n, hn4, hpow⟩
        klen := hklen1
        vlen := by
          show (h1.vals.set j v).length = h1.maxlen + 1
          rw [List.length_set]
          exact hvlen1
        dis := hWF1.dis
        lenEq := hWF1.lenEq
        room := hWF1.room
        chain := hWF1.chain }
    refine ⟨_, hset, hWF2, ?_, ?_, hnull1, Or.inl (by exact hlen1),
      by show HMAP_CAP b ≤ h1.maxlen + 1; omega,
      by show h1.maxlen + 1 ≤ max 16 (2 * HMAP_CAP b); omega,
      by show h1.maxlen + 1 ≤ max 16 (max (HMAP_CAP b) (4 * HMAP_LEN b)); omega⟩
    · rw [hmapObserve]
      have hl2 : hmap__idx_lookup { h1 with vals := h1.vals.set j v } key = some j :=
        hmap__idx_lookup_found _ n key j hpow hklen1 hWF1.dis hWF1.chain hj hkey hk0
      rw [hl2, Option.map_some']
      show some ((h1.vals.set j v).getD j h1.nullv) = some v
      rw [getD_set_self _ _ _ _ (by omega)]
    · intro k2 hk2
      rw [← hobs1 k2, hmapObserve, hmapObserve]
      have hlk : hmap__idx_lookup { h1 with vals := h1.vals.set j v } k2
          = hmap__idx_lookup h1 k2 := rfl
      rw [hlk]
      cases hl : hmap__idx_lookup h1 k2 with
      | none => rfl
      | some t =>
        simp only [Option.map_some']
        -- the found slot carries k2 ≠ key, so it is not slot j
        have ht : t < h1.maxlen + 1 ∧ h1.keys.getD t 0 = k2 := by
          by_cases hkz : k2 = 0
          · rw [hmap__idx_lookup, if_pos hkz] at hl
            cases hl
          · rw [hmap__idx_lookup, if_neg hkz] at hl
            rcases hres : probeLoop h1.keys h1.maxlen k2 k2 (h1.maxlen + 1) with
              j3 | j3 | _
            all_goals rw [hres] at hl
            · cases hl
              -- found j3 = t
              have hml : h1.maxlen = 2 ^ n - 1 := by omega
              have hz : ∃ z, z < 2 ^ n ∧ IsHit h1.keys k2 z := by
                obtain ⟨z, hzl, hz0⟩ := exists_zero_slot h1.keys (by omega)
                exact ⟨z, by omega, Or.inr hz0⟩
              obtain ⟨d, hd, hmin, hhit, hres2⟩ := probeLoop_result h1.keys k2 n k2 hz
              rw [hml] at hres
              rw [show (2:Nat) ^ n - 1 + 1 = 2 ^ n by omega] at hres
              rw [hres] at hres2
              by_cases hcase : h1.keys.getD ((k2 + d) % 2 ^ n) 0 = k2
              · rw [if_pos hcase] at hres2
                cases hres2
                exact ⟨by omega, hcase⟩
              · rw [if_neg hcase] at hres2
                cases hres2
            · cases hl
            · cases hl
        have htj : t ≠ j := by
          intro heq
          rw [heq, hkey] at ht
          exact hk2 ht.2.symm
        show some ((h1.vals.set j v).getD t h1.nullv) = some (h1.vals.getD t h1.nullv)
        rw [getD_set_ne _ _ _ _ _ (fun hh => htj hh.symm)]
  · -- key absent: it is inserted into the first empty slot of its probe
    push_neg at hpres
    have hz : ∃ z, z < h1.maxlen + 1 ∧ h1.keys.getD z 0 = 0 := by
      obtain ⟨z, hzl, hz0⟩ := exists_zero_slot h1.keys (by omega)
      exact ⟨z, by omega, hz0⟩
    obtain ⟨j, hadd, hj, hj0, hchain2, hdis2, hcnt2⟩ :=
      hmap__idx_add_insert h1 n key hpow hklen1 hWF1.dis hWF1.chain hz hpres hk0
    have hset : HMAP_SET b key v true true
        = some { h1 with len := h1.len + 1, keys := h1.keys.set j key, vals := h1.vals.set j v } := by
      rw [HMAP_SET, hfit]
      show (match hmap__idx_add h1 key with
        | some (i, h2) => some { h2 with vals := h2.vals.set i v }
        | none => if key = 0 then some { h1 with nullv := v } else some h1)
        = some { h1 with len := h1.len + 1, keys := h1.keys.set j key, vals := h1.vals.set j v }
      rw [hadd]
    have heven : 2 * 2 ^ (n - 1) = 2 ^ n := by
      rw [← Nat.pow_succ']
      congr 1
      omega
    have hWF2 : HmapWF { h1 with len := h1.len + 1, keys := h1.keys.set j key, vals := h1.vals.set j v } :=
      { pow := ⟨n, hn4, hpow⟩
        klen := by
          show (h1.keys.set j key).length = h1.maxlen + 1
          rw [List.length_set]
          exact hklen1
        vlen := by
          show (h1.vals.set j v).length = h1.maxlen + 1
          rw [List.length_set]
          exact hvlen1
        dis := hdis2
        lenEq := by
          show h1.len + 1 = countNZ (h1.keys.set j key)
          rw [hcnt2]
          have := hWF1.lenEq
          omega
        room := by
          show (h1.len + 1) * 2 ≤ h1.maxlen + 1
          omega
        chain := hchain2 }
    have hkey2 : (h1.keys.set j key).getD j 0 = key :=
      getD_set_self _ _ _ _ (by omega)
    refine ⟨_, hset, hWF2, ?_, ?_, hnull1,
      Or.inr (by show h1.len + 1 = HMAP_LEN b + 1; omega),
      by show HMAP_CAP b ≤ h1.maxlen + 1; omega,
      by show h1.maxlen + 1 ≤ max 16 (2 * HMAP_CAP b); omega,
      by show h1.maxlen + 1 ≤ max 16 (max (HMAP_CAP b) (4 * HMAP_LEN b)); omega⟩
    · rw [hmapObserve]
      have hl2 : hmap__idx_lookup { h1 with len := h1.len + 1, keys := h1.keys.set j key, vals := h1.vals.set j v } key = some j :=
        hmap__idx_lookup_found _ n key j hpow
          (by show (h1.keys.set j key).length = _; rw [List.length_set]; exact hklen1)
          hdis2 hchain2 hj hkey2 hk0
      rw [hl2, Option.map_some']
      show some ((h1.vals.set j v).getD j h1.nullv) = some v
      rw [getD_set_self _ _ _ _ (by omega)]
    · intro k2 hk2
      rw [← hobs1 k2]
      by_cases hkz : k2 = 0
      · rw [hmapObserve, hmapObserve, hmap__idx_lookup, hmap__idx_lookup,
          if_pos hkz, if_pos hkz]
        rfl
      by_cases hpres2 : ∃ t, t < h1.maxlen + 1 ∧ h1.keys.getD t 0 = k2
      · obtain ⟨t, ht, htk⟩ := hpres2
        have htj : t ≠ j := by
          intro heq
          rw [heq, hj0] at htk
          exact hkz htk.symm
        have hl1 : hmap__idx_lookup h1 k2 = some t :=
          hmap__idx_lookup_found h1 n k2 t hpow hklen1 hWF1.dis hWF1.chain ht htk hkz
        have hl2 : hmap__idx_lookup { h1 with len := h1.len + 1, keys := h1.keys.set j key, vals := h1.vals.set j v } k2 = some t :=
          hmap__idx_lookup_found _ n k2 t hpow
            (by show (h1.keys.set j key).length = _; rw [List.length_set]; exact hklen1)
            hdis2 hchain2 ht
            (by
              show (h1.keys.set j key).getD t 0 = k2
              rw [getD_set_ne _ _ _ _ _ (fun hh => htj hh.symm)]
              exact htk) hkz
        rw [hmapObserve, hmapObserve, hl1, hl2, Option.map_some', Option.map_some']
        show some ((h1.vals.set j v).getD t h1.nullv) = some (h1.vals.getD t h1.nullv)
        rw [getD_set_ne _ _ _ _ _ (fun hh => htj hh.symm)]
      · push_neg at hpres2
        have hl1 : hmap__idx_lookup h1 k2 = none :=
          hmap__idx_lookup_absent h1 n k2 hpow hklen1 hz hpres2
        have hz2 : ∃ z, z < h1.maxlen + 1 ∧ (h1.keys.set j key).getD z 0 = 0 := by
          obtain ⟨z, hzl, hz0⟩ := exists_zero_slot (h1.keys.set j key) (by
            rw [List.length_set, hcnt2, hklen1]
            omega)
          rw [List.length_set] at hzl
          exact ⟨z, by omega, hz0⟩
        have hl2 : hmap__idx_lookup { h1 with len := h1.len + 1, keys := h1.keys.set j key, vals := h1.vals.set j v } k2 = none :=
          hmap__idx_lookup_absent _ n k2 hpow
            (by show (h1.keys.set j key).length = _; rw [List.length_set]; exact hklen1)
            hz2
            (by
              intro t ht
              show (h1.keys.set j key).getD t 0 ≠ k2
              by_cases htj : t = j
              · rw [htj, hkey2]
                exact fun hh => hk2 hh.symm
              · rw [getD_set_ne _ _ _ _ _ (fun hh => htj hh.symm)]
                exact hpres2 t ht)
        rw [hmapObserve, hmapObserve, hl1, hl2]
        rfl

/-- Any index returned by the probe loop is within the mask. -/
theorem probeLoop_le (keys : List Nat) (m key : Nat) : ∀ (fuel i j : Nat),
    (probeLoop keys m key i fuel = ScanRes.found j ∨
     probeLoop keys m key i fuel = ScanRes.empty j) → j ≤ m := by
  intro fuel
  induction fuel with
  | zero =>
    intro i j h
    rcases h with h | h <;> exact absurd h (by simp [probeLoop])
  | succ f ih =>
    intro i j h
    have hland : Nat.land i m ≤ m := Nat.and_le_right
    rcases h with h | h <;> rw [probeLoop_succ] at h <;>
      by_cases h1 : keys.getD (Nat.land i m) 0 = key
    · rw [if_pos h1] at h
      cases h
      exact hland
    · rw [if_neg h1] at h
      by_cases h2 : keys.getD (Nat.land i m) 0 = 0
      · rw [if_pos h2] at h
        cases h
      · rw [if_neg h2] at h
        exact ih _ j (Or.inl h)
    · rw [if_pos h1] at h
      cases h
    · rw [if_neg h1] at h
      by_cases h2 : keys.getD (Nat.land i m) 0 = 0
      · rw [if_pos h2] at h
        cases h
        exact hland
      · rw [if_neg h2] at h
        exact ih _ j (Or.inr h)

theorem hmap__idx_lookup_le (h : Hmap V) (key j : Nat)
    (hl : hmap__idx_lookup h key = some j) : j ≤ h.maxlen := by
  rw [hmap__idx_lookup] at hl
  by_cases hk0 : key = 0
  · rw [if_pos hk0] at hl
    cases hl
  · rw [if_neg hk0] at hl
    cases hres : probeLoop h.keys h.maxlen key key (h.maxlen + 1) with
    | found i =>
      rw [hres] at hl
      cases hl
      exact probeLoop_le h.keys h.maxlen key _ key _ (Or.inl hres)
    | empty i =>
      rw [hres] at hl
      cases hl
    | fuelOut =>
      rw [hres] at hl
      cases hl

/-- Overwriting the null value does not change which keys are stored or
their values. -/
theorem observe_set_nullv (h : Hmap V) (v : V)
    (hvlen : h.vals.length = h.maxlen + 1) (k : Nat) :
    hmapObserve { h with nullv := v } k = hmapObserve h k := by
  rw [hmapObserve, hmapObserve]
  have hlk : hmap__idx_lookup { h with nullv := v } k = hmap__idx_lookup h k := rfl
  rw [hlk]
  cases hl : hmap__idx_lookup h k with
  | none => rfl
  | some j =>
    simp only [Option.map_some']
    have hj := hmap__idx_lookup_le h k j hl
    show some (h.vals.getD j v) = some (h.vals.getD j h.nullv)
    rw [getD_eq_get _ _ _ (by omega), getD_eq_get _ _ _ (by omega)]

/-- `HMAP_SET` with key 0 and no triggered growth: exactly the reserved
null-value slot is overwritten. -/
theorem HMAP_SET_zero_nogrow (h : Hmap V) (v : V) (hfit : h.len * 2 ≤ h.maxlen) :
    HMAP_SET (some h) 0 v true true = some { h with nullv := v } := by
  rw [HMAP_SET, HMAP__FIT1, if_pos hfit]
  show (match hmap__idx_add h 0 with
    | some (i, h2) => some { h2 with vals := h2.vals.set i v }
    | none => if (0:Nat) = 0 then some { h with nullv := v } else some h)
    = some { h with nullv := v }
  rw [show hmap__idx_add h 0 = none from by rw [hmap__idx_add]; exact if_pos rfl]
  rfl

/-- `HMAP_SET` with key 0 at handle level: after the usual `HMAP__FIT1`
pre-growth, only the null-value slot changes. -/
theorem HMAP_SET_zero_spec (b : Option (Hmap V)) (v : V) (hWF : HmapWFB b)
    (hsz : HMAP_CAP b ≤ 2 ^ 62) :
    ∃ h1, HMAP__FIT1 b true true = some h1 ∧
      HMAP_SET b 0 v true true = some { h1 with nullv := v } ∧
      HmapWF { h1 with nullv := v } ∧
      h1.len = HMAP_LEN b ∧
      (∀ k2, hmapObserve { h1 with nullv := v } k2 = hmapObserveB b k2) ∧
      HMAP_CAP b ≤ h1.maxlen + 1 ∧
      h1.maxlen + 1 ≤ max 16 (2 * HMAP_CAP b) ∧
      h1.maxlen + 1 ≤ max 16 (max (HMAP_CAP b) (4 * HMAP_LEN b)) := by
  obtain ⟨h1, hfit, hWF1, hroom1, hlen1, hnull1, hobs1, hcap1, hcap2, hcap3⟩ :=
    HMAP__FIT1_handle_spec b hWF hsz
  have hWF2 : HmapWF { h1 with nullv := v } :=
    { pow := hWF1.pow
      klen := hWF1.klen
      vlen := hWF1.vlen
      dis := hWF1.dis
      lenEq := hWF1.lenEq
      room := hWF1.room
      chain := hWF1.chain }
  refine ⟨h1, hfit, ?_, hWF2, hlen1, ?_, hcap1, hcap2, hcap3⟩
  · rw [HMAP_SET, hfit]
    show (match hmap__idx_add h1 0 with
      | some (i, h2) => some { h2 with vals := h2.vals.set i v }
      | none => if (0:Nat) = 0 then some { h1 with nullv := v } else some h1)
      = some { h1 with nullv := v }
    rw [show hmap__idx_add h1 0 = none from by rw [hmap__idx_add]; exact if_pos rfl]
    rfl
  · intro k2
    rw [observe_set_nullv h1 v hWF1.vlen k2]
    exact hobs1 k2

/-! ### Lookup and insert specifications (64-bit map) -/

/-- Specification-level observation of a 64-bit map. -/
def hmap64Observe (h : Hmap64 V) (key : Nat) : Option V :=
  (hmap64__idx_lookup h key).map (fun j => h.vals.getD j h.nullv)

theorem HMAP64_HAS_eq_observe (h : Hmap64 V) (key : Nat) :
    HMAP64_HAS (some h) key = (hmap64Observe h key).isSome := by
  rw [HMAP64_HAS, hmap64Observe]
  cases hmap64__idx_lookup h key <;> rfl

theorem hmap64__idx_lookup_found (h : Hmap64 V) (n key j : Nat)
    (hpow : h.cap = 2 ^ n) (hklen : h.keys.length = h.cap)
    (hdis : KeysDistinct h.keys) (hchain : ChainInv h.keys h.cap)
    (hj : j < h.cap) (hkey : h.keys.getD j 0 = key) (hk0 : key ≠ 0) :
    hmap64__idx_lookup h key = some j := by
  rw [hmap64__idx_lookup, if_neg hk0, hpow]
  rw [probe_lookup_found n h.keys key j (by omega) hdis (by rw [← hpow]; exact hchain)
    (by omega) hkey hk0]

theorem hmap64__idx_lookup_absent (h : Hmap64 V) (n key : Nat)
    (hpow : h.cap = 2 ^ n) (hklen : h.keys.length = h.cap)
    (hz : ∃ z, z < h.cap ∧ h.keys.getD z 0 = 0)
    (habs : ∀ t, t < h.cap → h.keys.getD t 0 ≠ key) :
    hmap64__idx_lookup h key = none := by
  by_cases hk0 : key = 0
  · rw [hmap64__idx_lookup, if_pos hk0]
  · rw [hmap64__idx_lookup, if_neg hk0, hpow]
    obtain ⟨j, d, hjc, hj0, hjd, hd, hpath, hres⟩ := probe_lookup_absent n h.keys key
      (by rw [← hpow]; exact hz) (by rw [← hpow]; exact habs)
    rw [hres]

theorem hmap64__idx_lookup_le (h : Hmap64 V) (key j : Nat)
    (hl : hmap64__idx_lookup h key = some j) : j ≤ h.cap - 1 := by
  rw [hmap64__idx_lookup] at hl
  by_cases hk0 : key = 0
  · rw [if_pos hk0] at hl
    cases hl
  · rw [if_neg hk0] at hl
    cases hres : probeLoop h.keys (h.cap - 1) key key h.cap with
    | found i =>
      rw [hres] at hl
      cases hl
      exact probeLoop_le h.keys (h.cap - 1) key _ key _ (Or.inl hres)
    | empty i =>
      rw [hres] at hl
      cases hl
    | fuelOut =>
      rw [hres] at hl
      cases hl

theorem hmap64__idx_add_found (h : Hmap64 V) (n key j : Nat)
    (hpow : h.cap = 2 ^ n) (hklen : h.keys.length = h.cap)
    (hdis : KeysDistinct h.keys) (hchain : ChainInv h.keys h.cap)
    (hj : j < h.cap) (hkey : h.keys.getD j 0 = key) (hk0 : key ≠ 0) :
    hmap64__idx_add h key = some (j, h) := by
  rw [hmap64__idx_add, if_neg hk0, hpow]
  rw [probe_lookup_found n h.keys key j (by omega) hdis (by rw [← hpow]; exact hchain)
    (by omega) hkey hk0]

theorem hmap64__idx_add_insert (h : Hmap64 V) (n key : Nat)
    (hpow : h.cap = 2 ^ n) (hklen : h.keys.length = h.cap)
    (hdis : KeysDistinct h.keys) (hchain : ChainInv h.keys h.cap)
    (hz : ∃ z, z < h.cap ∧ h.keys.getD z 0 = 0)
    (habs : ∀ t, t < h.cap → h.keys.getD t 0 ≠ key) (hk0 : key ≠ 0) :
    ∃ j, hmap64__idx_add h key
        = some (j, { h with len := h.len + 1, keys := h.keys.set j key }) ∧
      j < h.cap ∧ h.keys.getD j 0 = 0 ∧
      ChainInv (h.keys.set j key) h.cap ∧
      KeysDistinct (h.keys.set j key) ∧
      countNZ (h.keys.set j key) = countNZ h.keys + 1 := by
  obtain ⟨j, d, hjc, hj0, hjd, hd, hpath, hres⟩ := probe_lookup_absent n h.keys key
    (by rw [← hpow]; exact hz) (by rw [← hpow]; exact habs)
  refine ⟨j, ?_, by omega, hj0, ?_, ?_, ?_⟩
  · rw [hmap64__idx_add, if_neg hk0, hpow, hres]
  · rw [hpow]
    exact chainInv_insert n h.keys key j d (by omega) (by rw [← hpow]; exact hchain)
      (by omega) hj0 hk0 hd hjd hpath
  · exact keysDistinct_insert h.keys key j hdis (by omega)
      (fun t ht => habs t (by omega))
  · exact countNZ_set_nz h.keys j key (by omega) hj0 hk0

/-- Two well-formed 64-bit tables storing the same pairs are
observationally identical. -/
theorem observe64_eq_of_pairs (h1 h2 : Hmap64 V)
    (hWF1 : Hmap64WF h1) (hWF2 : Hmap64WF h2)
    (hpr : pairs h1.keys h1.vals = pairs h2.keys h2.vals) (key : Nat) :
    hmap64Observe h1 key = hmap64Observe h2 key := by
  obtain ⟨n1, hn1, hpow1⟩ := hWF1.pow
  obtain ⟨n2, hn2, hpow2⟩ := hWF2.pow
  have hk1 := hWF1.klen
  have hv1 := hWF1.vlen
  have hk2 := hWF2.klen
  have hv2 := hWF2.vlen
  have h16a : (16:Nat) ≤ 2 ^ n1 := by
    calc (16:Nat) = 2 ^ 4 := by norm_num
    _ ≤ 2 ^ n1 := Nat.pow_le_pow_right (by omega) hn1
  have h16b : (16:Nat) ≤ 2 ^ n2 := by
    calc (16:Nat) = 2 ^ 4 := by norm_num
    _ ≤ 2 ^ n2 := Nat.pow_le_pow_right (by omega) hn2
  have hroom1 : countNZ h1.keys < h1.cap := by
    have hr := hWF1.room
    have hle := hWF1.lenEq
    omega
  have hroom2 : countNZ h2.keys < h2.cap := by
    have hr := hWF2.room
    have hle := hWF2.lenEq
    omega
  by_cases hk0 : key = 0
  · rw [hmap64Observe, hmap64Observe, hmap64__idx_lookup, hmap64__idx_lookup,
      if_pos hk0, if_pos hk0]
    rfl
  by_cases hpres : ∃ j, j < h1.cap ∧ h1.keys.getD j 0 = key
  · obtain ⟨j, hj, hkey⟩ := hpres
    have hmem : (key, h1.vals.getD j h1.nullv) ∈ pairs h1.keys h1.vals := by
      rw [mem_pairs h1.nullv]
      exact ⟨hk0, j, by omega, by omega, hkey, rfl⟩
    rw [hpr] at hmem
    rw [mem_pairs h1.nullv] at hmem
    obtain ⟨_, j2, hj2k, hj2v, hkey2, hval2⟩ := hmem
    have hl1 : hmap64__idx_lookup h1 key = some j
      := hmap64__idx_lookup_found h1 n1 key j hpow1 hk1 hWF1.dis hWF1.chain
        hj hkey hk0
    have hl2 : hmap64__idx_lookup h2 key = some j2
      := hmap64__idx_lookup_found h2 n2 key j2 hpow2 hk2 hWF2.dis hWF2.chain
        (by omega) hkey2 hk0
    rw [hmap64Observe, hmap64Observe, hl1, hl2]
    simp only [Option.map_some']
    have hdfl : h2.vals.getD j2 h2.nullv = h2.vals.getD j2 h1.nullv := by
      rw [getD_eq_get _ _ _ hj2v, getD_eq_get _ _ _ hj2v]
    rw [hdfl, hval2]
  · push_neg at hpres
    have habs2 : ∀ t, t < h2.cap → h2.keys.getD t 0 ≠ key := by
      intro t ht hkey2
      have hmem : (key, h2.vals.getD t h2.nullv) ∈ pairs h2.keys h2.vals := by
        rw [mem_pairs h2.nullv]
        exact ⟨hk0, t, by omega, by omega, hkey2, rfl⟩
      rw [← hpr] at hmem
      rw [mem_pairs h2.nullv] at hmem
      obtain ⟨_, j1, hj1k, _, hkey1, _⟩ := hmem
      exact hpres j1 (by omega) hkey1
    have hz1 : ∃ z, z < h1.cap ∧ h1.keys.getD z 0 = 0 := by
      obtain ⟨z, hz, h0⟩ := exists_zero_slot h1.keys (by omega)
      exact ⟨z, by omega, h0⟩
    have hz2 : ∃ z, z < h2.cap ∧ h2.keys.getD z 0 = 0 := by
      obtain ⟨z, hz, h0⟩ := exists_zero_slot h2.keys (by omega)
      exact ⟨z, by omega, h0⟩
    rw [hmap64Observe, hmap64Observe,
      hmap64__idx_lookup_absent h1 n1 key hpow1 hk1 hz1 hpres,
      hmap64__idx_lookup_absent h2 n2 key hpow2 hk2 hz2 habs2]
    rfl

/-- `HMAP64__FIT1` on a well-formed allocated 64-bit map: it keeps or
re-establishes the strict headroom `len * 2 < cap` and preserves the
stored pairs, the length and the null value. -/
theorem HMAP64__FIT1_spec (h : Hmap64 V) (hWF : Hmap64WF h)
    (hsz : h.cap ≤ 2 ^ 62) :
    ∃ h1, HMAP64__FIT1 (some h) true true = some h1 ∧ Hmap64WF h1 ∧
      h1.len * 2 < h1.cap ∧ h1.len = h.len ∧ h1.nullv = h.nullv ∧
      h1.cap ≤ 2 * h.cap ∧ h.cap ≤ h1.cap ∧
      (h1.cap = h.cap ∨ h.cap ≤ h.len * 2) ∧
      pairs h1.keys h1.vals = pairs h.keys h.vals := by
  obtain ⟨n, hn4, hpow⟩ := hWF.pow
  by_cases hfit : h.len * 2 < h.cap
  · refine ⟨h, ?_, hWF, hfit, rfl, rfl, by omega, le_rfl, Or.inl rfl, rfl⟩
    rw [HMAP64__FIT1, if_pos hfit]
  · have hpos : 0 < 2 ^ n := Nat.pos_pow_of_pos n (by omega)
    have hnsz : n ≤ 62 := by
      by_contra hgt
      have : (2:Nat) ^ 62 < 2 ^ n := Nat.pow_lt_pow_right (by omega) (by omega)
      have : (0:Nat) < 2 ^ 62 := Nat.pos_pow_of_pos _ (by omega)
      omega
    have h16 : (16:Nat) ≤ 2 ^ n := by
      calc (16:Nat) = 2 ^ 4 := by norm_num
      _ ≤ 2 ^ n := Nat.pow_le_pow_right (by omega) hn4
    have hp63 : (2:Nat) ^ 62 * 2 = 2 ^ 63 := by norm_num
    have hstartv : (h.cap * 2) % W = h.cap * 2 := by
      apply Nat.mod_eq_of_lt
      unfold W
      have : (2:Nat) ^ 63 < 2 ^ 64 := Nat.pow_lt_pow_right (by omega) (by omega)
      omega
    have hok : hmap64CapLoop 0 ((h.cap * 2) % W) 200
        = CapRes.ok ((h.cap * 2) % W) :=
      hmap64CapLoop_zero_reserve ((h.cap * 2) % W) 199
    obtain ⟨h2, n2, hgrow, hc2, hcap2, hlt2, hn2le, hlen2, hnull2, hklen2,
      hvlen2, hchain2, hdis2, hcnt2, hpairs2⟩ :=
      hmap64__grow_some_spec h 0 n ((h.cap * 2) % W) hpow (by omega) hnsz
        hWF.klen hWF.vlen hWF.dis hok
    have hc2v : h2.cap = h.cap * 2 := by rw [hc2, hstartv]
    refine ⟨h2, ?_, ?_, ?_, hlen2, hnull2, by omega, by omega,
      Or.inr (by omega), hpairs2⟩
    · rw [HMAP64__FIT1, if_neg hfit]
      exact hgrow
    · exact {
        pow := ⟨n2, by omega, hcap2⟩
        klen := hklen2
        vlen := hvlen2
        dis := hdis2
        lenEq := by rw [hlen2, hcnt2]; exact hWF.lenEq
        room := by
          have := hWF.room
          omega
        chain := hchain2 }
    · have := hWF.room
      have hcpos : 0 < h.cap := by omega
      omega

/-- `HMAP64_GET` on a well-formed allocated map: the value read is the
stored value of the key (the null value if absent), and the possibly
reallocated handle is well formed and observationally unchanged. -/
theorem HMAP64_GET_spec (h : Hmap64 V) (key : Nat) (hWF : Hmap64WF h)
    (hsz : h.cap ≤ 2 ^ 62) :
    ∃ h1, HMAP64_GET (some h) key true true
        = ((hmap64Observe h key).getD h.nullv, some h1) ∧
      Hmap64WF h1 ∧ (∀ k2, hmap64Observe h1 k2 = hmap64Observe h k2) ∧
      h1.len = h.len ∧ h1.nullv = h.nullv ∧
      h1.cap ≤ 2 * h.cap ∧ h.cap ≤ h1.cap := by
  obtain ⟨h1, hfit, hWF1, hroom1, hlen1, hnull1, hle1, hge1, _, hpairs1⟩ :=
    HMAP64__FIT1_spec h hWF hsz
  have hobs : ∀ k2, hmap64Observe h1 k2 = hmap64Observe h k2 :=
    fun k2 => observe64_eq_of_pairs h1 h hWF1 hWF hpairs1 k2
  refine ⟨h1, ?_, hWF1, hobs, hlen1, hnull1, hle1, hge1⟩
  rw [HMAP64_GET, hfit]
  show (match hmap64__idx_lookup h1 key with
      | some i => (h1.vals.getD i h1.nullv, some h1)
      | none => (h1.nullv, some h1))
    = ((hmap64Observe h key).getD h.nullv, some h1)
  rw [← hobs key, hmap64Observe]
  cases hl : hmap64__idx_lookup h1 key with
  | none => rw [hnull1]; rfl
  | some j => rfl

/-- The freshly allocated 64-bit map (16 zeroed slots, zeroed null
value). -/
def hmap64Fresh : Hmap64 V :=
  { len := 0, cap := 16, keys := List.replicate 16 0,
    vals := List.replicate 16 default, nullv := default }

theorem hmap64__grow_none_fresh :
    hmap64__grow (none : Option (Hmap64 V)) 0 true true = some hmap64Fresh :=
  hmap64__grow_none_spec

theorem hmap64Fresh_WF : Hmap64WF (hmap64Fresh : Hmap64 V) where
  pow := ⟨4, by omega, by norm_num [hmap64Fresh]⟩
  klen := by simp [hmap64Fresh]
  vlen := by simp [hmap64Fresh]
  dis := keysDistinct_zero_table 16
  lenEq := (countNZ_replicate 16).symm
  room := by simp [hmap64Fresh]
  chain := chainInv_zero_table 16 16

theorem hmap64Fresh_observe (k : Nat) :
    hmap64Observe (hmap64Fresh : Hmap64 V) k = none := by
  by_cases hk0 : k = 0
  · rw [hmap64Observe, hmap64__idx_lookup, if_pos hk0]
    rfl
  · rw [hmap64Observe, hmap64__idx_lookup_absent hmap64Fresh 4 k
      (by norm_num [hmap64Fresh]) (by simp [hmap64Fresh])
      ⟨0, by norm_num [hmap64Fresh], rfl⟩
      (fun t ht => by
        show (List.replicate 16 0).getD t 0 ≠ k
        rw [getD_replicate]
        exact fun hh => hk0 hh.symm)]
    rfl

/-- Handle-level observation (the NULL handle stores nothing). -/
def hmap64ObserveB (b : Option (Hmap64 V)) (key : Nat) : Option V :=
  match b with
  | some h => hmap64Observe h key
  | none => none

/-- Handle-level null value (NULL handle: zeroed on first allocation). -/
def hmap64NullvB (b : Option (Hmap64 V)) : V :=
  match b with
  | some h => h.nullv
  | none => default

/-- Handle-level well-formedness. -/
def Hmap64WFB (b : Option (Hmap64 V)) : Prop := ∀ h0, b = some h0 → Hmap64WF h0

/-- `HMAP64__FIT1` at handle level (allocating on the NULL handle). -/
theorem HMAP64__FIT1_handle_spec (b : Option (Hmap64 V)) (hWF : Hmap64WFB b)
    (hsz : HMAP64_CAP b ≤ 2 ^ 62) :
    ∃ h1, HMAP64__FIT1 b true true = some h1 ∧ Hmap64WF h1 ∧
      h1.len * 2 < h1.cap ∧ h1.len = HMAP64_LEN b ∧
      h1.nullv = hmap64NullvB b ∧
      (∀ k2, hmap64Observe h1 k2 = hmap64ObserveB b k2) ∧
      HMAP64_CAP b ≤ h1.cap ∧
      h1.cap ≤ max 16 (2 * HMAP64_CAP b) ∧
      h1.cap ≤ max 16 (max (HMAP64_CAP b) (4 * HMAP64_LEN b)) := by
  match b with
  | none =>
    refine ⟨hmap64Fresh, ?_, hmap64Fresh_WF, by norm_num [hmap64Fresh], rfl, rfl,
      ?_, ?_, ?_, ?_⟩
    · rw [HMAP64__FIT1]
      exact hmap64__grow_none_fresh
    · intro k2
      rw [hmap64Fresh_observe k2]
      rfl
    · show HMAP64_CAP (none : Option (Hmap64 V)) ≤ hmap64Fresh.cap
      norm_num [HMAP64_CAP, hmap64Fresh]
    · show hmap64Fresh.cap ≤ max 16 (2 * HMAP64_CAP (none : Option (Hmap64 V)))
      norm_num [HMAP64_CAP, hmap64Fresh]
    · show hmap64Fresh.cap
        ≤ max 16 (max (HMAP64_CAP (none : Option (Hmap64 V)))
            (4 * HMAP64_LEN (none : Option (Hmap64 V))))
      norm_num [HMAP64_CAP, HMAP64_LEN, hmap64Fresh]
  | some h =>
    have hWFh : Hmap64WF h := hWF h rfl
    obtain ⟨h1, hfit, hWF1, hroom1, hlen1, hnull1, hle1, hge1, hgrow1, hpairs1⟩ :=
      HMAP64__FIT1_spec h hWFh (by simpa [HMAP64_CAP] using hsz)
    refine ⟨h1, hfit, hWF1, hroom1, hlen1, hnull1,
      fun k2 => observe64_eq_of_pairs h1 h hWF1 hWFh hpairs1 k2, ?_, ?_, ?_⟩
    · show h.cap ≤ h1.cap
      omega
    · show h1.cap ≤ max 16 (2 * h.cap)
      omega
    · show h1.cap ≤ max 16 (max (h.cap) (4 * h.len))
      rcases hgrow1 with hsame | hfull
      · omega
      · have h4 : h1.cap ≤ 4 * h.len := by omega
        omega

/-- `HMAP64_SET` with a non-zero key on a well-formed handle: afterwards
the key is stored with the new value, every other key's observation is
unchanged, the null value is kept, the length grows by at most one and
the capacity at most doubles (16 on first allocation). -/
theorem HMAP64_SET_spec (b : Option (Hmap64 V)) (key : Nat) (v : V)
    (hWF : Hmap64WFB b) (hsz : HMAP64_CAP b ≤ 2 ^ 62) (hk0 : key ≠ 0) :
    ∃ h2, HMAP64_SET b key v true true = some h2 ∧ Hmap64WF h2 ∧
      hmap64Observe h2 key = some v ∧
      (∀ k2, k2 ≠ key → hmap64Observe h2 k2 = hmap64ObserveB b k2) ∧
      h2.nullv = hmap64NullvB b ∧
      (h2.len = HMAP64_LEN b ∨ h2.len = HMAP64_LEN b + 1) ∧
      HMAP64_CAP b ≤ h2.cap ∧
      h2.cap ≤ max 16 (2 * HMAP64_CAP b) ∧
      h2.cap ≤ max 16 (max (HMAP64_CAP b) (4 * HMAP64_LEN b)) := by
  obtain ⟨h1, hfit, hWF1, hroom1, hlen1, hnull1, hobs1, hcap1, hcap2, hcap3⟩ :=
    HMAP64__FIT1_handle_spec b hWF hsz
  obtain ⟨n, hn4, hpow⟩ := hWF1.pow
  have h16 : (16:Nat) ≤ 2 ^ n := by
    calc (16:Nat) = 2 ^ 4 := by norm_num
    _ ≤ 2 ^ n := Nat.pow_le_pow_right (by omega) hn4
  have hklen1 := hWF1.klen
  have hvlen1 := hWF1.vlen
  have hcnt1 : countNZ h1.keys * 2 < h1.cap := by
    have := hWF1.lenEq
    omega
  by_cases hpres : ∃ t, t < h1.cap ∧ h1.keys.getD t 0 = key
  · obtain ⟨j, hj, hkey⟩ := hpres
    have hadd : hmap64__idx_add h1 key = some (j, h1) :=
      hmap64__idx_add_found h1 n key j hpow hklen1 hWF1.dis hWF1.chain hj hkey hk0
    have hset : HMAP64_SET b key v true true
        = some { h1 with vals := h1.vals.set j v } := by
      rw [HMAP64_SET, hfit]
      show (match hmap64__idx_add h1 key with
        | some (i, h2) => some { h2 with vals := h2.vals.set i v }
        | none => if key = 0 then some { h1 with nullv := v } else some h1)
        = some { h1 with vals := h1.vals.set j v }
      rw [hadd]
    have hWF2 : Hmap64WF { h1 with vals := h1.vals.set j v } :=
      { pow := ⟨n, hn4, hpow⟩
        klen := hklen1
        vlen := by
          show (h1.vals.set j v).length = h1.cap
          rw [List.length_set]
          exact hvlen1
        dis := hWF1.dis
        lenEq := hWF1.lenEq
        room := hWF1.room
        chain := hWF1.chain }
    refine ⟨_, hset, hWF2, ?_, ?_, hnull1, Or.inl (by exact hlen1),
      by show HMAP64_CAP b ≤ h1.cap; omega,
      by show h1.cap ≤ max 16 (2 * HMAP64_CAP b); omega,
      by show h1.cap ≤ max 16 (max (HMAP64_CAP b) (4 * HMAP64_LEN b)); omega⟩
    · rw [hmap64Observe]
      have hl2 : hmap64__idx_lookup { h1 with vals := h1.vals.set j v } key = some j :=
        hmap64__idx_lookup_found _ n key j hpow hklen1 hWF1.dis hWF1.chain hj hkey hk0
      rw [hl2, Option.map_some']
      show some ((h1.vals.set j v).getD j h1.nullv) = some v
      rw [getD_set_self _ _ _ _ (by omega)]
    · intro k2 hk2
      rw [← hobs1 k2, hmap64Observe, hmap64Observe]
      have hlk : hmap64__idx_lookup { h1 with vals := h1.vals.set j v } k2
          = hmap64__idx_lookup h1 k2 := rfl
      rw [hlk]
      cases hl : hmap64__idx_lookup h1 k2 with
      | none => rfl
      | some t =>
        simp only [Option.map_some']
        have ht : t < h1.cap ∧ h1.keys.getD t 0 = k2 := by
          by_cases hkz : k2 = 0
          · rw [hmap64__idx_lookup, if_pos hkz] at hl
            cases hl
          · rw [hmap64__idx_lookup, if_neg hkz] at hl
            rcases hres : probeLoop h1.keys (h1.cap - 1) k2 k2 h1.cap with
              j3 | j3 | _
            all_goals rw [hres] at hl
            · cases hl
              have hz : ∃ z, z < 2 ^ n ∧ IsHit h1.keys k2 z := by
                obtain ⟨z, hzl, hz0⟩ := exists_zero_slot h1.keys (by omega)
                exact ⟨z, by omega, Or.inr hz0⟩
              obtain ⟨d, hd, hmin, hhit, hres2⟩ := probeLoop_result h1.keys k2 n k2 hz
              rw [hpow] at hres
              rw [hres] at hres2
              by_cases hcase : h1.keys.getD ((k2 + d) % 2 ^ n) 0 = k2
              · rw [if_pos hcase] at hres2
                cases hres2
                exact ⟨by omega, hcase⟩
              · rw [if_neg hcase] at hres2
                cases hres2
            · cases hl
            · cases hl
        have htj : t ≠ j := by
          intro heq
          rw [heq, hkey] at ht
          exact hk2 ht.2.symm
        show some ((h1.vals.set j v).getD t h1.nullv) = some (h1.vals.getD t h1.nullv)
        rw [getD_set_ne _ _ _ _ _ (fun hh => htj hh.symm)]
  · push_neg at hpres
    have hz : ∃ z, z < h1.cap ∧ h1.keys.getD z 0 = 0 := by
      obtain ⟨z, hzl, hz0⟩ := exists_zero_slot h1.keys (by omega)
      exact ⟨z, by omega, hz0⟩
    obtain ⟨j, hadd, hj, hj0, hchain2, hdis2, hcnt2⟩ :=
      hmap64__idx_add_insert h1 n key hpow hklen1 hWF1.dis hWF1.chain hz hpres hk0
    have hset : HMAP64_SET b key v true true
        = some { h1 with len := h1.len + 1, keys := h1.keys.set j key, vals := h1.vals.set j v } := by
      rw [HMAP64_SET, hfit]
      show (match hmap64__idx_add h1 key with
        | some (i, h2) => some { h2 with vals := h2.vals.set i v }
        | none => if key = 0 then some { h1 with nullv := v } else some h1)
        = some { h1 with len := h1.len + 1, keys := h1.keys.set j key, vals := h1.vals.set j v }
      rw [hadd]
    have heven : 2 * 2 ^ (n - 1) = 2 ^ n := by
      rw [← Nat.pow_succ']
      congr 1
      omega
    have hWF2 : Hmap64WF { h1 with len := h1.len + 1, keys := h1.keys.set j key, vals := h1.vals.set j v } :=
      { pow := ⟨n, hn4, hpow⟩
        klen := by
          show (h1.keys.set j key).length = h1.cap
          rw [List.length_set]
          exact hklen1
        vlen := by
          show (h1.vals.set j v).length = h1.cap
          rw [List.length_set]
          exact hvlen1
        dis := hdis2
        lenEq := by
          show h1.len + 1 = countNZ (h1.keys.set j key)
          rw [hcnt2]
          have := hWF1.lenEq
          omega
        room := by
          show (h1.len + 1) * 2 ≤ h1.cap
          omega
        chain := hchain2 }
    have hkey2 : (h1.keys.set j key).getD j 0 = key :=
      getD_set_self _ _ _ _ (by omega)
    refine ⟨_, hset, hWF2, ?_, ?_, hnull1,
      Or.inr (by show h1.len + 1 = HMAP64_LEN b + 1; omega),
      by show HMAP64_CAP b ≤ h1.cap; omega,
      by show h1.cap ≤ max 16 (2 * HMAP64_CAP b); omega,
      by show h1.cap ≤ max 16 (max (HMAP64_CAP b) (4 * HMAP64_LEN b)); omega⟩
    · rw [hmap64Observe]
      have hl2 : hmap64__idx_lookup { h1 with len := h1.len + 1, keys := h1.keys.set j key, vals := h1.vals.set j v } key = some j :=
        hmap64__idx_lookup_found _ n key j hpow
          (by show (h1.keys.set j key).length = _; rw [List.length_set]; exact hklen1)
          hdis2 hchain2 hj hkey2 hk0
      rw [hl2, Option.map_some']
      show some ((h1.vals.set j v).getD j h1.nullv) = some v
      rw [getD_set_self _ _ _ _ (by omega)]
    · intro k2 hk2
      rw [← hobs1 k2]
      by_cases hkz : k2 = 0
      · rw [hmap64Observe, hmap64Observe, hmap64__idx_lookup, hmap64__idx_lookup,
          if_pos hkz, if_pos hkz]
        rfl
      by_cases hpres2 : ∃ t, t < h1.cap ∧ h1.keys.getD t 0 = k2
      · obtain ⟨t, ht, htk⟩ := hpres2
        have htj : t ≠ j := by
          intro heq
          rw [heq, hj0] at htk
          exact hkz htk.symm
        have hl1 : hmap64__idx_lookup h1 k2 = some t :=
          hmap64__idx_lookup_found h1 n k2 t hpow hklen1 hWF1.dis hWF1.chain ht htk hkz
        have hl2 : hmap64__idx_lookup { h1 with len := h1.len + 1, keys := h1.keys.set j key, vals := h1.vals.set j v } k2 = some t :=
          hmap64__idx_lookup_found _ n k2 t hpow
            (by show (h1.keys.set j key).length = _; rw [List.length_set]; exact hklen1)
            hdis2 hchain2 ht
            (by
              show (h1.keys.set j key).getD t 0 = k2
              rw [getD_set_ne _ _ _ _ _ (fun hh => htj hh.symm)]
              exact htk) hkz
        rw [hmap64Observe, hmap64Observe, hl1, hl2, Option.map_some', Option.map_some']
        show some ((h1.vals.set j v).getD t h1.nullv) = some (h1.vals.getD t h1.nullv)
        rw [getD_set_ne _ _ _ _ _ (fun hh => htj hh.symm)]
      · push_neg at hpres2
        have hl1 : hmap64__idx_lookup h1 k2 = none :=
          hmap64__idx_lookup_absent h1 n k2 hpow hklen1 hz hpres2
        have hz2 : ∃ z, z < h1.cap ∧ (h1.keys.set j key).getD z 0 = 0 := by
          obtain ⟨z, hzl, hz0⟩ := exists_zero_slot (h1.keys.set j key) (by
            rw [List.length_set, hcnt2, hklen1]
            omega)
          rw [List.length_set] at hzl
          exact ⟨z, by omega, hz0⟩
        have hl2 : hmap64__idx_lookup { h1 with len := h1.len + 1, keys := h1.keys.set j key, vals := h1.vals.set j v } k2 = none :=
          hmap64__idx_lookup_absent _ n k2 hpow
            (by show (h1.keys.set j key).length = _; rw [List.length_set]; exact hklen1)
            hz2
            (by
              intro t ht
              show (h1.keys.set j key).getD t 0 ≠ k2
              by_cases htj : t = j
              · rw [htj, hkey2]
                exact fun hh => hk2 hh.symm
              · rw [getD_set_ne _ _ _ _ _ (fun hh => htj hh.symm)]
                exact hpres2 t ht)
        rw [hmap64Observe, hmap64Observe, hl1, hl2]
        rfl

/-! ### Probe result characterization (no invariants needed) -/

theorem probeLoop_found_key (keys : List Nat) (m key : Nat) : ∀ (fuel i j : Nat),
    probeLoop keys m key i fuel = ScanRes.found j → keys.getD j 0 = key := by
  intro fuel
  induction fuel with
  | zero =>
    intro i j h
    exact absurd h (by simp [probeLoop])
  | succ f ih =>
    intro i j h
    rw [probeLoop_succ] at h
    by_cases h1 : keys.getD (Nat.land i m) 0 = key
    · rw [if_pos h1] at h
      cases h
      exact h1
    · rw [if_neg h1] at h
      by_cases h2 : keys.getD (Nat.land i m) 0 = 0
      · rw [if_pos h2] at h
        cases h
      · rw [if_neg h2] at h
        exact ih _ j h

theorem probeLoop_empty_key (keys : List Nat) (m key : Nat) : ∀ (fuel i j : Nat),
    probeLoop keys m key i fuel = ScanRes.empty j → keys.getD j 0 = 0 := by
  intro fuel
  induction fuel with
  | zero =>
    intro i j h
    exact absurd h (by simp [probeLoop])
  | succ f ih =>
    intro i j h
    rw [probeLoop_succ] at h
    by_cases h1 : keys.getD (Nat.land i m) 0 = key
    · rw [if_pos h1] at h
      cases h
    · rw [if_neg h1] at h
      by_cases h2 : keys.getD (Nat.land i m) 0 = 0
      · rw [if_pos h2] at h
        cases h
        exact h2
      · rw [if_neg h2] at h
        exact ih _ j h

/-- A table with an occupied slot has positive occupancy. -/
theorem countNZ_pos (keys : List Nat) (t : Nat) (ht : t < keys.length)
    (hnz : keys.getD t 0 ≠ 0) : 0 < countNZ keys := by
  rw [countNZ_pos_card]
  have hmem : t ∈ (Finset.range keys.length).filter
      (fun t2 => keys.getD t2 0 ≠ 0) :=
    Finset.mem_filter.mpr ⟨Finset.mem_range.mpr ht, hnz⟩
  exact Finset.card_pos.mpr ⟨t, hmem⟩

/-- Offsets below the modulus that land on the same slot are equal. -/
theorem pos_inj (c i0 a b : Nat) (hc : 0 < c) (ha : a < c) (hb : b < c)
    (h : (i0 + a) % c = (i0 + b) % c) : a = b := by
  have h1 : dist c i0 ((i0 + a) % c) = a := dist_of_add c i0 a hc ha
  have h2 : dist c i0 ((i0 + b) % c) = b := dist_of_add c i0 b hc hb
  rw [← h1, ← h2, h]

/-- What a successful 32-bit lookup says about the table: the returned
slot is in range and holds the key. -/
theorem hmap__idx_lookup_char (h : Hmap V) (key j : Nat)
    (hl : hmap__idx_lookup h key = some j) :
    j ≤ h.maxlen ∧ h.keys.getD j 0 = key ∧ key ≠ 0 := by
  rw [hmap__idx_lookup] at hl
  by_cases hk0 : key = 0
  · rw [if_pos hk0] at hl
    cases hl
  · rw [if_neg hk0] at hl
    cases hres : probeLoop h.keys h.maxlen key key (h.maxlen + 1) with
    | found i =>
      rw [hres] at hl
      cases hl
      exact ⟨probeLoop_le h.keys h.maxlen key _ key _ (Or.inl hres),
        probeLoop_found_key h.keys h.maxlen key _ key _ hres, hk0⟩
    | empty i =>
      rw [hres] at hl
      cases hl
    | fuelOut =>
      rw [hres] at hl
      cases hl

/-- What a successful 64-bit lookup says about the table. -/
theorem hmap64__idx_lookup_char (h : Hmap64 V) (key j : Nat)
    (hl : hmap64__idx_lookup h key = some j) :
    j ≤ h.cap - 1 ∧ h.keys.getD j 0 = key ∧ key ≠ 0 := by
  rw [hmap64__idx_lookup] at hl
  by_cases hk0 : key = 0
  · rw [if_pos hk0] at hl
    cases hl
  · rw [if_neg hk0] at hl
    cases hres : probeLoop h.keys (h.cap - 1) key key h.cap with
    | found i =>
      rw [hres] at hl
      cases hl
      exact ⟨probeLoop_le h.keys (h.cap - 1) key _ key _ (Or.inl hres),
        probeLoop_found_key h.keys (h.cap - 1) key _ key _ hres, hk0⟩
    | empty i =>
      rw [hres] at hl
      cases hl
    | fuelOut =>
      rw [hres] at hl
      cases hl

/-! ### Back-shift deletion (32-bit map)

The inner `while` loop of `hmap__idx` with `del != 0` re-homes each key
of the occupied run that follows the cleared slot.  `DInv` is the loop
invariant: the scan has processed the slots at cyclic distances
`1 .. t` from the cleared slot `i0`, a single re-usable hole sits at
distance `σ ≤ t`, every stored key still lies on an all-occupied (in
the original table `H`) prefix of its probe path, and the keys kept
between the hole and the scan front were verified to probe to their own
slot before reaching the hole. -/

theorem hmap__delScan_succ (h : Hmap V) (i fuel : Nat) :
    hmap__delScan h i (fuel + 1) =
      if h.keys.getD (Nat.land (i + 1) h.maxlen) 0 = 0 then h
      else
        match hmap__idx_add h (h.keys.getD (Nat.land (i + 1) h.maxlen) 0) with
        | none => h
        | some (j, h1) =>
          if j = Nat.land (i + 1) h.maxlen then
            hmap__delScan h1 (Nat.land (i + 1) h.maxlen) fuel
          else
            hmap__delScan
              { h1 with
                len := h1.len - 1
                keys := h1.keys.set (Nat.land (i + 1) h.maxlen) 0
                vals := h1.vals.set j
                  (h1.vals.getD (Nat.land (i + 1) h.maxlen) h1.nullv) }
              (Nat.land (i + 1) h.maxlen) fuel := rfl

/-- Ambient facts of a deletion: `H` is the table right before the
probe hit, `i0` the cleared slot, `k` its key, and `dR` the cyclic
distance from `i0` to the first empty slot of `H` after it. -/
structure DCtx (H : Hmap V) (n i0 k dR : Nat) : Prop where
  hpow : H.maxlen + 1 = 2 ^ n
  hk0 : k ≠ 0
  hdRc : dR < 2 ^ n
  hdRz : H.keys.getD ((i0 + dR) % 2 ^ n) 0 = 0
  hdRnz : ∀ d, d < dR → H.keys.getD ((i0 + d) % 2 ^ n) 0 ≠ 0

/-- Invariant of the back-shift scan after processing the slots at
distances `1 .. t` from `i0`, with the current hole at distance `σ`. -/
structure DInv (H : Hmap V) (n i0 k dR : Nat) (g : Hmap V) (t σ : Nat) :
    Prop where
  maxEq : g.maxlen = H.maxlen
  nullEq : g.nullv = H.nullv
  klen : g.keys.length = 2 ^ n
  vlen : g.vals.length = 2 ^ n
  lenEq : g.len + 1 = H.len
  cnt : countNZ g.keys + 1 = countNZ H.keys
  pairsEq : pairs H.keys H.vals
    = (k, H.vals.getD i0 H.nullv) ::ₘ pairs g.keys g.vals
  dis : KeysDistinct g.keys
  hst : σ ≤ t
  htd : t + 1 ≤ dR
  holeZero : g.keys.getD ((i0 + σ) % 2 ^ n) 0 = 0
  zeroChar : ∀ s, s < 2 ^ n → g.keys.getD s 0 = 0 →
    H.keys.getD s 0 = 0 ∨ s = (i0 + σ) % 2 ^ n
  agree : ∀ d, t < d → d < 2 ^ n →
    g.keys.getD ((i0 + d) % 2 ^ n) 0 = H.keys.getD ((i0 + d) % 2 ^ n) 0
  pathsH : ∀ s, s < 2 ^ n → g.keys.getD s 0 ≠ 0 →
    ∀ e, e < dist (2 ^ n) (g.keys.getD s 0) s →
      H.keys.getD ((g.keys.getD s 0 + e) % 2 ^ n) 0 ≠ 0
  keptAvoid : ∀ d, σ < d → d ≤ t →
    dist (2 ^ n) (g.keys.getD ((i0 + d) % 2 ^ n) 0) ((i0 + d) % 2 ^ n)
      ≤ dist (2 ^ n) (g.keys.getD ((i0 + d) % 2 ^ n) 0) ((i0 + σ) % 2 ^ n)
  kAbsent : ∀ s, s < 2 ^ n → g.keys.getD s 0 ≠ k

/-- The back-shift scan preserves `DInv` and stops at the first slot
that was already empty in `H`, i.e. after processing distances
`1 .. dR - 1`. -/
theorem delScan_DInv (H : Hmap V) (n i0 k dR : Nat) (ctx : DCtx H n i0 k dR) :
    ∀ (fuel t σ : Nat) (g : Hmap V), DInv H n i0 k dR g t σ →
      dR ≤ t + fuel →
      ∃ σf, DInv H n i0 k dR
        (hmap__delScan g ((i0 + t) % 2 ^ n) fuel) (dR - 1) σf := by
  intro fuel
  induction fuel with
  | zero =>
    intro t σ g inv hfuel
    have := inv.htd
    omega
  | succ f ih =>
    intro t σ g inv hfuel
    have hc : 0 < 2 ^ n := Nat.pos_pow_of_pos n (by omega)
    have hgm : g.maxlen = 2 ^ n - 1 := by
      have h1 := inv.maxEq
      have h2 := ctx.hpow
      omega
    have hmask : Nat.land ((i0 + t) % 2 ^ n + 1) g.maxlen
        = (i0 + (t + 1)) % 2 ^ n := by
      rw [hgm, land_two_pow_sub_one]
      exact Nat.mod_add_mod _ _ _
    rw [hmap__delScan_succ, hmask]
    set s := (i0 + (t + 1)) % 2 ^ n with hs_def
    set hole := (i0 + σ) % 2 ^ n with hhole_def
    have hsc : s < 2 ^ n := Nat.mod_lt _ hc
    have hσc : σ < 2 ^ n := by
      have h1 := inv.hst
      have h2 := inv.htd
      have h3 := ctx.hdRc
      omega
    have hholec : hole < 2 ^ n := Nat.mod_lt _ hc
    have ht1c : t + 1 < 2 ^ n := by
      have h1 := inv.htd
      have h2 := ctx.hdRc
      omega
    have hagree : g.keys.getD s 0 = H.keys.getD s 0 :=
      inv.agree (t + 1) (by omega) ht1c
    by_cases hstop : g.keys.getD s 0 = 0
    · rw [if_pos hstop]
      have hteq : t = dR - 1 := by
        by_contra hne
        have hlt : t + 1 < dR := by
          have := inv.htd
          omega
        exact ctx.hdRnz (t + 1) hlt (by rw [← hagree]; exact hstop)
      refine ⟨σ, ?_⟩
      rw [show dR - 1 = t from by omega]
      exact inv
    · rw [if_neg hstop]
      have ht1dR : t + 1 < dR := by
        have hle : t + 1 ≤ dR := inv.htd
        by_contra hge
        have heq : t + 1 = dR := by omega
        have hz : H.keys.getD s 0 = 0 := by
          rw [hs_def, heq]
          exact ctx.hdRz
        exact hstop (hagree.trans hz)
      set keyd := g.keys.getD s 0 with hkeyd
      have hk0d : keyd ≠ 0 := hstop
      have hklen := inv.klen
      have hd_s : dist (2 ^ n) keyd s < 2 ^ n := dist_lt _ _ _ hc
      have hd_h : dist (2 ^ n) keyd hole < 2 ^ n := dist_lt _ _ _ hc
      have hslot_s : (keyd + dist (2 ^ n) keyd s) % 2 ^ n = s :=
        slot_of_dist _ _ _ hc hsc
      have hslot_h : (keyd + dist (2 ^ n) keyd hole) % 2 ^ n = hole :=
        slot_of_dist _ _ _ hc hholec
      have hpathH : ∀ e, e < dist (2 ^ n) keyd s →
          H.keys.getD ((keyd + e) % 2 ^ n) 0 ≠ 0 := inv.pathsH s hsc hk0d
      have hnohit : ∀ e, e < dist (2 ^ n) keyd s → e ≠ dist (2 ^ n) keyd hole →
          ¬ IsHit g.keys keyd ((keyd + e) % 2 ^ n) := by
        intro e he hne hit
        have hec : e < 2 ^ n := by omega
        have hxc : (keyd + e) % 2 ^ n < 2 ^ n := Nat.mod_lt _ hc
        have hde : dist (2 ^ n) keyd ((keyd + e) % 2 ^ n) = e :=
          dist_of_add _ _ _ hc hec
        have hxs : (keyd + e) % 2 ^ n ≠ s := by
          intro heq
          rw [heq] at hde
          omega
        rcases hit with hfound | hzero
        · have := inv.dis ((keyd + e) % 2 ^ n) s (by omega) (by omega)
            (by rw [hfound]; exact hk0d) (hfound.trans hkeyd)
          exact hxs this
        · rcases inv.zeroChar _ hxc hzero with hHz | hxh
          · exact hpathH e he hHz
          · rw [hxh] at hde
            exact hne hde.symm
      by_cases hcase : dist (2 ^ n) keyd s ≤ dist (2 ^ n) keyd hole
      · -- the probe for the scanned key reaches its own slot first: keep
        have hhit : IsHit g.keys keyd ((keyd + dist (2 ^ n) keyd s) % 2 ^ n) := by
          rw [hslot_s]
          exact Or.inl hkeyd.symm
        have hmin : ∀ e, e < dist (2 ^ n) keyd s →
            ¬ IsHit g.keys keyd ((keyd + e) % 2 ^ n) :=
          fun e he => hnohit e he (by omega)
        have hprobe := probeLoop_first_hit g.keys keyd n
          (dist (2 ^ n) keyd s) keyd (2 ^ n) (by omega) hhit hmin
        rw [hslot_s, if_pos hkeyd.symm] at hprobe
        have hadd : hmap__idx_add g keyd = some (s, g) := by
          rw [hmap__idx_add, if_neg hk0d, hgm,
            show 2 ^ n - 1 + 1 = 2 ^ n from by omega, hprobe]
        have hstep : (match hmap__idx_add g keyd with
            | none => g
            | some (j, h1) =>
              if j = s then hmap__delScan h1 s f
              else
                hmap__delScan
                  { h1 with
                    len := h1.len - 1
                    keys := h1.keys.set s 0
                    vals := h1.vals.set j (h1.vals.getD s h1.nullv) } s f)
            = hmap__delScan g s f := by
          rw [hadd]
          show (if s = s then hmap__delScan g s f else _) = hmap__delScan g s f
          rw [if_pos rfl]
        rw [hstep]
        have inv2 : DInv H n i0 k dR g (t + 1) σ :=
          { maxEq := inv.maxEq
            nullEq := inv.nullEq
            klen := inv.klen
            vlen := inv.vlen
            lenEq := inv.lenEq
            cnt := inv.cnt
            pairsEq := inv.pairsEq
            dis := inv.dis
            hst := by
              have := inv.hst
              omega
            htd := by omega
            holeZero := inv.holeZero
            zeroChar := inv.zeroChar
            agree := fun d hd hdc => inv.agree d (by omega) hdc
            pathsH := inv.pathsH
            keptAvoid := by
              intro d hd1 hd2
              by_cases hdt : d ≤ t
              · exact inv.keptAvoid d hd1 hdt
              · have hde : d = t + 1 := by omega
                subst hde
                show dist (2 ^ n) (g.keys.getD s 0) s
                  ≤ dist (2 ^ n) (g.keys.getD s 0) hole
                rw [← hkeyd]
                exact hcase
            kAbsent := inv.kAbsent }
        exact ih (t + 1) σ g inv2 (by omega)
      · -- the probe reaches the hole first: displace the key into it
        push_neg at hcase
        have hhit : IsHit g.keys keyd ((keyd + dist (2 ^ n) keyd hole) % 2 ^ n) := by
          rw [hslot_h]
          exact Or.inr inv.holeZero
        have hmin : ∀ e, e < dist (2 ^ n) keyd hole →
            ¬ IsHit g.keys keyd ((keyd + e) % 2 ^ n) :=
          fun e he => hnohit e (by omega) (by omega)
        have hprobe := probeLoop_first_hit g.keys keyd n
          (dist (2 ^ n) keyd hole) keyd (2 ^ n) (by omega) hhit hmin
        have hhne : g.keys.getD hole 0 ≠ keyd := by
          rw [inv.holeZero]
          exact fun hh => hk0d hh.symm
        rw [hslot_h, if_neg hhne] at hprobe
        have hadd : hmap__idx_add g keyd
            = some (hole,
              { g with
                len := g.len + 1
                keys := g.keys.set hole keyd }) := by
          rw [hmap__idx_add, if_neg hk0d, hgm,
            show 2 ^ n - 1 + 1 = 2 ^ n from by omega, hprobe]
        have hsne : hole ≠ s := by
          intro heq
          have h1 := pos_inj (2 ^ n) i0 σ (t + 1) hc hσc ht1c heq
          have h2 := inv.hst
          omega
        have hstep : (match hmap__idx_add g keyd with
            | none => g
            | some (j, h1) =>
              if j = s then hmap__delScan h1 s f
              else
                hmap__delScan
                  { h1 with
                    len := h1.len - 1
                    keys := h1.keys.set s 0
                    vals := h1.vals.set j (h1.vals.getD s h1.nullv) } s f)
            = hmap__delScan
                { len := g.len
                  maxlen := g.maxlen
                  keys := (g.keys.set hole keyd).set s 0
                  vals := g.vals.set hole (g.vals.getD s g.nullv)
                  nullv := g.nullv } s f := by
          rw [hadd]
          show (if hole = s
              then hmap__delScan
                { g with len := g.len + 1, keys := g.keys.set hole keyd } s f
              else _) = _
          rw [if_neg hsne]
          rfl
        rw [hstep]
        have hs_in_set : (g.keys.set hole keyd).getD s 0 = keyd := by
          rw [getD_set_ne _ _ _ _ _ hsne]
        have hcnt1 : countNZ (g.keys.set hole keyd) = countNZ g.keys + 1 :=
          countNZ_set_nz g.keys hole keyd (by omega) inv.holeZero hk0d
        have hcnt2 : countNZ ((g.keys.set hole keyd).set s 0) + 1
            = countNZ (g.keys.set hole keyd) :=
          countNZ_set_z _ s (by rw [List.length_set]; omega)
            (by rw [hs_in_set]; exact hk0d)
        have hvlen := inv.vlen
        have hp1 : pairs (g.keys.set hole keyd)
              (g.vals.set hole (g.vals.getD s g.nullv))
            = (keyd, g.vals.getD s g.nullv) ::ₘ pairs g.keys g.vals :=
          pairs_set_both g.keys g.vals hole keyd _ (by omega) (by omega)
            inv.holeZero hk0d
        have hp2 := pairs_clear_slot (V := V) g.nullv (g.keys.set hole keyd)
          (g.vals.set hole (g.vals.getD s g.nullv)) s
          (by rw [List.length_set]; omega)
          (by rw [List.length_set]; omega)
          (by rw [hs_in_set]; exact hk0d)
        rw [hs_in_set,
          getD_set_ne g.vals hole s (g.vals.getD s g.nullv) g.nullv hsne] at hp2
        have hpg : pairs ((g.keys.set hole keyd).set s 0)
              (g.vals.set hole (g.vals.getD s g.nullv))
            = pairs g.keys g.vals := by
          have hcomb := hp2.symm.trans hp1
          exact (Multiset.cons_inj_right _).mp hcomb
        have inv2 : DInv H n i0 k dR
            { len := g.len
              maxlen := g.maxlen
              keys := (g.keys.set hole keyd).set s 0
              vals := g.vals.set hole (g.vals.getD s g.nullv)
              nullv := g.nullv } (t + 1) (t + 1) :=
          { maxEq := inv.maxEq
            nullEq := inv.nullEq
            klen := by
              show ((g.keys.set hole keyd).set s 0).length = 2 ^ n
              rw [List.length_set, List.length_set]
              exact inv.klen
            vlen := by
              show (g.vals.set hole (g.vals.getD s g.nullv)).length = 2 ^ n
              rw [List.length_set]
              exact inv.vlen
            lenEq := inv.lenEq
            cnt := by
              show countNZ ((g.keys.set hole keyd).set s 0) + 1
                = countNZ H.keys
              have := inv.cnt
              omega
            pairsEq := by
              show pairs H.keys H.vals = (k, H.vals.getD i0 H.nullv) ::ₘ
                pairs ((g.keys.set hole keyd).set s 0)
                  (g.vals.set hole (g.vals.getD s g.nullv))
              rw [hpg]
              exact inv.pairsEq
            dis := by
              show KeysDistinct ((g.keys.set hole keyd).set s 0)
              exact keysDistinct_move g.keys hole s keyd inv.dis (by omega)
                (by omega) hsne inv.holeZero hkeyd.symm hk0d
            hst := le_rfl
            htd := by omega
            holeZero := by
              show ((g.keys.set hole keyd).set s 0).getD ((i0 + (t + 1)) % 2 ^ n) 0 = 0
              rw [← hs_def]
              exact getD_set_self _ _ _ _ (by rw [List.length_set]; omega)
            zeroChar := by
              intro s2 hs2 hz2
              show H.keys.getD s2 0 = 0 ∨ s2 = (i0 + (t + 1)) % 2 ^ n
              rw [← hs_def]
              by_cases h2s : s2 = s
              · exact Or.inr h2s
              · rw [show ((g.keys.set hole keyd).set s 0).getD s2 0
                    = (g.keys.set hole keyd).getD s2 0 from
                    getD_set_ne _ _ _ _ _ (fun hh => h2s hh.symm)] at hz2
                by_cases h2h : s2 = hole
                · rw [h2h, getD_set_self _ _ _ _ (by omega)] at hz2
                  exact absurd hz2 hk0d
                · rw [getD_set_ne _ _ _ _ _ (fun hh => h2h hh.symm)] at hz2
                  rcases inv.zeroChar s2 hs2 hz2 with hH | hh2
                  · exact Or.inl hH
                  · exact absurd hh2 h2h
            agree := by
              intro d hd hdc
              have hdnes : (i0 + d) % 2 ^ n ≠ s := by
                intro heq
                have := pos_inj (2 ^ n) i0 d (t + 1) hc hdc ht1c heq
                omega
              have hdneh : (i0 + d) % 2 ^ n ≠ hole := by
                intro heq
                have := pos_inj (2 ^ n) i0 d σ hc hdc hσc heq
                have := inv.hst
                omega
              show ((g.keys.set hole keyd).set s 0).getD ((i0 + d) % 2 ^ n) 0
                = H.keys.getD ((i0 + d) % 2 ^ n) 0
              rw [getD_set_ne _ _ _ _ _ (fun hh => hdnes hh.symm),
                getD_set_ne _ _ _ _ _ (fun hh => hdneh hh.symm)]
              exact inv.agree d (by omega) hdc
            pathsH := by
              intro s2 hs2 hnz2 e he
              revert hnz2 he
              show ((g.keys.set hole keyd).set s 0).getD s2 0 ≠ 0 →
                e < dist (2 ^ n) (((g.keys.set hole keyd).set s 0).getD s2 0) s2 →
                H.keys.getD
                  ((((g.keys.set hole keyd).set s 0).getD s2 0 + e) % 2 ^ n) 0 ≠ 0
              by_cases h2s : s2 = s
              · rw [h2s, getD_set_self _ _ _ _ (by rw [List.length_set]; omega)]
                intro hnz2
                exact absurd rfl hnz2
              · rw [getD_set_ne _ _ _ _ _ (fun hh => h2s hh.symm)]
                by_cases h2h : s2 = hole
                · rw [h2h, getD_set_self _ _ _ _ (by omega)]
                  intro _ he
                  exact hpathH e (by omega)
                · rw [getD_set_ne _ _ _ _ _ (fun hh => h2h hh.symm)]
                  intro hnz2 he
                  exact inv.pathsH s2 hs2 hnz2 e he
            keptAvoid := by
              intro d hd1 hd2
              omega
            kAbsent := by
              intro s2 hs2
              show ((g.keys.set hole keyd).set s 0).getD s2 0 ≠ k
              by_cases h2s : s2 = s
              · rw [h2s, getD_set_self _ _ _ _ (by rw [List.length_set]; omega)]
                exact fun hh => ctx.hk0 hh.symm
              · rw [getD_set_ne _ _ _ _ _ (fun hh => h2s hh.symm)]
                by_cases h2h : s2 = hole
                · rw [h2h, getD_set_self _ _ _ _ (by omega)]
                  rw [hkeyd]
                  exact inv.kAbsent s hsc
                · rw [getD_set_ne _ _ _ _ _ (fun hh => h2h hh.symm)]
                  exact inv.kAbsent s2 hs2 }
        exact ih (t + 1) (t + 1) _ inv2 (by omega)

/-- After the back-shift scan the probe-chain invariant holds again:
the only new empty slot (the final hole) cannot lie on the probe path
of any stored key. -/
theorem dinv_chain (H : Hmap V) (n i0 k dR : Nat) (ctx : DCtx H n i0 k dR)
    (R : Hmap V) (σf : Nat) (inv : DInv H n i0 k dR R (dR - 1) σf) :
    ChainInv R.keys (2 ^ n) := by
  have hc : 0 < 2 ^ n := Nat.pos_pow_of_pos n (by omega)
  have hdR1 : 1 ≤ dR := by
    have := inv.htd
    omega
  have hσf : σf ≤ dR - 1 := inv.hst
  intro s2 hs2 hnz2 e he
  intro hzero
  have hxc : (R.keys.getD s2 0 + e) % 2 ^ n < 2 ^ n := Nat.mod_lt _ hc
  rcases inv.zeroChar _ hxc hzero with hHz | hhole
  · exact inv.pathsH s2 hs2 hnz2 e he hHz
  · have hd2c : dist (2 ^ n) (R.keys.getD s2 0) s2 < 2 ^ n := dist_lt _ _ _ hc
    have hec : e < 2 ^ n := by omega
    have hde : dist (2 ^ n) (R.keys.getD s2 0)
        ((R.keys.getD s2 0 + e) % 2 ^ n) = e := dist_of_add _ _ _ hc hec
    rw [hhole] at hde
    have hwalk : (R.keys.getD s2 0 + (e + (dR - σf))) % 2 ^ n
        = (i0 + dR) % 2 ^ n := by
      rw [← Nat.add_assoc, ← Nat.mod_add_mod, hhole, Nat.mod_add_mod]
      congr 1
      omega
    by_cases hcmp : e + (dR - σf) < dist (2 ^ n) (R.keys.getD s2 0) s2
    · have hH := inv.pathsH s2 hs2 hnz2 (e + (dR - σf)) hcmp
      rw [hwalk] at hH
      exact hH ctx.hdRz
    · have hne_z : dist (2 ^ n) (R.keys.getD s2 0) s2 ≠ e + (dR - σf) := by
        intro heq
        have hs2slot : (R.keys.getD s2 0
            + dist (2 ^ n) (R.keys.getD s2 0) s2) % 2 ^ n = s2 :=
          slot_of_dist _ _ _ hc hs2
        rw [heq, hwalk] at hs2slot
        have hag := inv.agree dR (by omega) ctx.hdRc
        have hz2 : R.keys.getD ((i0 + dR) % 2 ^ n) 0 = 0 := hag.trans ctx.hdRz
        rw [hs2slot] at hz2
        exact hnz2 hz2
      have hs2pos : (i0 + (σf + (dist (2 ^ n) (R.keys.getD s2 0) s2 - e)))
          % 2 ^ n = s2 := by
        rw [show i0 + (σf + (dist (2 ^ n) (R.keys.getD s2 0) s2 - e))
            = (i0 + σf) + (dist (2 ^ n) (R.keys.getD s2 0) s2 - e) from by omega]
        rw [← Nat.mod_add_mod, ← hhole, Nat.mod_add_mod]
        rw [show R.keys.getD s2 0 + e
              + (dist (2 ^ n) (R.keys.getD s2 0) s2 - e)
            = R.keys.getD s2 0 + dist (2 ^ n) (R.keys.getD s2 0) s2 from by
          omega]
        exact slot_of_dist _ _ _ hc hs2
      have hka := inv.keptAvoid
        (σf + (dist (2 ^ n) (R.keys.getD s2 0) s2 - e))
        (by omega) (by omega)
      rw [hs2pos, hde] at hka
      omega

/-- Two well-formed tables whose pairs differ by exactly one pair with
key `k0` observe every other key identically. -/
theorem observe_eq_of_pairs_cons (h1 h2 : Hmap V) (hWF1 : HmapWF h1)
    (hWF2 : HmapWF h2) (k0 : Nat) (v0 : V)
    (hpr : pairs h1.keys h1.vals = (k0, v0) ::ₘ pairs h2.keys h2.vals)
    (key : Nat) (hne : key ≠ k0) :
    hmapObserve h1 key = hmapObserve h2 key := by
  obtain ⟨n1, hn1, hpow1⟩ := hWF1.pow
  obtain ⟨n2, hn2, hpow2⟩ := hWF2.pow
  have hk1 := hWF1.klen
  have hv1 := hWF1.vlen
  have hk2 := hWF2.klen
  have hv2 := hWF2.vlen
  have h16a : (16:Nat) ≤ 2 ^ n1 := by
    calc (16:Nat) = 2 ^ 4 := by norm_num
    _ ≤ 2 ^ n1 := Nat.pow_le_pow_right (by omega) hn1
  have h16b : (16:Nat) ≤ 2 ^ n2 := by
    calc (16:Nat) = 2 ^ 4 := by norm_num
    _ ≤ 2 ^ n2 := Nat.pow_le_pow_right (by omega) hn2
  have hroom1 : countNZ h1.keys < h1.maxlen + 1 := by
    have hr := hWF1.room
    have hle := hWF1.lenEq
    omega
  have hroom2 : countNZ h2.keys < h2.maxlen + 1 := by
    have hr := hWF2.room
    have hle := hWF2.lenEq
    omega
  by_cases hk0 : key = 0
  · rw [hmapObserve, hmapObserve, hmap__idx_lookup, hmap__idx_lookup,
      if_pos hk0, if_pos hk0]
    rfl
  by_cases hpres : ∃ j, j < h1.maxlen + 1 ∧ h1.keys.getD j 0 = key
  · obtain ⟨j, hj, hkey⟩ := hpres
    have hmem : (key, h1.vals.getD j h1.nullv) ∈ pairs h1.keys h1.vals := by
      rw [mem_pairs h1.nullv]
      exact ⟨hk0, j, by omega, by omega, hkey, rfl⟩
    rw [hpr] at hmem
    rcases Multiset.mem_cons.mp hmem with heq | hmem2
    · exact absurd (congrArg Prod.fst heq) hne
    rw [mem_pairs h1.nullv] at hmem2
    obtain ⟨_, j2, hj2k, hj2v, hkey2, hval2⟩ := hmem2
    have hl1 : hmap__idx_lookup h1 key = some j
      := hmap__idx_lookup_found h1 n1 key j hpow1 hk1 hWF1.dis hWF1.chain
        hj hkey hk0
    have hl2 : hmap__idx_lookup h2 key = some j2
      := hmap__idx_lookup_found h2 n2 key j2 hpow2 hk2 hWF2.dis hWF2.chain
        (by omega) hkey2 hk0
    rw [hmapObserve, hmapObserve, hl1, hl2]
    simp only [Option.map_some']
    have hdfl : h2.vals.getD j2 h2.nullv = h2.vals.getD j2 h1.nullv := by
      rw [getD_eq_get _ _ _ hj2v, getD_eq_get _ _ _ hj2v]
    rw [hdfl, hval2]
  · push_neg at hpres
    have habs2 : ∀ t, t < h2.maxlen + 1 → h2.keys.getD t 0 ≠ key := by
      intro t ht hkey2
      have hmem : (key, h2.vals.getD t h2.nullv) ∈ pairs h2.keys h2.vals := by
        rw [mem_pairs h2.nullv]
        exact ⟨hk0, t, by omega, by omega, hkey2, rfl⟩
      have hmem2 : (key, h2.vals.getD t h2.nullv) ∈ pairs h1.keys h1.vals := by
        rw [hpr]
        exact Multiset.mem_cons_of_mem hmem
      rw [mem_pairs h2.nullv] at hmem2
      obtain ⟨_, j1, hj1k, _, hkey1, _⟩ := hmem2
      exact hpres j1 (by omega) hkey1
    have hz1 : ∃ z, z < h1.maxlen + 1 ∧ h1.keys.getD z 0 = 0 := by
      obtain ⟨z, hz, h0⟩ := exists_zero_slot h1.keys (by omega)
      exact ⟨z, by omega, h0⟩
    have hz2 : ∃ z, z < h2.maxlen + 1 ∧ h2.keys.getD z 0 = 0 := by
      obtain ⟨z, hz, h0⟩ := exists_zero_slot h2.keys (by omega)
      exact ⟨z, by omega, h0⟩
    rw [hmapObserve, hmapObserve,
      hmap__idx_lookup_absent h1 n1 key hpow1 hk1 hz1 hpres,
      hmap__idx_lookup_absent h2 n2 key hpow2 hk2 hz2 habs2]
    rfl

/-- `HMAP_DEL` of a stored key on a well-formed allocated map: it
returns true, the key is gone, every other key keeps its value, the
length drops by one and the header geometry is untouched. -/
theorem HMAP_DEL_present_spec (h : Hmap V) (key i0 : Nat) (hWF : HmapWF h)
    (hl : hmap__idx_lookup h key = some i0) :
    ∃ R, HMAP_DEL (some h) key = (true, some R) ∧ HmapWF R ∧
      R.maxlen = h.maxlen ∧ R.nullv = h.nullv ∧ R.len + 1 = h.len ∧
      hmapObserve R key = none ∧
      (∀ k2, k2 ≠ key → hmapObserve R k2 = hmapObserve h k2) := by
  obtain ⟨n, hn4, hpow⟩ := hWF.pow
  have hc : 0 < 2 ^ n := Nat.pos_pow_of_pos n (by omega)
  have h16 : (16:Nat) ≤ 2 ^ n := by
    calc (16:Nat) = 2 ^ 4 := by norm_num
    _ ≤ 2 ^ n := Nat.pow_le_pow_right (by omega) hn4
  obtain ⟨hi0le, hkey, hk0⟩ := hmap__idx_lookup_char h key i0 hl
  have hi0c : i0 < 2 ^ n := by omega
  have hklen := hWF.klen
  have hvlen := hWF.vlen
  have hcnt : countNZ h.keys < 2 ^ n := by
    have hr := hWF.room
    have hle := hWF.lenEq
    omega
  -- the first slot after i0 that is empty in h
  have hex : ∃ d, h.keys.getD ((i0 + (d + 1)) % 2 ^ n) 0 = 0 := by
    obtain ⟨z, hzl, hz0⟩ := exists_zero_slot h.keys (by omega)
    have hzc : z < 2 ^ n := by omega
    have hzi0 : z ≠ i0 := by
      intro heq
      rw [heq, hkey] at hz0
      exact hk0 hz0
    have hd1 : 1 ≤ dist (2 ^ n) i0 z := by
      by_contra hlt
      have h0 : dist (2 ^ n) i0 z = 0 := by omega
      have := slot_of_dist (2 ^ n) i0 z hc hzc
      rw [h0, Nat.add_zero, Nat.mod_eq_of_lt hi0c] at this
      exact hzi0 this.symm
    refine ⟨dist (2 ^ n) i0 z - 1, ?_⟩
    rw [show dist (2 ^ n) i0 z - 1 + 1 = dist (2 ^ n) i0 z from by omega,
      slot_of_dist (2 ^ n) i0 z hc hzc]
    exact hz0
  have hdRc : Nat.find hex + 1 < 2 ^ n := by
    obtain ⟨z, hzl, hz0⟩ := exists_zero_slot h.keys (by omega)
    have hzc : z < 2 ^ n := by omega
    have hzi0 : z ≠ i0 := by
      intro heq
      rw [heq, hkey] at hz0
      exact hk0 hz0
    have hd1 : 1 ≤ dist (2 ^ n) i0 z := by
      by_contra hlt
      have h0 : dist (2 ^ n) i0 z = 0 := by omega
      have := slot_of_dist (2 ^ n) i0 z hc hzc
      rw [h0, Nat.add_zero, Nat.mod_eq_of_lt hi0c] at this
      exact hzi0 this.symm
    have hfle : Nat.find hex ≤ dist (2 ^ n) i0 z - 1 := by
      apply Nat.find_min'
      rw [show dist (2 ^ n) i0 z - 1 + 1 = dist (2 ^ n) i0 z from by omega,
        slot_of_dist (2 ^ n) i0 z hc hzc]
      exact hz0
    have := dist_lt (2 ^ n) i0 z hc
    omega
  have ctx : DCtx h n i0 key (Nat.find hex + 1) :=
    { hpow := hpow
      hk0 := hk0
      hdRc := hdRc
      hdRz := Nat.find_spec hex
      hdRnz := by
        intro d hd
        match d with
        | 0 =>
          rw [Nat.add_zero, Nat.mod_eq_of_lt hi0c, hkey]
          exact hk0
        | e + 1 =>
          exact Nat.find_min hex (by omega) }
  have hlen1 : 1 ≤ h.len := by
    have hp : 0 < countNZ h.keys :=
      countNZ_pos h.keys i0 (by omega) (by rw [hkey]; exact hk0)
    have := hWF.lenEq
    omega
  have inv0 : DInv h n i0 key (Nat.find hex + 1)
      { h with len := h.len - 1, keys := h.keys.set i0 0 } 0 0 :=
    { maxEq := rfl
      nullEq := rfl
      klen := by
        show (h.keys.set i0 0).length = 2 ^ n
        rw [List.length_set]
        omega
      vlen := by
        show h.vals.length = 2 ^ n
        omega
      lenEq := by
        show h.len - 1 + 1 = h.len
        omega
      cnt := by
        show countNZ (h.keys.set i0 0) + 1 = countNZ h.keys
        exact countNZ_set_z h.keys i0 (by omega) (by rw [hkey]; exact hk0)
      pairsEq := by
        show pairs h.keys h.vals
          = (key, h.vals.getD i0 h.nullv) ::ₘ pairs (h.keys.set i0 0) h.vals
        have := pairs_clear_slot h.nullv h.keys h.vals i0 (by omega) (by omega)
          (by rw [hkey]; exact hk0)
        rw [hkey] at this
        exact this
      dis := keysDistinct_clear h.keys i0 hWF.dis
      hst := le_rfl
      htd := by omega
      holeZero := by
        show (h.keys.set i0 0).getD ((i0 + 0) % 2 ^ n) 0 = 0
        rw [Nat.add_zero, Nat.mod_eq_of_lt hi0c]
        exact getD_set_self _ _ _ _ (by omega)
      zeroChar := by
        intro s2 hs2 hz2
        show h.keys.getD s2 0 = 0 ∨ s2 = (i0 + 0) % 2 ^ n
        rw [Nat.add_zero, Nat.mod_eq_of_lt hi0c]
        by_cases h2i : s2 = i0
        · exact Or.inr h2i
        · rw [show (h.keys.set i0 0).getD s2 0 = h.keys.getD s2 0 from
            getD_set_ne _ _ _ _ _ (fun hh => h2i hh.symm)] at hz2
          exact Or.inl hz2
      agree := by
        intro d hd hdc
        have hne : (i0 + d) % 2 ^ n ≠ i0 := by
          intro heq
          have h0 : (i0 + d) % 2 ^ n = (i0 + 0) % 2 ^ n := by
            rw [heq, Nat.add_zero, Nat.mod_eq_of_lt hi0c]
          have := pos_inj (2 ^ n) i0 d 0 hc hdc (by omega) h0
          omega
        show (h.keys.set i0 0).getD ((i0 + d) % 2 ^ n) 0
          = h.keys.getD ((i0 + d) % 2 ^ n) 0
        exact getD_set_ne _ _ _ _ _ (fun hh => hne hh.symm)
      pathsH := by
        intro s2 hs2 hnz2 e he
        revert hnz2 he
        show (h.keys.set i0 0).getD s2 0 ≠ 0 →
          e < dist (2 ^ n) ((h.keys.set i0 0).getD s2 0) s2 →
          h.keys.getD (((h.keys.set i0 0).getD s2 0 + e) % 2 ^ n) 0 ≠ 0
        by_cases h2i : s2 = i0
        · rw [h2i, getD_set_self _ _ _ _ (by omega)]
          intro hnz2
          exact absurd rfl hnz2
        · rw [getD_set_ne _ _ _ _ _ (fun hh => h2i hh.symm)]
          intro hnz2 he
          have hch := hWF.chain s2 (by omega) hnz2 e (by
            rw [hpow]
            exact he)
          rw [hpow] at hch
          exact hch
      keptAvoid := by
        intro d hd1 hd2
        omega
      kAbsent := by
        intro s2 hs2
        show (h.keys.set i0 0).getD s2 0 ≠ key
        by_cases h2i : s2 = i0
        · rw [h2i, getD_set_self _ _ _ _ (by omega)]
          exact fun hh => hk0 hh.symm
        · rw [getD_set_ne _ _ _ _ _ (fun hh => h2i hh.symm)]
          intro heq
          have := hWF.dis s2 i0 (by omega) (by omega)
            (by rw [heq]; exact hk0) (heq.trans hkey.symm)
          exact h2i this }
  obtain ⟨σf, invf⟩ := delScan_DInv h n i0 key (Nat.find hex + 1) ctx
    (2 ^ n) 0 0 _ inv0 (by omega)
  rw [show (i0 + 0) % 2 ^ n = i0 from by
    rw [Nat.add_zero]; exact Nat.mod_eq_of_lt hi0c] at invf
  -- the deletion call
  have hfound : probeLoop h.keys h.maxlen key key (h.maxlen + 1)
      = ScanRes.found i0 := by
    rw [hmap__idx_lookup, if_neg hk0] at hl
    rcases hres : probeLoop h.keys h.maxlen key key (h.maxlen + 1) with j | j | _
    · rw [hres] at hl
      cases hl
      rfl
    · rw [hres] at hl
      cases hl
    · rw [hres] at hl
      cases hl
  have hdel : hmap__idx_del h key
      = some (i0, hmap__delScan
          { h with len := h.len - 1, keys := h.keys.set i0 0 } i0 (2 ^ n)) := by
    rw [hmap__idx_del, if_neg hk0, hfound, hpow]
  have hDEL : HMAP_DEL (some h) key
      = (true, some (hmap__delScan
          { h with len := h.len - 1, keys := h.keys.set i0 0 } i0 (2 ^ n))) := by
    rw [HMAP_DEL]
    show (match hmap__idx_del h key with
      | some (_, h1) => (true, some h1)
      | none => (false, some h)) = _
    rw [hdel]
  have hWFR : HmapWF (hmap__delScan
      { h with len := h.len - 1, keys := h.keys.set i0 0 } i0 (2 ^ n)) :=
    { pow := ⟨n, hn4, by rw [invf.maxEq]; exact hpow⟩
      klen := by
        rw [invf.maxEq, hpow]
        exact invf.klen
      vlen := by
        rw [invf.maxEq, hpow]
        exact invf.vlen
      dis := invf.dis
      lenEq := by
        have h1 := invf.lenEq
        have h2 := invf.cnt
        have h3 := hWF.lenEq
        omega
      room := by
        rw [invf.maxEq]
        have h1 := invf.lenEq
        have h2 := hWF.room
        omega
      chain := by
        rw [invf.maxEq, hpow]
        exact dinv_chain h n i0 key (Nat.find hex + 1) ctx _ σf invf }
  have hσfc : σf < 2 ^ n := by
    have h1 := invf.hst
    omega
  have habs : hmapObserve (hmap__delScan
      { h with len := h.len - 1, keys := h.keys.set i0 0 } i0 (2 ^ n)) key
      = none := by
    rw [hmapObserve, hmap__idx_lookup_absent _ n key
      (by rw [invf.maxEq]; exact hpow)
      (by rw [invf.maxEq, hpow]; exact invf.klen)
      ⟨(i0 + σf) % 2 ^ n, by rw [invf.maxEq, hpow]; exact Nat.mod_lt _ hc,
        invf.holeZero⟩
      (by
        intro t ht
        rw [invf.maxEq, hpow] at ht
        exact invf.kAbsent t ht)]
    rfl
  refine ⟨_, hDEL, hWFR, invf.maxEq, invf.nullEq, invf.lenEq, habs, ?_⟩
  intro k2 hk2
  exact observe_eq_of_pairs_cons h _ hWF hWFR key (h.vals.getD i0 h.nullv)
    invf.pairsEq k2 hk2 |>.symm

/-- `HMAP_DEL` of an absent key (as reported by the lookup) is a
no-op returning false. -/
theorem HMAP_DEL_absent_spec (h : Hmap V) (key : Nat)
    (hl : hmap__idx_lookup h key = none) :
    HMAP_DEL (some h) key = (false, some h) := by
  rw [HMAP_DEL]
  show (match hmap__idx_del h key with
    | some (_, h1) => (true, some h1)
    | none => (false, some h)) = (false, some h)
  by_cases hk0 : key = 0
  · rw [show hmap__idx_del h key = none from by
      rw [hmap__idx_del, if_pos hk0]]
  · rw [hmap__idx_lookup, if_neg hk0] at hl
    rcases hres : probeLoop h.keys h.maxlen key key (h.maxlen + 1) with j | j | _
    · rw [hres] at hl
      cases hl
    · rw [show hmap__idx_del h key = none from by
        rw [hmap__idx_del, if_neg hk0, hres]]
    · rw [show hmap__idx_del h key = none from by
        rw [hmap__idx_del, if_neg hk0, hres]]

/-! ### Reachable 32-bit states -/

theorem countSets_le_length : ∀ ops : List (Op V), countSets ops ≤ ops.length
  | [] => le_rfl
  | Op.set _ _ :: tl => by
    rw [countSets, List.length_cons]
    have := countSets_le_length tl
    omega
  | Op.del _ :: tl => by
    rw [countSets, List.length_cons]
    have := countSets_le_length tl
    omega

/-- State invariant along a run of `s` completed `set` calls: the
handle is well formed, holds at most `s` keys, and its capacity is at
most `max 16 (4 * s)` (growth only ever fires on an at-least-half-full
table). -/
def ReachState (b : Option (Hmap V)) (s : Nat) : Prop :=
  ∀ h0, b = some h0 → HmapWF h0 ∧ h0.len ≤ s ∧ h0.maxlen + 1 ≤ max 16 (4 * s)

theorem runOps_state : ∀ (ops : List (Op V)) (b : Option (Hmap V)) (s : Nat),
    ReachState b s → s + countSets ops ≤ 2 ^ 58 →
    ReachState (runOps b ops) (s + countSets ops) := by
  intro ops
  induction ops with
  | nil =>
    intro b s hb hle
    rw [show s + countSets ([] : List (Op V)) = s from by rw [countSets]; omega]
    exact hb
  | cons op tl ih =>
    intro b s hb hle
    have hsz : HMAP_CAP b ≤ 2 ^ 62 := by
      match b with
      | none =>
        show (0:Nat) ≤ 2 ^ 62
        omega
      | some h0 =>
        obtain ⟨hWF0, hlen0, hcap0⟩ := hb h0 rfl
        show h0.maxlen + 1 ≤ 2 ^ 62
        have hc1 : countSets (op :: tl) ≥ countSets tl := by
          match op with
          | Op.set _ _ =>
            rw [countSets]
            omega
          | Op.del _ =>
            rw [countSets]
        have hs58 : s ≤ 2 ^ 58 := by
          have hc0 : 0 ≤ countSets (op :: tl) := Nat.zero_le _
          omega
        have h60 : 4 * 2 ^ 58 = 2 ^ 60 := by norm_num
        have h62 : (2:Nat) ^ 60 ≤ 2 ^ 62 := by norm_num
        omega
    match op with
    | Op.set k v =>
      have hWFB : HmapWFB b := fun h0 hh => (hb h0 hh).1
      have hnext : ReachState (HMAP_SET b k v true true) (s + 1) := by
        have hlenb : HMAP_LEN b ≤ s := by
          match b with
          | none =>
            exact Nat.zero_le _
          | some h0 =>
            exact (hb h0 rfl).2.1
        have hcapb : HMAP_CAP b ≤ max 16 (4 * s) := by
          match b with
          | none =>
            exact Nat.zero_le _
          | some h0 =>
            exact (hb h0 rfl).2.2
        by_cases hk0 : k = 0
        · subst hk0
          obtain ⟨h1, hfit, hset, hWF2, hlen1, hobs, hc1, hc2, hc3⟩ :=
            HMAP_SET_zero_spec b v hWFB hsz
          intro h0 hh
          rw [hset] at hh
          cases hh
          refine ⟨hWF2, ?_, ?_⟩
          · show h1.len ≤ s + 1
            omega
          · show h1.maxlen + 1 ≤ max 16 (4 * (s + 1))
            omega
        · obtain ⟨h2, hset, hWF2, hobs, hobs2, hnull, hlen, hc1, hc2, hc3⟩ :=
            HMAP_SET_spec b k v hWFB hsz hk0
          intro h0 hh
          rw [hset] at hh
          cases hh
          refine ⟨hWF2, ?_, ?_⟩
          · omega
          · omega
      have hres := ih (HMAP_SET b k v true true) (s + 1) hnext
        (by
          rw [countSets] at hle
          omega)
      rw [show s + countSets (Op.set k v :: tl) = s + 1 + countSets tl from by
        rw [countSets]; omega]
      exact hres
    | Op.del k =>
      have hnext : ReachState ((HMAP_DEL b k).2) s := by
        match b with
        | none =>
          intro h0 hh
          cases hh
        | some h0 =>
          obtain ⟨hWF0, hlen0, hcap0⟩ := hb h0 rfl
          cases hl : hmap__idx_lookup h0 k with
          | none =>
            rw [HMAP_DEL_absent_spec h0 k hl]
            intro h1 hh
            cases hh
            exact ⟨hWF0, hlen0, hcap0⟩
          | some j =>
            obtain ⟨R, hDEL, hWFR, hmax, hnull, hlen, _, _⟩ :=
              HMAP_DEL_present_spec h0 k j hWF0 hl
            rw [hDEL]
            intro h1 hh
            cases hh
            refine ⟨hWFR, by omega, by omega⟩
      rw [show s + countSets (Op.del k :: tl) = s + countSets tl from by
        rw [countSets]]
      exact ih ((HMAP_DEL b k).2) s hnext
        (by
          rw [countSets] at hle
          exact hle)

/-- Every reachable 32-bit handle is well formed with a modest
capacity. -/
theorem Reachable_WF (b : Option (Hmap V)) (hr : Reachable b) :
    ∀ h0, b = some h0 →
      HmapWF h0 ∧ h0.len ≤ 2 ^ 58 ∧ h0.maxlen + 1 ≤ 2 ^ 60 := by
  obtain ⟨ops, hlen, hrun⟩ := hr
  have hcs : countSets ops ≤ 2 ^ 58 :=
    le_trans (countSets_le_length ops) hlen
  have hstate := runOps_state ops none 0 (fun h0 hh => by cases hh)
    (by omega)
  rw [hrun] at hstate
  intro h0 hh
  obtain ⟨hWF0, hlen0, hcap0⟩ := hstate h0 hh
  refine ⟨hWF0, by omega, ?_⟩
  have h60 : 4 * 2 ^ 58 = 2 ^ 60 := by norm_num
  have h16 : (16:Nat) ≤ 2 ^ 60 := by norm_num
  omega

/-! ### Weak invariant of the 64-bit map

Because the 64-bit deletion does not repair probe chains, a reachable
64-bit table can hold duplicate keys.  The weak invariant below (sound
lengths, occupancy accounting and load factor, but no chain or
distinctness facts) still holds along every operation sequence. -/

/-- Occupancy and length bookkeeping of the rehash loop, with no
distinctness assumptions: every non-zero pair is placed into some empty
slot. -/
theorem rehash_fold_core (n : Nat) :
    ∀ (l : List (Nat × V)) (acc : List Nat × List V),
    acc.1.length = 2 ^ n → acc.2.length = 2 ^ n →
    countNZ acc.1 + countNZP l < 2 ^ n →
    (l.foldl (rehashStep (2 ^ n - 1)) acc).1.length = 2 ^ n ∧
    (l.foldl (rehashStep (2 ^ n - 1)) acc).2.length = 2 ^ n ∧
    countNZ (l.foldl (rehashStep (2 ^ n - 1)) acc).1
      = countNZ acc.1 + countNZP l := by
  intro l
  induction l with
  | nil =>
    intro acc h1 h2 _
    refine ⟨h1, h2, ?_⟩
    simp [countNZP, List.foldl_nil]
  | cons kv tl ih =>
    intro acc h1 h2 hcnt
    rw [List.foldl_cons]
    by_cases hk : kv.1 = 0
    · have hstep : rehashStep (2 ^ n - 1) acc kv = acc := by
        simp [rehashStep, hk]
      rw [hstep]
      have hcnt2 : countNZ acc.1 + countNZP tl < 2 ^ n := by
        rw [countNZP_cons] at hcnt
        omega
      have hout := ih acc h1 h2 hcnt2
      refine ⟨hout.1, hout.2.1, ?_⟩
      rw [hout.2.2, countNZP_cons, if_neg (by simp [hk])]
      omega
    · have hc : 0 < 2 ^ n := Nat.pos_pow_of_pos n (by omega)
      have hcnt1 : countNZ acc.1 < 2 ^ n := by
        rw [countNZP_cons, if_pos hk] at hcnt
        omega
      obtain ⟨z, hzl, hz0⟩ := exists_zero_slot acc.1 (by rw [h1]; exact hcnt1)
      rw [h1] at hzl
      obtain ⟨d, hd, hmin, hhit, hres⟩ := probeLoop_result acc.1 0 n kv.1
        ⟨z, hzl, Or.inr hz0⟩
      have hslot0 : acc.1.getD ((kv.1 + d) % 2 ^ n) 0 = 0 := by
        rcases hhit with h | h
        · exact h
        · exact h
      have hfuel : (2 ^ n - 1) + 1 = 2 ^ n := by omega
      have hel : emptyLoop acc.1 (2 ^ n - 1) kv.1 ((2 ^ n - 1) + 1)
          = some ((kv.1 + d) % 2 ^ n) := by
        rw [hfuel, emptyLoop_eq_probeLoop, hres, if_pos hslot0]
      have hstep : rehashStep (2 ^ n - 1) acc kv
          = (acc.1.set ((kv.1 + d) % 2 ^ n) kv.1,
             acc.2.set ((kv.1 + d) % 2 ^ n) kv.2) := by
        rw [rehashStep, if_neg hk, hel]
      rw [hstep]
      have hjc : (kv.1 + d) % 2 ^ n < 2 ^ n := Nat.mod_lt _ hc
      have hcnt3 : countNZ (acc.1.set ((kv.1 + d) % 2 ^ n) kv.1)
          = countNZ acc.1 + 1 :=
        countNZ_set_nz acc.1 _ kv.1 (by omega) hslot0 hk
      have hcnt4 : countNZ (acc.1.set ((kv.1 + d) % 2 ^ n) kv.1) + countNZP tl
          < 2 ^ n := by
        rw [hcnt3]
        rw [countNZP_cons, if_pos hk] at hcnt
        omega
      have hout := ih (acc.1.set ((kv.1 + d) % 2 ^ n) kv.1,
          acc.2.set ((kv.1 + d) % 2 ^ n) kv.2)
        (by simp [h1]) (by simp [h2]) hcnt4
      refine ⟨hout.1, hout.2.1, ?_⟩
      rw [hout.2.2]
      simp only []
      rw [hcnt3, countNZP_cons, if_pos hk]
      omega

/-- Weak well-formedness of an allocated 64-bit map: correct geometry,
an honest length, and the load-factor bound — but possibly broken
chains and duplicate keys (after deletions). -/
structure Hmap64Weak (h : Hmap64 V) : Prop where
  pow : ∃ n, 4 ≤ n ∧ h.cap = 2 ^ n
  klen : h.keys.length = h.cap
  vlen : h.vals.length = h.cap
  lenEq : h.len = countNZ h.keys
  room : h.len * 2 ≤ h.cap

theorem hmap64Weak_of_WF (h : Hmap64 V) (hWF : Hmap64WF h) : Hmap64Weak h :=
  { pow := hWF.pow
    klen := hWF.klen
    vlen := hWF.vlen
    lenEq := hWF.lenEq
    room := hWF.room }

/-- Doubling growth of a weakly well-formed 64-bit map (reserve 0, as
triggered by `HMAP64__FIT1`). -/
theorem hmap64__grow_weak_spec (h : Hmap64 V) (n : Nat)
    (hpow : h.cap = 2 ^ n) (hn : 1 ≤ n) (hsz : n ≤ 62)
    (hklen : h.keys.length = h.cap) (hvlen : h.vals.length = h.cap) :
    ∃ h2, hmap64__grow (some h) 0 true true = some h2 ∧
      h2.cap = 2 * h.cap ∧ h2.cap = 2 ^ (n + 1) ∧
      h2.len = h.len ∧ h2.nullv = h.nullv ∧
      h2.keys.length = h2.cap ∧ h2.vals.length = h2.cap ∧
      countNZ h2.keys = countNZ h.keys := by
  have hpos : 0 < 2 ^ n := Nat.pos_pow_of_pos n (by omega)
  have hlt : 2 ^ (n + 1) < W := by
    unfold W
    exact Nat.pow_lt_pow_right (by omega) (by omega)
  have hstart : (h.cap * 2) % W = 2 ^ (n + 1) := by
    have h2 : h.cap * 2 = 2 ^ (n + 1) := by
      rw [hpow, Nat.pow_succ]
    rw [h2, Nat.mod_eq_of_lt hlt]
  have hok : hmap64CapLoop 0 ((h.cap * 2) % W) 200
      = CapRes.ok (2 ^ (n + 1)) := by
    rw [hstart]
    exact hmap64CapLoop_zero_reserve _ 199
  have hgrow : hmap64__grow (some h) 0 true true
      = some { len := h.len, cap := 2 ^ (n + 1),
               keys := (hmapRehash h.keys h.vals (2 ^ (n + 1) - 1)
                 (List.replicate (2 ^ (n + 1)) 0,
                  List.replicate (2 ^ (n + 1)) default)).1,
               vals := (hmapRehash h.keys h.vals (2 ^ (n + 1) - 1)
                 (List.replicate (2 ^ (n + 1)) 0,
                  List.replicate (2 ^ (n + 1)) default)).2,
               nullv := h.nullv } := by
    rw [hmap64__grow, hok]
    rfl
  have hcnt : countNZ h.keys < 2 ^ (n + 1) := by
    have h1 : countNZ h.keys ≤ h.keys.length := List.countP_le_length _
    have h2 : (2:Nat) ^ n < 2 ^ (n + 1) := Nat.pow_lt_pow_right (by omega) (by omega)
    omega
  have hfold := rehash_fold_core (V := V) (n + 1) (h.keys.zip h.vals)
    (List.replicate (2 ^ (n + 1)) 0, List.replicate (2 ^ (n + 1)) default)
    (by simp only [List.length_replicate])
    (by simp only [List.length_replicate])
    (by
      show countNZ (List.replicate (2 ^ (n + 1)) 0)
        + countNZP (h.keys.zip h.vals) < 2 ^ (n + 1)
      rw [countNZ_replicate, countNZP_zip _ _ (hklen.trans hvlen.symm)]
      omega)
  have hbr : hmapRehash h.keys h.vals (2 ^ (n + 1) - 1)
        (List.replicate (2 ^ (n + 1)) 0, List.replicate (2 ^ (n + 1)) default)
      = (h.keys.zip h.vals).foldl (rehashStep (2 ^ (n + 1) - 1))
        (List.replicate (2 ^ (n + 1)) 0,
         List.replicate (2 ^ (n + 1)) default) := by
    rw [hmapRehash]
  obtain ⟨hl1, hl2, hcn⟩ := hfold
  rw [← hbr] at hl1 hl2 hcn
  refine ⟨_, hgrow, ?_, rfl, rfl, rfl, ?_, ?_, ?_⟩
  · show (2:Nat) ^ (n + 1) = 2 * h.cap
    rw [hpow, Nat.pow_succ]
    omega
  · show (hmapRehash h.keys h.vals (2 ^ (n + 1) - 1) _).1.length = 2 ^ (n + 1)
    exact hl1
  · show (hmapRehash h.keys h.vals (2 ^ (n + 1) - 1) _).2.length = 2 ^ (n + 1)
    exact hl2
  · show countNZ (hmapRehash h.keys h.vals (2 ^ (n + 1) - 1) _).1
      = countNZ h.keys
    rw [hcn, countNZ_replicate, countNZP_zip _ _ (hklen.trans hvlen.symm)]
    omega

/-- Handle-level weak well-formedness. -/
def Hmap64WeakB (b : Option (Hmap64 V)) : Prop :=
  ∀ h0, b = some h0 → Hmap64Weak h0

/-- `HMAP64__FIT1` under the weak invariant. -/
theorem HMAP64__FIT1_weakB_spec (b : Option (Hmap64 V)) (hW : Hmap64WeakB b)
    (hsz : HMAP64_CAP b ≤ 2 ^ 62) :
    ∃ h1, HMAP64__FIT1 b true true = some h1 ∧ Hmap64Weak h1 ∧
      h1.len * 2 < h1.cap ∧ h1.len = HMAP64_LEN b ∧
      HMAP64_CAP b ≤ h1.cap ∧
      h1.cap ≤ max 16 (max (HMAP64_CAP b) (4 * HMAP64_LEN b)) := by
  match b with
  | none =>
    refine ⟨hmap64Fresh, ?_, hmap64Weak_of_WF _ hmap64Fresh_WF,
      by norm_num [hmap64Fresh], rfl, ?_, ?_⟩
    · rw [HMAP64__FIT1]
      exact hmap64__grow_none_fresh
    · show HMAP64_CAP (none : Option (Hmap64 V)) ≤ hmap64Fresh.cap
      norm_num [HMAP64_CAP, hmap64Fresh]
    · show hmap64Fresh.cap
        ≤ max 16 (max (HMAP64_CAP (none : Option (Hmap64 V)))
            (4 * HMAP64_LEN (none : Option (Hmap64 V))))
      norm_num [HMAP64_CAP, HMAP64_LEN, hmap64Fresh]
  | some h =>
    have hWh : Hmap64Weak h := hW h rfl
    obtain ⟨n, hn4, hpow⟩ := hWh.pow
    have hcap : HMAP64_CAP (some h) = h.cap := rfl
    by_cases hfit : h.len * 2 < h.cap
    · refine ⟨h, ?_, hWh, hfit, rfl, le_rfl, ?_⟩
      · rw [HMAP64__FIT1, if_pos hfit]
      · show h.cap ≤ max 16 (max h.cap (4 * h.len))
        omega
    · have hpos : 0 < 2 ^ n := Nat.pos_pow_of_pos n (by omega)
      have hnsz : n ≤ 62 := by
        by_contra hgt
        have h1 : (2:Nat) ^ 62 < 2 ^ n := Nat.pow_lt_pow_right (by omega) (by omega)
        have h2 : (0:Nat) < 2 ^ 62 := Nat.pos_pow_of_pos _ (by omega)
        have h3 : h.cap ≤ 2 ^ 62 := hsz
        omega
      obtain ⟨h2, hgrow, hc2, hc2p, hlen2, hnull2, hklen2, hvlen2, hcnt2⟩ :=
        hmap64__grow_weak_spec h n hpow (by omega) hnsz hWh.klen hWh.vlen
      have hroom := hWh.room
      have hlenEq := hWh.lenEq
      refine ⟨h2, ?_, ?_, ?_, hlen2, by omega, ?_⟩
      · rw [HMAP64__FIT1, if_neg hfit]
        exact hgrow
      · exact
          { pow := ⟨n + 1, by omega, hc2p⟩
            klen := hklen2
            vlen := hvlen2
            lenEq := by rw [hlen2, hcnt2]; exact hlenEq
            room := by omega }
      · have hcpos : 0 < h.cap := by omega
        omega
      · show h2.cap ≤ max 16 (max h.cap (4 * h.len))
        have h4 : h2.cap ≤ 4 * h.len := by omega
        omega

/-- `hmap64__idx_add` on a table with a free slot, weak version: either
the probe finds the key (no mutation) or claims an empty slot. -/
theorem hmap64__idx_add_weak (h : Hmap64 V) (n key : Nat)
    (hpow : h.cap = 2 ^ n) (hklen : h.keys.length = h.cap) (hk0 : key ≠ 0)
    (hz : countNZ h.keys < h.cap) :
    ∃ j h1, hmap64__idx_add h key = some (j, h1) ∧ j < h.cap ∧
      (h1 = h ∨
       (h.keys.getD j 0 = 0 ∧
        h1 = { h with len := h.len + 1, keys := h.keys.set j key } ∧
        countNZ (h.keys.set j key) = countNZ h.keys + 1)) := by
  have hc : 0 < 2 ^ n := Nat.pos_pow_of_pos n (by omega)
  obtain ⟨z, hzl, hz0⟩ := exists_zero_slot h.keys (by omega)
  have hzc : z < 2 ^ n := by omega
  obtain ⟨d, hd, hmin, hhit, hres⟩ := probeLoop_result h.keys key n key
    ⟨z, hzc, Or.inr hz0⟩
  have hjc : (key + d) % 2 ^ n < 2 ^ n := Nat.mod_lt _ hc
  by_cases hcase : h.keys.getD ((key + d) % 2 ^ n) 0 = key
  · rw [if_pos hcase] at hres
    refine ⟨(key + d) % 2 ^ n, h, ?_, by omega, Or.inl rfl⟩
    rw [hmap64__idx_add, if_neg hk0, hpow, hres]
  · rw [if_neg hcase] at hres
    have hz2 : h.keys.getD ((key + d) % 2 ^ n) 0 = 0 := hhit.resolve_left hcase
    refine ⟨(key + d) % 2 ^ n, _, ?_, by omega,
      Or.inr ⟨hz2, rfl, countNZ_set_nz h.keys _ key (by omega) hz2 hk0⟩⟩
    rw [hmap64__idx_add, if_neg hk0, hpow, hres]

/-- `HMAP64_SET` under the weak invariant: the handle stays weakly well
formed, the length grows by at most one, and the capacity is bounded by
the growth discipline. -/
theorem HMAP64_SET_weakB_spec (b : Option (Hmap64 V)) (key : Nat) (v : V)
    (hW : Hmap64WeakB b) (hsz : HMAP64_CAP b ≤ 2 ^ 62) :
    ∃ h2, HMAP64_SET b key v true true = some h2 ∧ Hmap64Weak h2 ∧
      h2.len ≤ HMAP64_LEN b + 1 ∧
      h2.cap ≤ max 16 (max (HMAP64_CAP b) (4 * HMAP64_LEN b)) := by
  obtain ⟨h1, hfit, hW1, hroom1, hlen1, hcap1, hcap2⟩ :=
    HMAP64__FIT1_weakB_spec b hW hsz
  obtain ⟨n, hn4, hpow⟩ := hW1.pow
  by_cases hk0 : key = 0
  · have hset : HMAP64_SET b key v true true = some { h1 with nullv := v } := by
      rw [HMAP64_SET, hfit]
      show (match hmap64__idx_add h1 key with
        | some (i, h2) => some { h2 with vals := h2.vals.set i v }
        | none => if key = 0 then some { h1 with nullv := v } else some h1)
        = some { h1 with nullv := v }
      rw [show hmap64__idx_add h1 key = none from by
        rw [hmap64__idx_add, if_pos hk0], if_pos hk0]
    refine ⟨_, hset, ?_, by
      show h1.len ≤ HMAP64_LEN b + 1
      omega, by
      show h1.cap ≤ max 16 (max (HMAP64_CAP b) (4 * HMAP64_LEN b))
      omega⟩
    exact
      { pow := ⟨n, hn4, hpow⟩
        klen := hW1.klen
        vlen := hW1.vlen
        lenEq := hW1.lenEq
        room := hW1.room }
  · have hzc : countNZ h1.keys < h1.cap := by
      have := hW1.lenEq
      omega
    obtain ⟨j, h1', hadd, hj, hcases⟩ :=
      hmap64__idx_add_weak h1 n key hpow hW1.klen hk0 hzc
    have hset : HMAP64_SET b key v true true
        = some { h1' with vals := h1'.vals.set j v } := by
      rw [HMAP64_SET, hfit]
      show (match hmap64__idx_add h1 key with
        | some (i, h2) => some { h2 with vals := h2.vals.set i v }
        | none => if key = 0 then some { h1 with nullv := v } else some h1)
        = some { h1' with vals := h1'.vals.set j v }
      rw [hadd]
    rcases hcases with heq | ⟨hjz, heq, hcnt⟩
    · rw [heq] at hset
      refine ⟨_, hset, ?_, by
        show h1.len ≤ HMAP64_LEN b + 1
        omega, by
        show h1.cap ≤ max 16 (max (HMAP64_CAP b) (4 * HMAP64_LEN b))
        omega⟩
      exact
        { pow := ⟨n, hn4, hpow⟩
          klen := hW1.klen
          vlen := by
            show (h1.vals.set j v).length = h1.cap
            rw [List.length_set]
            exact hW1.vlen
          lenEq := hW1.lenEq
          room := hW1.room }
    · subst heq
      have heven : 2 * 2 ^ (n - 1) = 2 ^ n := by
        rw [← Nat.pow_succ']
        congr 1
        omega
      refine ⟨_, hset, ?_, by
        show h1.len + 1 ≤ HMAP64_LEN b + 1
        omega, by
        show h1.cap ≤ max 16 (max (HMAP64_CAP b) (4 * HMAP64_LEN b))
        omega⟩
      exact
        { pow := ⟨n, hn4, hpow⟩
          klen := by
            show (h1.keys.set j key).length = h1.cap
            rw [List.length_set]
            exact hW1.klen
          vlen := by
            show (h1.vals.set j v).length = h1.cap
            rw [List.length_set]
            exact hW1.vlen
          lenEq := by
            show h1.len + 1 = countNZ (h1.keys.set j key)
            rw [hcnt]
            have := hW1.lenEq
            omega
          room := by
            show (h1.len + 1) * 2 ≤ h1.cap
            have h1p := hpow
            omega }

/-- `HMAP64_DEL` under the weak invariant: at most the matched slot is
cleared and the length decremented. -/
theorem HMAP64_DEL_weak_spec (h : Hmap64 V) (key : Nat) (hW : Hmap64Weak h) :
    ∃ h1, (HMAP64_DEL (some h) key).2 = some h1 ∧ Hmap64Weak h1 ∧
      h1.len ≤ h.len ∧ h1.cap = h.cap := by
  rw [HMAP64_DEL]
  by_cases hk0 : key = 0
  · rw [show hmap64__idx_del h key = none from by
      rw [hmap64__idx_del, if_pos hk0]]
    exact ⟨h, rfl, hW, le_rfl, rfl⟩
  · rcases hres : probeLoop h.keys (h.cap - 1) key key h.cap with j | j | _
    · have hkj : h.keys.getD j 0 = key :=
        probeLoop_found_key h.keys (h.cap - 1) key h.cap key j hres
      have hjle : j ≤ h.cap - 1 :=
        probeLoop_le h.keys (h.cap - 1) key h.cap key j (Or.inl hres)
      obtain ⟨n, hn4, hpow⟩ := hW.pow
      have hc : 0 < 2 ^ n := Nat.pos_pow_of_pos n (by omega)
      have hjc : j < h.cap := by omega
      have hdel : hmap64__idx_del h key
          = some (j, { h with len := h.len - 1, keys := h.keys.set j 0 }) := by
        rw [hmap64__idx_del, if_neg hk0, hres]
      rw [hdel]
      have hcnt : countNZ (h.keys.set j 0) + 1 = countNZ h.keys :=
        countNZ_set_z h.keys j (by
          rw [hW.klen]
          omega) (by rw [hkj]; exact hk0)
      have hpos : 0 < countNZ h.keys :=
        countNZ_pos h.keys j (by rw [hW.klen]; omega) (by rw [hkj]; exact hk0)
      have hlenEq := hW.lenEq
      refine ⟨_, rfl, ?_, by
        show h.len - 1 ≤ h.len
        omega, rfl⟩
      exact
        { pow := ⟨n, hn4, hpow⟩
          klen := by
            show (h.keys.set j 0).length = h.cap
            rw [List.length_set]
            exact hW.klen
          vlen := hW.vlen
          lenEq := by
            show h.len - 1 = countNZ (h.keys.set j 0)
            omega
          room := by
            show (h.len - 1) * 2 ≤ h.cap
            have := hW.room
            omega }
    · rw [show hmap64__idx_del h key = none from by
        rw [hmap64__idx_del, if_neg hk0, hres]]
      exact ⟨h, rfl, hW, le_rfl, rfl⟩
    · rw [show hmap64__idx_del h key = none from by
        rw [hmap64__idx_del, if_neg hk0, hres]]
      exact ⟨h, rfl, hW, le_rfl, rfl⟩

/-- State invariant of the 64-bit map along a run of `s` completed
`set` calls. -/
def ReachState64 (b : Option (Hmap64 V)) (s : Nat) : Prop :=
  ∀ h0, b = some h0 → Hmap64Weak h0 ∧ h0.len ≤ s ∧ h0.cap ≤ max 16 (4 * s)

theorem runOps64_state : ∀ (ops : List (Op V)) (b : Option (Hmap64 V)) (s : Nat),
    ReachState64 b s → s + countSets ops ≤ 2 ^ 58 →
    ReachState64 (runOps64 b ops) (s + countSets ops) := by
  intro ops
  induction ops with
  | nil =>
    intro b s hb hle
    rw [show s + countSets ([] : List (Op V)) = s from by rw [countSets]; omega]
    exact hb
  | cons op tl ih =>
    intro b s hb hle
    have hsz : HMAP64_CAP b ≤ 2 ^ 62 := by
      match b with
      | none =>
        show (0:Nat) ≤ 2 ^ 62
        omega
      | some h0 =>
        obtain ⟨hW0, hlen0, hcap0⟩ := hb h0 rfl
        show h0.cap ≤ 2 ^ 62
        have hc1 : countSets (op :: tl) ≥ countSets tl := by
          match op with
          | Op.set _ _ =>
            rw [countSets]
            omega
          | Op.del _ =>
            rw [countSets]
        have hs58 : s ≤ 2 ^ 58 := by omega
        have h60 : 4 * 2 ^ 58 = 2 ^ 60 := by norm_num
        have h62 : (2:Nat) ^ 60 ≤ 2 ^ 62 := by norm_num
        omega
    match op with
    | Op.set k v =>
      have hWB : Hmap64WeakB b := fun h0 hh => (hb h0 hh).1
      have hnext : ReachState64 (HMAP64_SET b k v true true) (s + 1) := by
        have hlenb : HMAP64_LEN b ≤ s := by
          match b with
          | none => exact Nat.zero_le _
          | some h0 => exact (hb h0 rfl).2.1
        have hcapb : HMAP64_CAP b ≤ max 16 (4 * s) := by
          match b with
          | none => exact Nat.zero_le _
          | some h0 => exact (hb h0 rfl).2.2
        obtain ⟨h2, hset, hW2, hlen2, hcap2⟩ :=
          HMAP64_SET_weakB_spec b k v hWB hsz
        intro h0 hh
        rw [hset] at hh
        cases hh
        refine ⟨hW2, by omega, by omega⟩
      have hres := ih (HMAP64_SET b k v true true) (s + 1) hnext
        (by
          rw [countSets] at hle
          omega)
      rw [show s + countSets (Op.set k v :: tl) = s + 1 + countSets tl from by
        rw [countSets]; omega]
      exact hres
    | Op.del k =>
      have hnext : ReachState64 ((HMAP64_DEL b k).2) s := by
        match b with
        | none =>
          intro h0 hh
          cases hh
        | some h0 =>
          obtain ⟨hW0, hlen0, hcap0⟩ := hb h0 rfl
          obtain ⟨h1, hdel, hW1, hlen1, hcap1⟩ :=
            HMAP64_DEL_weak_spec h0 k hW0
          rw [hdel]
          intro h2 hh
          cases hh
          exact ⟨hW1, by omega, by omega⟩
      rw [show s + countSets (Op.del k :: tl) = s + countSets tl from by
        rw [countSets]]
      exact ih ((HMAP64_DEL b k).2) s hnext
        (by
          rw [countSets] at hle
          exact hle)

/-- Every reachable 64-bit handle satisfies the weak invariant. -/
theorem Reachable64_weak (b : Option (Hmap64 V)) (hr : Reachable64 b) :
    ∀ h0, b = some h0 →
      Hmap64Weak h0 ∧ h0.len ≤ 2 ^ 58 ∧ h0.cap ≤ 2 ^ 60 := by
  obtain ⟨ops, hlen, hrun⟩ := hr
  have hcs : countSets ops ≤ 2 ^ 58 :=
    le_trans (countSets_le_length ops) hlen
  have hstate := runOps64_state ops none 0 (fun h0 hh => by cases hh)
    (by omega)
  rw [hrun] at hstate
  intro h0 hh
  obtain ⟨hW0, hlen0, hcap0⟩ := hstate h0 hh
  refine ⟨hW0, by omega, ?_⟩
  have h60 : 4 * 2 ^ 58 = 2 ^ 60 := by norm_num
  have h16 : (16:Nat) ≤ 2 ^ 60 := by norm_num
  omega

/-! ### Null-value preservation and key-0 writes -/

/-- `hmap__grow` on an allocated handle always yields an allocated
handle with the same reserved null value (failure paths return the old
handle; success copies `b[-1]`). -/
theorem hmap__grow_some_nullv (h : Hmap V) (res : Nat) (mOk cOk : Bool) :
    ∃ h2, hmap__grow (some h) res mOk cOk = some h2 ∧ h2.nullv = h.nullv := by
  rw [hmap__grow]
  cases hcap : hmapCapLoop res ((h.maxlen * 2 + 1) % W) 200 with
  | overflow => exact ⟨h, rfl, rfl⟩
  | diverge => exact ⟨h, rfl, rfl⟩
  | ok nm =>
    cases mOk with
    | false => exact ⟨h, rfl, rfl⟩
    | true =>
      cases cOk with
      | false => exact ⟨h, rfl, rfl⟩
      | true => exact ⟨_, rfl, rfl⟩

theorem hmap64__grow_some_nullv (h : Hmap64 V) (res : Nat) (mOk cOk : Bool) :
    ∃ h2, hmap64__grow (some h) res mOk cOk = some h2 ∧ h2.nullv = h.nullv := by
  rw [hmap64__grow]
  cases hcap : hmap64CapLoop res ((h.cap * 2) % W) 200 with
  | overflow => exact ⟨h, rfl, rfl⟩
  | diverge => exact ⟨h, rfl, rfl⟩
  | ok nc =>
    cases mOk with
    | false => exact ⟨h, rfl, rfl⟩
    | true =>
      cases cOk with
      | false => exact ⟨h, rfl, rfl⟩
      | true => exact ⟨_, rfl, rfl⟩

theorem HMAP__FIT1_some_nullv (h : Hmap V) (mOk cOk : Bool) :
    ∃ h1, HMAP__FIT1 (some h) mOk cOk = some h1 ∧ h1.nullv = h.nullv := by
  rw [HMAP__FIT1]
  by_cases hfit : h.len * 2 ≤ h.maxlen
  · rw [if_pos hfit]
    exact ⟨h, rfl, rfl⟩
  · rw [if_neg hfit]
    exact hmap__grow_some_nullv h 0 mOk cOk

theorem HMAP64__FIT1_some_nullv (h : Hmap64 V) (mOk cOk : Bool) :
    ∃ h1, HMAP64__FIT1 (some h) mOk cOk = some h1 ∧ h1.nullv = h.nullv := by
  rw [HMAP64__FIT1]
  by_cases hfit : h.len * 2 < h.cap
  · rw [if_pos hfit]
    exact ⟨h, rfl, rfl⟩
  · rw [if_neg hfit]
    exact hmap64__grow_some_nullv h 0 mOk cOk

/-- `HMAP_GET` with key 0 on an allocated handle reads the stored null
value, whatever the allocation oracle does. -/
theorem HMAP_GET_zero (h : Hmap V) (mOk cOk : Bool) :
    (HMAP_GET (some h) 0 mOk cOk).1 = h.nullv := by
  obtain ⟨h1, hfit, hnull⟩ := HMAP__FIT1_some_nullv h mOk cOk
  rw [HMAP_GET, hfit]
  show (match hmap__idx_lookup h1 0 with
    | some i => (h1.vals.getD i h1.nullv, some h1)
    | none => (h1.nullv, some h1)).1 = h.nullv
  rw [show hmap__idx_lookup h1 0 = none from by
    rw [hmap__idx_lookup, if_pos rfl]]
  exact hnull

theorem HMAP64_GET_zero (h : Hmap64 V) (mOk cOk : Bool) :
    (HMAP64_GET (some h) 0 mOk cOk).1 = h.nullv := by
  obtain ⟨h1, hfit, hnull⟩ := HMAP64__FIT1_some_nullv h mOk cOk
  rw [HMAP64_GET, hfit]
  show (match hmap64__idx_lookup h1 0 with
    | some i => (h1.vals.getD i h1.nullv, some h1)
    | none => (h1.nullv, some h1)).1 = h.nullv
  rw [show hmap64__idx_lookup h1 0 = none from by
    rw [hmap64__idx_lookup, if_pos rfl]]
  exact hnull

/-- Overwriting the 64-bit null value does not change observations. -/
theorem observe_set_nullv64 (h : Hmap64 V) (v : V)
    (hvlen : h.vals.length = h.cap) (k : Nat) :
    hmap64Observe { h with nullv := v } k = hmap64Observe h k := by
  rw [hmap64Observe, hmap64Observe]
  have hlk : hmap64__idx_lookup { h with nullv := v } k
      = hmap64__idx_lookup h k := rfl
  rw [hlk]
  cases hl : hmap64__idx_lookup h k with
  | none => rfl
  | some j =>
    simp only [Option.map_some']
    have hj := hmap64__idx_lookup_le h k j hl
    have hcap : 0 < h.cap := by
      by_contra hz
      have hc0 : h.cap = 0 := by omega
      rw [hmap64__idx_lookup] at hl
      by_cases hk0 : k = 0
      · rw [if_pos hk0] at hl
        cases hl
      · rw [if_neg hk0, hc0] at hl
        cases hl
    show some (h.vals.getD j v) = some (h.vals.getD j h.nullv)
    rw [getD_eq_get _ _ _ (by omega), getD_eq_get _ _ _ (by omega)]

/-- `HMAP64_SET` with key 0 and no triggered growth: exactly the
reserved null-value slot is overwritten. -/
theorem HMAP64_SET_zero_nogrow (h : Hmap64 V) (v : V)
    (hfit : h.len * 2 < h.cap) :
    HMAP64_SET (some h) 0 v true true = some { h with nullv := v } := by
  rw [HMAP64_SET, HMAP64__FIT1, if_pos hfit]
  show (match hmap64__idx_add h 0 with
    | some (i, h2) => some { h2 with vals := h2.vals.set i v }
    | none => if (0:Nat) = 0 then some { h with nullv := v } else some h)
    = some { h with nullv := v }
  rw [show hmap64__idx_add h 0 = none from by
    rw [hmap64__idx_add]; exact if_pos rfl]
  rfl

/-- `HMAP64_SET` with key 0 at handle level: after the usual
`HMAP64__FIT1` pre-growth, only the null-value slot changes. -/
theorem HMAP64_SET_zero_spec (b : Option (Hmap64 V)) (v : V)
    (hWF : Hmap64WFB b) (hsz : HMAP64_CAP b ≤ 2 ^ 62) :
    ∃ h1, HMAP64__FIT1 b true true = some h1 ∧
      HMAP64_SET b 0 v true true = some { h1 with nullv := v } ∧
      Hmap64WF { h1 with nullv := v } ∧
      h1.len = HMAP64_LEN b ∧
      (∀ k2, hmap64Observe { h1 with nullv := v } k2 = hmap64ObserveB b k2) ∧
      HMAP64_CAP b ≤ h1.cap ∧
      h1.cap ≤ max 16 (2 * HMAP64_CAP b) := by
  obtain ⟨h1, hfit, hWF1, hroom1, hlen1, hnull1, hobs1, hcap1, hcap2, hcap3⟩ :=
    HMAP64__FIT1_handle_spec b hWF hsz
  have hWF2 : Hmap64WF { h1 with nullv := v } :=
    { pow := hWF1.pow
      klen := hWF1.klen
      vlen := hWF1.vlen
      dis := hWF1.dis
      lenEq := hWF1.lenEq
      room := hWF1.room
      chain := hWF1.chain }
  refine ⟨h1, hfit, ?_, hWF2, hlen1, ?_, hcap1, hcap2⟩
  · rw [HMAP64_SET, hfit]
    show (match hmap64__idx_add h1 0 with
      | some (i, h2) => some { h2 with vals := h2.vals.set i v }
      | none => if (0:Nat) = 0 then some { h1 with nullv := v } else some h1)
      = some { h1 with nullv := v }
    rw [show hmap64__idx_add h1 0 = none from by
      rw [hmap64__idx_add]; exact if_pos rfl]
    rfl
  · intro k2
    rw [observe_set_nullv64 h1 v hWF1.vlen k2]
    exact hobs1 k2

/-- What `HMAP64_DEL` does on a found key: exactly the matched slot's
key is zeroed and the length decremented (no back-shift). -/
theorem HMAP64_DEL_found (h : Hmap64 V) (key i : Nat)
    (hl : hmap64__idx_lookup h key = some i) :
    HMAP64_DEL (some h) key
      = (true, some { h with len := h.len - 1, keys := h.keys.set i 0 }) := by
  rw [hmap64__idx_lookup] at hl
  by_cases hk0 : key = 0
  · rw [if_pos hk0] at hl
    cases hl
  · rw [if_neg hk0] at hl
    rcases hres : probeLoop h.keys (h.cap - 1) key key h.cap with j | j | _
    · rw [hres] at hl
      cases hl
      rw [HMAP64_DEL]
      show (match hmap64__idx_del h key with
        | some (_, h1) => (true, some h1)
        | none => (false, some h)) = _
      rw [show hmap64__idx_del h key
          = some (i, { h with len := h.len - 1, keys := h.keys.set i 0 }) from by
        rw [hmap64__idx_del, if_neg hk0, hres]]
    · rw [hres] at hl
      cases hl
    · rw [hres] at hl
      cases hl

/-- With `malloc` failing, `hmap__grow` is a no-op on an allocated
handle. -/
theorem hmap__grow_malloc_fail (h : Hmap V) (res : Nat) (cOk : Bool) :
    hmap__grow (some h) res false cOk = some h := by
  rw [hmap__grow]
  cases hcap : hmapCapLoop res ((h.maxlen * 2 + 1) % W) 200 with
  | overflow => rfl
  | diverge => rfl
  | ok nm => rfl

theorem hmap64__grow_malloc_fail (h : Hmap64 V) (res : Nat) (cOk : Bool) :
    hmap64__grow (some h) res false cOk = some h := by
  rw [hmap64__grow]
  cases hcap : hmap64CapLoop res ((h.cap * 2) % W) 200 with
  | overflow => rfl
  | diverge => rfl
  | ok nc => rfl

/-- An observation of `none` is exactly a failed lookup. -/
theorem observe_none_lookup (h : Hmap V) (key : Nat)
    (ho : hmapObserve h key = none) : hmap__idx_lookup h key = none := by
  rw [hmapObserve] at ho
  cases hl : hmap__idx_lookup h key with
  | none => rfl
  | some j =>
    rw [hl] at ho
    cases ho

theorem observe64_none_lookup (h : Hmap64 V) (key : Nat)
    (ho : hmap64Observe h key = none) : hmap64__idx_lookup h key = none := by
  rw [hmap64Observe] at ho
  cases hl : hmap64__idx_lookup h key with
  | none => rfl
  | some j =>
    rw [hl] at ho
    cases ho

/-- `HMAP64_DEL` of a stored key on a well-formed (duplicate-free)
64-bit map leaves the key absent. -/
theorem HMAP64_DEL_present_WF (h : Hmap64 V) (key i : Nat) (hWF : Hmap64WF h)
    (hl : hmap64__idx_lookup h key = some i) :
    ∃ R, HMAP64_DEL (some h) key = (true, some R) ∧
      hmap64Observe R key = none ∧ hmap64__idx_lookup R key = none ∧
      R.cap = h.cap ∧ R.len + 1 = h.len := by
  obtain ⟨n, hn4, hpow⟩ := hWF.pow
  have hc : 0 < 2 ^ n := Nat.pos_pow_of_pos n (by omega)
  obtain ⟨hile, hkey, hk0⟩ := hmap64__idx_lookup_char h key i hl
  have hic : i < h.cap := by omega
  have hklen := hWF.klen
  have hlnone : hmap64__idx_lookup
      { h with len := h.len - 1, keys := h.keys.set i 0 } key = none := by
    apply hmap64__idx_lookup_absent
      { h with len := h.len - 1, keys := h.keys.set i 0 } n key
    · show h.cap = 2 ^ n
      exact hpow
    · show (h.keys.set i 0).length = h.cap
      rw [List.length_set]
      exact hklen
    · refine ⟨i, hic, ?_⟩
      show (h.keys.set i 0).getD i 0 = 0
      exact getD_set_self _ _ _ _ (by omega)
    · intro t ht
      have htc : t < h.cap := ht
      show (h.keys.set i 0).getD t 0 ≠ key
      by_cases hti : t = i
      · rw [hti, getD_set_self _ _ _ _ (by omega)]
        exact fun hh => hk0 hh.symm
      · rw [getD_set_ne _ _ _ _ _ (fun hh => hti hh.symm)]
        intro heq
        exact hti (hWF.dis t i (by omega) (by omega)
          (by rw [heq]; exact hk0) (heq.trans hkey.symm))
  refine ⟨_, HMAP64_DEL_found h key i hl, ?_, hlnone, rfl, ?_⟩
  · rw [hmap64Observe, hlnone]
    rfl
  · show h.len - 1 + 1 = h.len
    have hcnt : 0 < countNZ h.keys :=
      countNZ_pos h.keys i (by omega) (by rw [hkey]; exact hk0)
    have := hWF.lenEq
    omega

/-- `HMAP64_DEL` of an absent key is a no-op returning false. -/
theorem HMAP64_DEL_absent_spec (h : Hmap64 V) (key : Nat)
    (hl : hmap64__idx_lookup h key = none) :
    HMAP64_DEL (some h) key = (false, some h) := by
  rw [HMAP64_DEL]
  show (match hmap64__idx_del h key with
    | some (_, h1) => (true, some h1)
    | none => (false, some h)) = (false, some h)
  by_cases hk0 : key = 0
  · rw [show hmap64__idx_del h key = none from by
      rw [hmap64__idx_del, if_pos hk0]]
  · rw [hmap64__idx_lookup, if_neg hk0] at hl
    rcases hres : probeLoop h.keys (h.cap - 1) key key h.cap with j | j | _
    · rw [hres] at hl
      cases hl
    · rw [show hmap64__idx_del h key = none from by
        rw [hmap64__idx_del, if_neg hk0, hres]]
    · rw [show hmap64__idx_del h key = none from by
        rw [hmap64__idx_del, if_neg hk0, hres]]

/-! ## The claims -/

/-- Eight inserts of distinct non-zero keys into a fresh map: the
table is exactly half full afterwards. -/
def halfFillOps : List (Op Nat) :=
  [Op.set 1 1, Op.set 2 2, Op.set 3 3, Op.set 4 4,
   Op.set 5 5, Op.set 6 6, Op.set 7 7, Op.set 8 8]

/-- A 64-bit history whose deletion breaks the probe chain of key 31
(home slot 15) and whose re-insert then duplicates it; the following
growth rehashes the stale copy onto the probe path first. -/
def staleOps : List (Op Nat) :=
  [Op.set 15 1, Op.set 31 7, Op.del 15, Op.set 2 2, Op.set 3 3,
   Op.set 4 4, Op.set 5 5, Op.set 6 6, Op.set 7 7]

/-- `staleOps` followed by the update of key 31: because `del 15` broke
the probe chain, `set 31 99` inserts a second copy of key 31, so the
table now holds the stale copy (value 7, slot 0) and the fresh copy
(value 99, slot 15) and is exactly half full — the next `FIT1` grows
the table, and the rehash places the stale copy onto the probe path
first. -/
def stale2Ops : List (Op Nat) := staleOps ++ [Op.set 31 99]

/-- A 32-bit history with colliding keys 1 and 17 (17 lives displaced
at slot 2 of the 16-slot table) that fills the table half full, so the
next `HMAP_SET` grows and re-homes key 17 to slot 17. -/
def moveOps : List (Op Nat) :=
  [Op.set 1 10, Op.set 17 20, Op.set 3 30, Op.set 4 40,
   Op.set 5 50, Op.set 6 60, Op.set 7 70, Op.set 8 80]

/-- C3: the 32-bit capacity loop `while (new_max && new_max / 2 <=
reserve) if (!(new_max = new_max * 2 + 1)) return` can never detect an
overflow: `new_max` stays odd, so it saturates at `2 ^ 64 - 1` (reserve
`2 ^ 62`), after which `malloc` is called with the wrapped byte count
`(sizeof(hmap__hdr) + (new_max + 2) * 4) % 2 ^ 64 = 28` — far too
small — and for reserve `2 ^ 63` the loop never exits at all.  The
64-bit loop, by contrast, does reach 0 and returns the old handle. -/
theorem claim_C3_overflow_undetected :
    hmapCapLoop (2 ^ 62) 31 200 = CapRes.ok (2 ^ 64 - 1) ∧
    hmapMallocBytes (2 ^ 64 - 1) 4 = 28 ∧
    2 ^ 64 ≤ hdrSize + (2 ^ 64 - 1 + 2) * 4 ∧
    hmapCapLoop (2 ^ 63) 31 200 = CapRes.diverge ∧
    hmap64CapLoop (2 ^ 62 + 1) 32 200 = CapRes.overflow := by
  refine ⟨?_, by decide, by decide, ?_, ?_⟩ <;>
    (set_option maxRecDepth 10000 in decide)

/-- C2, counterexample: right after the eighth insert both fresh maps
are exactly half full, and the claimed invariants `len * 2 ≤ max`
(32-bit) and `len * 2 < cap` (64-bit) are both false at that point. -/
theorem claim_C2_cx :
    (runOps (none : Option (Hmap Nat)) halfFillOps).map
        (fun h => (h.len, h.maxlen, decide (h.len * 2 ≤ h.maxlen)))
      = some (8, 15, false) ∧
    (runOps64 (none : Option (Hmap64 Nat)) halfFillOps).map
        (fun h => (h.len, h.cap, decide (h.len * 2 < h.cap)))
      = some (8, 16, false) := by
  set_option maxRecDepth 10000 in decide

/-- C6, counterexample (64-bit map): after the history `staleOps` the
table holds the two copies `[31, 0, 2, 3, 4, 5, 6, 7, 0, ...]` of key
31; `HMAP64_SET b 31 99` first grows the table, the rehash places the
stale copy (value 7) at slot 31 ahead of the updated copy, and the
following `HMAP64_GET` returns the stale 7 instead of 99. -/
theorem claim_C6_cx :
    (HMAP64_GET (HMAP64_SET
        (runOps64 (none : Option (Hmap64 Nat)) staleOps) 31 99 true true)
      31 true true).1 = 7 ∧ (7 : Nat) ≠ 99 := by
  refine ⟨?_, by decide⟩
  set_option maxRecDepth 10000 in decide

/-- C7, counterexample: for `n = 2 ^ 63` the fit test's `(size_t)(n) *
2` wraps to 0, so `HMAP_TRYFIT`/`HMAP64_TRYFIT` report success (true)
without having reserved anything. -/
theorem claim_C7_cx :
    HMAP_TRYFIT (some (hmapFresh : Hmap Nat)) (2 ^ 63) true true
      = (true, some hmapFresh) ∧
    HMAP64_TRYFIT (some (hmap64Fresh : Hmap64 Nat)) (2 ^ 63) true true
      = (true, some hmap64Fresh) := by
  set_option maxRecDepth 10000 in decide

/-- C9, counterexample: `HMAP_GET`/`HMAP64_GET` contain `HMAP__FIT1`
and do reallocate — on the NULL handle they allocate a fresh 16-slot
map, changing the handle and its capacity. -/
theorem claim_C9_cx :
    (HMAP_GET (none : Option (Hmap Nat)) 3 true true).2 = some hmapFresh ∧
    HMAP_CAP ((HMAP_GET (none : Option (Hmap Nat)) 3 true true).2) = 16 ∧
    HMAP_CAP (none : Option (Hmap Nat)) = 0 ∧
    (HMAP64_GET (none : Option (Hmap64 Nat)) 3 true true).2
      = some hmap64Fresh ∧
    HMAP64_CAP ((HMAP64_GET (none : Option (Hmap64 Nat)) 3 true true).2) = 16 ∧
    HMAP64_CAP (none : Option (Hmap64 Nat)) = 0 := by
  set_option maxRecDepth 10000 in decide

/-- C10, counterexample: on the half-full `moveOps` table, `HMAP_SET b
0 99` first triggers the `HMAP__FIT1` growth, which re-homes key 17
from slot 2 to slot 17: the null value is written, but the length of
the key array and the key slots do not stay unchanged. -/
theorem claim_C10_cx :
    (runOps (none : Option (Hmap Nat)) moveOps).map
        (fun h => (h.maxlen, h.keys.getD 2 0)) = some (15, 17) ∧
    (HMAP_SET (runOps (none : Option (Hmap Nat)) moveOps) 0 99 true true).map
        (fun h => (h.maxlen, h.keys.getD 2 0, h.nullv))
      = some (31, 0, 99) := by
  set_option maxRecDepth 10000 in decide

/-- C1: on every reachable 32-bit map state, deleting a stored key
succeeds (`HMAP_DEL` returns true), afterwards the key is absent
(`has` false, `idx` -1), the length dropped by one, header geometry
and null value are untouched, and every other key is still observed
with its old value: the back-shift scan leaves no broken probe
chain. -/
theorem claim_C1_del_backshift (b : Option (Hmap V)) (key : Nat)
    (hr : Reachable b) (hhas : HMAP_HAS b key = true) :
    ∃ h R, b = some h ∧ HMAP_DEL b key = (true, some R) ∧
      HMAP_HAS (some R) key = false ∧ HMAP_IDX (some R) key = none ∧
      R.len + 1 = h.len ∧ R.maxlen = h.maxlen ∧ R.nullv = h.nullv ∧
      (∀ k2, k2 ≠ key → hmapObserve R k2 = hmapObserve h k2) := by
  match b with
  | none => simp [HMAP_HAS] at hhas
  | some h =>
    obtain ⟨hWF, _, _⟩ := Reachable_WF (some h) hr h rfl
    cases hl : hmap__idx_lookup h key with
    | none =>
      have hhas2 : (hmap__idx_lookup h key).isSome = true := hhas
      rw [hl] at hhas2
      cases hhas2
    | some j =>
      obtain ⟨R, hDEL, hWFR, hmax, hnull, hlen, hobsk, hobs2⟩ :=
        HMAP_DEL_present_spec h key j hWF hl
      refine ⟨h, R, rfl, hDEL, ?_, ?_, hlen, hmax, hnull, hobs2⟩
      · rw [HMAP_HAS_eq_observe, hobsk]
        rfl
      · show hmap__idx_lookup R key = none
        exact observe_none_lookup R key hobsk

theorem claim_C1_witness :
    HMAP_HAS (runOps (none : Option (Hmap Nat)) [Op.set 5 7]) 5 = true ∧
    (∃ h R, runOps (none : Option (Hmap Nat)) [Op.set 5 7] = some h ∧
      HMAP_DEL (runOps (none : Option (Hmap Nat)) [Op.set 5 7]) 5
        = (true, some R) ∧
      HMAP_HAS (some R) 5 = false ∧ HMAP_IDX (some R) 5 = none ∧
      R.len + 1 = h.len ∧ R.maxlen = h.maxlen ∧ R.nullv = h.nullv ∧
      (∀ k2, k2 ≠ 5 → hmapObserve R k2 = hmapObserve h k2)) :=
  ⟨by decide, claim_C1_del_backshift _ 5
    ⟨[Op.set 5 7], by decide, rfl⟩ (by decide)⟩

/-- C2, amended: the as-stated bounds `len * 2 ≤ max` / `len * 2 <
cap` fail right after a half-filling insert (see the counterexample);
what every reachable state of either map does satisfy is the non-strict
capacity bound `len * 2 ≤ capacity`, i.e. `len * 2 ≤ max + 1` for the
32-bit map and `len * 2 ≤ cap` for the 64-bit map. -/
theorem claim_C2_amended (b : Option (Hmap V)) (b64 : Option (Hmap64 V))
    (hr : Reachable b) (hr64 : Reachable64 b64) :
    (∀ h, b = some h → h.len * 2 ≤ h.maxlen + 1) ∧
    (∀ h, b64 = some h → h.len * 2 ≤ h.cap) := by
  constructor
  · intro h hh
    exact (Reachable_WF b hr h hh).1.room
  · intro h hh
    exact ((Reachable64_weak b64 hr64 h hh).1).room

theorem claim_C2_witness :
    (∀ h, runOps (none : Option (Hmap Nat)) halfFillOps = some h →
      h.len * 2 ≤ h.maxlen + 1) ∧
    (∀ h, runOps64 (none : Option (Hmap64 Nat)) halfFillOps = some h →
      h.len * 2 ≤ h.cap) :=
  claim_C2_amended _ _ ⟨halfFillOps, by decide, rfl⟩
    ⟨halfFillOps, by decide, rfl⟩

/-- C4: `HMAP64_DEL` of a stored key returns true and produces exactly
the state with that slot's key zeroed and the length decremented — the
capacity, the value array, the null value and every other key slot are
untouched (no back-shift scan). -/
theorem claim_C4_del64_frame (h : Hmap64 V) (key i : Nat)
    (hl : hmap64__idx_lookup h key = some i) :
    HMAP64_DEL (some h) key
      = (true, some { h with len := h.len - 1, keys := h.keys.set i 0 }) ∧
    (∀ t, t ≠ i → (h.keys.set i 0).getD t 0 = h.keys.getD t 0) :=
  ⟨HMAP64_DEL_found h key i hl,
   fun t ht => getD_set_ne _ _ _ _ _ (fun hh => ht hh.symm)⟩

/-- The 16-slot 64-bit table holding only key 5 with value 7 at its
home slot. -/
def c4h : Hmap64 Nat :=
  { len := 1, cap := 16, keys := (List.replicate 16 0).set 5 5,
    vals := (List.replicate 16 0).set 5 7, nullv := 0 }

theorem claim_C4_witness :
    hmap64__idx_lookup c4h 5 = some 5 ∧
    (HMAP64_DEL (some c4h) 5
        = (true, some
          { c4h with
            len := c4h.len - 1
            keys := c4h.keys.set 5 0 }) ∧
     (∀ t, t ≠ 5 → (c4h.keys.set 5 0).getD t 0 = c4h.keys.getD t 0)) :=
  ⟨by decide, claim_C4_del64_frame c4h 5 5 (by decide)⟩

/-- C5: a successful growth of an allocated map (32-bit or 64-bit,
any reserve whose capacity loop exits without wrap) produces a table
with exactly the same multiset of (key, value) pairs, the same length
and the same reserved null-value slot.  The 64-bit half assumes only
the table geometry (power-of-two capacity, full-length key and value
arrays): it also covers tables holding duplicate copies of a key,
which reachable 64-bit states can contain after deletions, because the
rehash loop looks only for empty slots and re-places every stored
copy. -/
theorem claim_C5_grow_preserves (h : Hmap V) (h64 : Hmap64 V)
    (reserve res nm nc n64 : Nat)
    (hWF : HmapWF h) (hsz : h.maxlen + 1 ≤ 2 ^ 62)
    (hok : hmapCapLoop reserve ((h.maxlen * 2 + 1) % W) 200 = CapRes.ok nm)
    (hnm : nm < 2 ^ 63)
    (hpow64 : h64.cap = 2 ^ n64) (hn64 : 1 ≤ n64) (hsz64 : n64 ≤ 62)
    (hklen64 : h64.keys.length = h64.cap)
    (hvlen64 : h64.vals.length = h64.cap)
    (hok64 : hmap64CapLoop res ((h64.cap * 2) % W) 200 = CapRes.ok nc) :
    (∃ h2, hmap__grow (some h) reserve true true = some h2 ∧
      pairs h2.keys h2.vals = pairs h.keys h.vals ∧
      h2.len = h.len ∧ h2.nullv = h.nullv) ∧
    (∃ h2, hmap64__grow (some h64) res true true = some h2 ∧
      pairs h2.keys h2.vals = pairs h64.keys h64.vals ∧
      h2.len = h64.len ∧ h2.nullv = h64.nullv) := by
  constructor
  · obtain ⟨n, hn4, hpow⟩ := hWF.pow
    have hpos : 0 < 2 ^ n := Nat.pos_pow_of_pos n (by omega)
    have hnsz : n ≤ 62 := by
      by_contra hgt
      have h1 : (2:Nat) ^ 62 < 2 ^ n := Nat.pow_lt_pow_right (by omega) (by omega)
      have h2 : (0:Nat) < 2 ^ 62 := Nat.pos_pow_of_pos _ (by omega)
      omega
    obtain ⟨h2, n2, hgrow, _, _, _, _, hlen2, hnull2, _, _, _, _, _, hpairs2⟩ :=
      hmap__grow_some_spec h reserve n nm hpow (by omega) hnsz
        hWF.klen hWF.vlen hWF.dis hok hnm
    exact ⟨h2, hgrow, hpairs2, hlen2, hnull2⟩
  · exact hmap64__grow_pairs h64 res n64 nc hpow64 hn64 hsz64
      hklen64 hvlen64 hok64

theorem claim_C5_witness :
    hmapCapLoop 0 (((hmapFresh : Hmap Nat).maxlen * 2 + 1) % W) 200
      = CapRes.ok 31 ∧
    hmap64CapLoop 0 (((hmap64Fresh : Hmap64 Nat).cap * 2) % W) 200
      = CapRes.ok 32 ∧
    ((∃ h2, hmap__grow (some (hmapFresh : Hmap Nat)) 0 true true = some h2 ∧
      pairs h2.keys h2.vals = pairs (hmapFresh : Hmap Nat).keys
        (hmapFresh : Hmap Nat).vals ∧
      h2.len = (hmapFresh : Hmap Nat).len ∧
      h2.nullv = (hmapFresh : Hmap Nat).nullv) ∧
    (∃ h2, hmap64__grow (some (hmap64Fresh : Hmap64 Nat)) 0 true true
        = some h2 ∧
      pairs h2.keys h2.vals = pairs (hmap64Fresh : Hmap64 Nat).keys
        (hmap64Fresh : Hmap64 Nat).vals ∧
      h2.len = (hmap64Fresh : Hmap64 Nat).len ∧
      h2.nullv = (hmap64Fresh : Hmap64 Nat).nullv)) :=
  ⟨by decide, by decide,
   claim_C5_grow_preserves hmapFresh hmap64Fresh 0 0 31 32 4
     hmapFresh_WF (by decide) (by decide) (by decide)
     (by decide) (by decide) (by decide) (by decide) (by decide) (by decide)⟩

/-- C8: with key 0 every operation of both maps behaves as "absent":
`has` is false, `del` is false and mutates nothing, `idx` is -1, and
`get` reads the reserved null-value slot — for every map state and
every allocation oracle. -/
theorem claim_C8_zero_key (b : Option (Hmap V)) (b64 : Option (Hmap64 V))
    (h : Hmap V) (h64 : Hmap64 V) (mOk cOk mOk2 cOk2 : Bool) :
    HMAP_HAS b 0 = false ∧ HMAP_DEL b 0 = (false, b) ∧
    HMAP_IDX b 0 = none ∧
    (HMAP_GET (some h) 0 mOk cOk).1 = h.nullv ∧
    HMAP64_HAS b64 0 = false ∧ HMAP64_DEL b64 0 = (false, b64) ∧
    HMAP64_IDX b64 0 = none ∧
    (HMAP64_GET (some h64) 0 mOk2 cOk2).1 = h64.nullv := by
  refine ⟨?_, ?_, ?_, HMAP_GET_zero h mOk cOk, ?_, ?_, ?_,
    HMAP64_GET_zero h64 mOk2 cOk2⟩
  · match b with
    | none => rfl
    | some h0 =>
      show (hmap__idx_lookup h0 0).isSome = false
      rw [hmap__idx_lookup, if_pos rfl]
      rfl
  · match b with
    | none => rfl
    | some h0 =>
      show (match hmap__idx_del h0 0 with
        | some (_, h1) => (true, some h1)
        | none => (false, some h0)) = (false, some h0)
      rw [show hmap__idx_del h0 0 = none from by
        rw [hmap__idx_del, if_pos rfl]]
  · match b with
    | none => rfl
    | some h0 =>
      show hmap__idx_lookup h0 0 = none
      rw [hmap__idx_lookup, if_pos rfl]
  · match b64 with
    | none => rfl
    | some h0 =>
      show (hmap64__idx_lookup h0 0).isSome = false
      rw [hmap64__idx_lookup, if_pos rfl]
      rfl
  · match b64 with
    | none => rfl
    | some h0 =>
      show (match hmap64__idx_del h0 0 with
        | some (_, h1) => (true, some h1)
        | none => (false, some h0)) = (false, some h0)
      rw [show hmap64__idx_del h0 0 = none from by
        rw [hmap64__idx_del, if_pos rfl]]
  · match b64 with
    | none => rfl
    | some h0 =>
      show hmap64__idx_lookup h0 0 = none
      rw [hmap64__idx_lookup, if_pos rfl]

/-- C6, amended: the set/get/has/del round-trip holds on every
reachable 32-bit map; on the 64-bit map it holds on every chain-sound
duplicate-free (well-formed) state — but not on all reachable 64-bit
states, where deletions can leave duplicate keys whose stale copy a
growth can rehash onto the probe path (see the counterexample). -/
theorem claim_C6_amended (b : Option (Hmap V)) (key : Nat) (v : V)
    (h64 : Hmap64 V) (v64 : V)
    (hr : Reachable b) (hk0 : key ≠ 0)
    (hWF64 : Hmap64WF h64) (hsz64 : h64.cap ≤ 2 ^ 61) :
    (∃ h1 h2, HMAP_SET b key v true true = some h1 ∧
      (HMAP_GET (some h1) key true true).1 = v ∧
      (HMAP_GET (some h1) key true true).2 = some h2 ∧
      HMAP_HAS (some h2) key = true ∧
      ∃ R, HMAP_DEL (some h2) key = (true, some R) ∧
        HMAP_HAS (some R) key = false ∧
        HMAP_DEL (some R) key = (false, some R)) ∧
    (∃ g1 g2, HMAP64_SET (some h64) key v64 true true = some g1 ∧
      (HMAP64_GET (some g1) key true true).1 = v64 ∧
      (HMAP64_GET (some g1) key true true).2 = some g2 ∧
      HMAP64_HAS (some g2) key = true ∧
      ∃ R, HMAP64_DEL (some g2) key = (true, some R) ∧
        HMAP64_HAS (some R) key = false ∧
        HMAP64_DEL (some R) key = (false, some R)) := by
  constructor
  · have hWFB : HmapWFB b := fun h0 hh => (Reachable_WF b hr h0 hh).1
    have hsz : HMAP_CAP b ≤ 2 ^ 61 := by
      match b with
      | none => exact Nat.zero_le _
      | some h0 =>
        have hc := (Reachable_WF _ hr h0 rfl).2.2
        show h0.maxlen + 1 ≤ 2 ^ 61
        have h61 : (2:Nat) ^ 60 ≤ 2 ^ 61 := by norm_num
        omega
    obtain ⟨h1, hset, hWF1, hobs1, hobs1o, hnull1, hlen1, hcap1, hcap2, hcap3⟩ :=
      HMAP_SET_spec b key v hWFB (by
        have h62 : (2:Nat) ^ 61 ≤ 2 ^ 62 := by norm_num
        omega) hk0
    have hsz1 : h1.maxlen + 1 ≤ 2 ^ 62 := by
      have h62 : 2 * 2 ^ 61 = 2 ^ 62 := by norm_num
      have h16 : (16:Nat) ≤ 2 ^ 62 := by norm_num
      omega
    obtain ⟨h2, hget, hWF2, hobs2, hlen2, hnull2, hle2, hge2⟩ :=
      HMAP_GET_spec h1 key hWF1 hsz1
    refine ⟨h1, h2, hset, ?_, ?_, ?_, ?_⟩
    · rw [hget]
      show (hmapObserve h1 key).getD h1.nullv = v
      rw [hobs1]
      rfl
    · rw [hget]
    · rw [HMAP_HAS_eq_observe, hobs2 key, hobs1]
      rfl
    · have hobs2k : hmapObserve h2 key = some v := by
        rw [hobs2 key, hobs1]
      cases hl : hmap__idx_lookup h2 key with
      | none =>
        rw [hmapObserve, hl] at hobs2k
        cases hobs2k
      | some j =>
        obtain ⟨R, hDEL, hWFR, hmaxR, hnullR, hlenR, hobskR, hobs2R⟩ :=
          HMAP_DEL_present_spec h2 key j hWF2 hl
        refine ⟨R, hDEL, ?_, ?_⟩
        · rw [HMAP_HAS_eq_observe, hobskR]
          rfl
        · exact HMAP_DEL_absent_spec R key (observe_none_lookup R key hobskR)
  · have hWFB64 : Hmap64WFB (some h64) := fun h0 hh => by
      cases hh
      exact hWF64
    obtain ⟨g1, hset64, hWFg1, hobsg1, hobsg1o, hnullg1, hleng1, hcapg1,
        hcapg2, hcapg3⟩ :=
      HMAP64_SET_spec (some h64) key v64 hWFB64 (by
        show h64.cap ≤ 2 ^ 62
        have h62 : (2:Nat) ^ 61 ≤ 2 ^ 62 := by norm_num
        omega) hk0
    have hszg1 : g1.cap ≤ 2 ^ 62 := by
      have h62 : 2 * 2 ^ 61 = 2 ^ 62 := by norm_num
      have h16 : (16:Nat) ≤ 2 ^ 62 := by norm_num
      have hc : HMAP64_CAP (some h64) = h64.cap := rfl
      omega
    obtain ⟨g2, hget64, hWFg2, hobsg2, hleng2, hnullg2, hleg2, hgeg2⟩ :=
      HMAP64_GET_spec g1 key hWFg1 hszg1
    refine ⟨g1, g2, hset64, ?_, ?_, ?_, ?_⟩
    · rw [hget64]
      show (hmap64Observe g1 key).getD g1.nullv = v64
      rw [hobsg1]
      rfl
    · rw [hget64]
    · rw [HMAP64_HAS_eq_observe, hobsg2 key, hobsg1]
      rfl
    · have hobsg2k : hmap64Observe g2 key = some v64 := by
        rw [hobsg2 key, hobsg1]
      cases hl : hmap64__idx_lookup g2 key with
      | none =>
        rw [hmap64Observe, hl] at hobsg2k
        cases hobsg2k
      | some j =>
        obtain ⟨R, hDEL, hobsR, hlkR, hcapR, hlenR⟩ :=
          HMAP64_DEL_present_WF g2 key j hWFg2 hl
        refine ⟨R, hDEL, ?_, HMAP64_DEL_absent_spec R key hlkR⟩
        rw [HMAP64_HAS_eq_observe, hobsR]
        rfl

theorem claim_C6_witness :
    Reachable (runOps (none : Option (Hmap Nat)) [Op.set 3 5]) ∧
    ((∃ h1 h2, HMAP_SET (runOps (none : Option (Hmap Nat)) [Op.set 3 5])
          9 4 true true = some h1 ∧
      (HMAP_GET (some h1) 9 true true).1 = 4 ∧
      (HMAP_GET (some h1) 9 true true).2 = some h2 ∧
      HMAP_HAS (some h2) 9 = true ∧
      ∃ R, HMAP_DEL (some h2) 9 = (true, some R) ∧
        HMAP_HAS (some R) 9 = false ∧
        HMAP_DEL (some R) 9 = (false, some R)) ∧
    (∃ g1 g2, HMAP64_SET (some (hmap64Fresh : Hmap64 Nat)) 9 6 true true
        = some g1 ∧
      (HMAP64_GET (some g1) 9 true true).1 = 6 ∧
      (HMAP64_GET (some g1) 9 true true).2 = some g2 ∧
      HMAP64_HAS (some g2) 9 = true ∧
      ∃ R, HMAP64_DEL (some g2) 9 = (true, some R) ∧
        HMAP64_HAS (some R) 9 = false ∧
        HMAP64_DEL (some R) 9 = (false, some R))) :=
  ⟨⟨[Op.set 3 5], by decide, rfl⟩,
   claim_C6_amended _ 9 4 hmap64Fresh 6
     ⟨[Op.set 3 5], by decide, rfl⟩ (by decide)
     hmap64Fresh_WF (by decide)⟩

/-- C7, amended: on a failed growth (here the `malloc` failure path;
the same conclusion covers the 64-bit detected-overflow path) the
handle, length and capacity are left exactly as before and `try_fit`
reports `false` — provided the wrapped fit test genuinely fails and
the capacity loop terminates.  Both provisos are real: for `n = 2 ^
63` the fit test's `(size_t)(n) * 2` wraps to 0 and `try_fit`
spuriously returns true (see the counterexample), and the 32-bit
capacity loop never returns at all for a fresh table at reserve `2 ^
63` — it sticks on the odd fixed point `2 ^ 64 - 1` (third conjunct),
so the C call hangs instead of returning false, while the 64-bit loop
detects the overflow there and terminates (fourth conjunct). -/
theorem claim_C7_amended (h : Hmap V) (h64 : Hmap64 V) (n1 n2 : Nat)
    (cOk cOk2 : Bool)
    (hn1 : n1 ≠ 0) (hfit1 : ¬ (n1 * 2) % W ≤ h.maxlen)
    (hterm1 : hmapCapLoop n1 ((h.maxlen * 2 + 1) % W) 200 ≠ CapRes.diverge)
    (hn2 : n2 ≠ 0) (hfit2 : ¬ (n2 * 2) % W < h64.cap)
    (hterm2 : hmap64CapLoop n2 ((h64.cap * 2) % W) 200 ≠ CapRes.diverge) :
    HMAP_TRYFIT (some h) n1 false cOk = (false, some h) ∧
    HMAP64_TRYFIT (some h64) n2 false cOk2 = (false, some h64) ∧
    hmapCapLoop (2 ^ 63) 31 200 = CapRes.diverge ∧
    hmap64CapLoop (2 ^ 63) 32 200 = CapRes.overflow := by
  refine ⟨?_, ?_, ?_, ?_⟩
  · have hcond : ¬ (n1 = 0 ∨ ((some h : Option (Hmap V)).isSome = true ∧
        (n1 * 2) % W ≤ HMAP_MAX (some h))) := by
      intro hc
      rcases hc with hc | ⟨_, hc⟩
      · exact hn1 hc
      · exact hfit1 hc
    have hFIT : HMAP_FIT (some h) n1 false cOk = some h := by
      rw [HMAP_FIT, if_neg hcond]
      exact hmap__grow_malloc_fail h n1 cOk
    rw [HMAP_TRYFIT]
    show (decide (n1 = 0 ∨ ((HMAP_FIT (some h) n1 false cOk).isSome = true ∧
      (n1 * 2) % W ≤ HMAP_MAX (HMAP_FIT (some h) n1 false cOk))),
      HMAP_FIT (some h) n1 false cOk) = (false, some h)
    rw [hFIT, decide_eq_false hcond]
  · have hcond : ¬ (n2 = 0 ∨ ((some h64 : Option (Hmap64 V)).isSome = true ∧
        (n2 * 2) % W < HMAP64_CAP (some h64))) := by
      intro hc
      rcases hc with hc | ⟨_, hc⟩
      · exact hn2 hc
      · exact hfit2 hc
    have hFIT : HMAP64_FIT (some h64) n2 false cOk2 = some h64 := by
      rw [HMAP64_FIT, if_neg hcond]
      exact hmap64__grow_malloc_fail h64 n2 cOk2
    rw [HMAP64_TRYFIT]
    show (decide (n2 = 0 ∨ ((HMAP64_FIT (some h64) n2 false cOk2).isSome = true ∧
      (n2 * 2) % W < HMAP64_CAP (HMAP64_FIT (some h64) n2 false cOk2))),
      HMAP64_FIT (some h64) n2 false cOk2) = (false, some h64)
    rw [hFIT, decide_eq_false hcond]
  · set_option maxRecDepth 10000 in decide
  · set_option maxRecDepth 10000 in decide

theorem claim_C7_witness :
    (100 : Nat) ≠ 0 ∧ ¬ (100 * 2) % W ≤ (hmapFresh : Hmap Nat).maxlen ∧
    hmapCapLoop 100 (((hmapFresh : Hmap Nat).maxlen * 2 + 1) % W) 200
      ≠ CapRes.diverge ∧
    ¬ (100 * 2) % W < (hmap64Fresh : Hmap64 Nat).cap ∧
    hmap64CapLoop 100 (((hmap64Fresh : Hmap64 Nat).cap * 2) % W) 200
      ≠ CapRes.diverge ∧
    (HMAP_TRYFIT (some (hmapFresh : Hmap Nat)) 100 false true
        = (false, some hmapFresh) ∧
     HMAP64_TRYFIT (some (hmap64Fresh : Hmap64 Nat)) 100 false true
        = (false, some hmap64Fresh) ∧
     hmapCapLoop (2 ^ 63) 31 200 = CapRes.diverge ∧
     hmap64CapLoop (2 ^ 63) 32 200 = CapRes.overflow) :=
  ⟨by decide, by decide, by decide, by decide, by decide,
   claim_C7_amended hmapFresh hmap64Fresh 100 100 true true
     (by decide) (by decide) (by decide) (by decide) (by decide) (by decide)⟩

/-- C9, amended: `has` and `idx` are side-effect free, but `get`
contains `HMAP__FIT1` and may reallocate (always on a NULL handle, and
whenever `len * 2 > max` resp. `len * 2 ≥ cap`); on a well-formed
table (sound probe chains, no duplicate keys — every reachable 32-bit
state qualifies) the reallocated handle keeps the length, the null
value and every stored key's value, and when the load factor already
fits, `get` leaves the handle untouched.  The 64-bit well-formedness
restriction is necessary: a reachable 64-bit table can hold duplicate
copies of a key after the chain-breaking deletion, and there the
growth inside `get` changes a stored key's observation — after
`stale2Ops` the table observes key 31 as 99, yet `get(31)` grows the
table and returns the stale 7 (last two conjuncts). -/
theorem claim_C9_amended (h : Hmap V) (h64 : Hmap64 V) (key key64 : Nat)
    (hWF : HmapWF h) (hsz : h.maxlen + 1 ≤ 2 ^ 62)
    (hWF64 : Hmap64WF h64) (hsz64 : h64.cap ≤ 2 ^ 62) :
    (∃ h1, HMAP_GET (some h) key true true
        = ((hmapObserve h key).getD h.nullv, some h1) ∧
      h1.len = h.len ∧ h1.nullv = h.nullv ∧
      (∀ k2, hmapObserve h1 k2 = hmapObserve h k2) ∧
      (h.len * 2 ≤ h.maxlen → h1 = h)) ∧
    (∃ g1, HMAP64_GET (some h64) key64 true true
        = ((hmap64Observe h64 key64).getD h64.nullv, some g1) ∧
      g1.len = h64.len ∧ g1.nullv = h64.nullv ∧
      (∀ k2, hmap64Observe g1 k2 = hmap64Observe h64 k2) ∧
      (h64.len * 2 < h64.cap → g1 = h64)) ∧
    hmap64ObserveB (runOps64 (none : Option (Hmap64 Nat)) stale2Ops) 31
      = some 99 ∧
    (HMAP64_GET (runOps64 (none : Option (Hmap64 Nat)) stale2Ops)
      31 true true).1 = 7 := by
  refine ⟨?_, ?_, ?_, ?_⟩
  · obtain ⟨h1, hget, hWF1, hobs, hlen, hnull, _, _⟩ :=
      HMAP_GET_spec h key hWF hsz
    refine ⟨h1, hget, hlen, hnull, hobs, ?_⟩
    intro hfit
    have hget2 : HMAP_GET (some h) key true true
        = ((hmapObserve h key).getD h.nullv, some h) := by
      rw [HMAP_GET, HMAP__FIT1, if_pos hfit]
      show (match hmap__idx_lookup h key with
        | some i => (h.vals.getD i h.nullv, some h)
        | none => (h.nullv, some h))
        = ((hmapObserve h key).getD h.nullv, some h)
      rw [hmapObserve]
      cases hl : hmap__idx_lookup h key with
      | none => rfl
      | some j => rfl
    rw [hget] at hget2
    exact Option.some.inj (congrArg Prod.snd hget2)
  · obtain ⟨g1, hget, hWF1, hobs, hlen, hnull, _, _⟩ :=
      HMAP64_GET_spec h64 key64 hWF64 hsz64
    refine ⟨g1, hget, hlen, hnull, hobs, ?_⟩
    intro hfit
    have hget2 : HMAP64_GET (some h64) key64 true true
        = ((hmap64Observe h64 key64).getD h64.nullv, some h64) := by
      rw [HMAP64_GET, HMAP64__FIT1, if_pos hfit]
      show (match hmap64__idx_lookup h64 key64 with
        | some i => (h64.vals.getD i h64.nullv, some h64)
        | none => (h64.nullv, some h64))
        = ((hmap64Observe h64 key64).getD h64.nullv, some h64)
      rw [hmap64Observe]
      cases hl : hmap64__idx_lookup h64 key64 with
      | none => rfl
      | some j => rfl
    rw [hget] at hget2
    exact Option.some.inj (congrArg Prod.snd hget2)
  · set_option maxRecDepth 10000 in decide
  · set_option maxRecDepth 10000 in decide

theorem claim_C9_witness :
    ((∃ h1, HMAP_GET (some (hmapFresh : Hmap Nat)) 3 true true
        = ((hmapObserve (hmapFresh : Hmap Nat) 3).getD
            (hmapFresh : Hmap Nat).nullv, some h1) ∧
      h1.len = (hmapFresh : Hmap Nat).len ∧
      h1.nullv = (hmapFresh : Hmap Nat).nullv ∧
      (∀ k2, hmapObserve h1 k2 = hmapObserve (hmapFresh : Hmap Nat) k2) ∧
      ((hmapFresh : Hmap Nat).len * 2 ≤ (hmapFresh : Hmap Nat).maxlen →
        h1 = hmapFresh)) ∧
    (∃ g1, HMAP64_GET (some (hmap64Fresh : Hmap64 Nat)) 2 true true
        = ((hmap64Observe (hmap64Fresh : Hmap64 Nat) 2).getD
            (hmap64Fresh : Hmap64 Nat).nullv, some g1) ∧
      g1.len = (hmap64Fresh : Hmap64 Nat).len ∧
      g1.nullv = (hmap64Fresh : Hmap64 Nat).nullv ∧
      (∀ k2, hmap64Observe g1 k2
        = hmap64Observe (hmap64Fresh : Hmap64 Nat) k2) ∧
      ((hmap64Fresh : Hmap64 Nat).len * 2 < (hmap64Fresh : Hmap64 Nat).cap →
        g1 = hmap64Fresh)) ∧
    hmap64ObserveB (runOps64 (none : Option (Hmap64 Nat)) stale2Ops) 31
      = some 99 ∧
    (HMAP64_GET (runOps64 (none : Option (Hmap64 Nat)) stale2Ops)
      31 true true).1 = 7) :=
  claim_C9_amended hmapFresh hmap64Fresh 3 2 hmapFresh_WF (by decide)
    hmap64Fresh_WF (by decide)

/-- C10, amended: `set` with key 0 first runs `HMAP__FIT1` (which may
reallocate and re-home keys — see the counterexample) and then
overwrites only the reserved null-value slot: on a well-formed table
(sound probe chains, no duplicate keys — every reachable 32-bit state
qualifies) the length and all observations are unchanged, afterwards
`get` of any absent key returns the new value, and when no growth is
triggered the header and key array are untouched verbatim.  The
64-bit well-formedness restriction is necessary: on the reachable
duplicate-key table after `stale2Ops` (key 31 observed as 99), `set(0,
123)` writes the null value but its `FIT1` growth flips key 31's
observation to the stale 7 (last two conjuncts). -/
theorem claim_C10_amended (b : Option (Hmap V)) (b64 : Option (Hmap64 V))
    (v v64 : V) (hWF : HmapWFB b) (hsz : HMAP_CAP b ≤ 2 ^ 61)
    (hWF64 : Hmap64WFB b64) (hsz64 : HMAP64_CAP b64 ≤ 2 ^ 61) :
    (∃ h1, HMAP__FIT1 b true true = some h1 ∧
      HMAP_SET b 0 v true true = some { h1 with nullv := v } ∧
      h1.len = HMAP_LEN b ∧
      (∀ k2, hmapObserve { h1 with nullv := v } k2 = hmapObserveB b k2) ∧
      (∀ h0, b = some h0 → h0.len * 2 ≤ h0.maxlen →
        HMAP_SET b 0 v true true = some { h0 with nullv := v }) ∧
      (∀ k2, hmapObserveB b k2 = none →
        (HMAP_GET (some { h1 with nullv := v }) k2 true true).1 = v)) ∧
    (∃ g1, HMAP64__FIT1 b64 true true = some g1 ∧
      HMAP64_SET b64 0 v64 true true = some { g1 with nullv := v64 } ∧
      g1.len = HMAP64_LEN b64 ∧
      (∀ k2, hmap64Observe { g1 with nullv := v64 } k2
        = hmap64ObserveB b64 k2) ∧
      (∀ h0, b64 = some h0 → h0.len * 2 < h0.cap →
        HMAP64_SET b64 0 v64 true true = some { h0 with nullv := v64 }) ∧
      (∀ k2, hmap64ObserveB b64 k2 = none →
        (HMAP64_GET (some { g1 with nullv := v64 }) k2 true true).1 = v64)) ∧
    hmap64ObserveB (runOps64 (none : Option (Hmap64 Nat)) stale2Ops) 31
      = some 99 ∧
    (HMAP64_SET (runOps64 (none : Option (Hmap64 Nat)) stale2Ops)
        0 123 true true).map (fun g => (g.nullv, hmap64Observe g 31))
      = some (123, some 7) := by
  refine ⟨?_, ?_, ?_, ?_⟩
  · obtain ⟨h1, hfit, hset, hWF2, hlen1, hobs, hc1, hc2, hc3⟩ :=
      HMAP_SET_zero_spec b v hWF (by
        have h62 : (2:Nat) ^ 61 ≤ 2 ^ 62 := by norm_num
        omega)
    have hsz1 : h1.maxlen + 1 ≤ 2 ^ 62 := by
      have h62 : 2 * 2 ^ 61 = 2 ^ 62 := by norm_num
      have h16 : (16:Nat) ≤ 2 ^ 62 := by norm_num
      omega
    refine ⟨h1, hfit, hset, hlen1, hobs, ?_, ?_⟩
    · intro h0 hh hfit0
      rw [hh]
      exact HMAP_SET_zero_nogrow h0 v hfit0
    · intro k2 habsent
      obtain ⟨hg, hgeq, _, _, _, _, _⟩ :=
        HMAP_GET_spec { h1 with nullv := v } k2 hWF2 hsz1
      rw [hgeq]
      show (hmapObserve { h1 with nullv := v } k2).getD
        ({ h1 with nullv := v } : Hmap V).nullv = v
      rw [hobs k2, habsent]
      rfl
  · obtain ⟨g1, hfit, hset, hWF2, hlen1, hobs, hc1, hc2⟩ :=
      HMAP64_SET_zero_spec b64 v64 hWF64 (by
        have h62 : (2:Nat) ^ 61 ≤ 2 ^ 62 := by norm_num
        omega)
    have hsz1 : g1.cap ≤ 2 ^ 62 := by
      have h62 : 2 * 2 ^ 61 = 2 ^ 62 := by norm_num
      have h16 : (16:Nat) ≤ 2 ^ 62 := by norm_num
      omega
    refine ⟨g1, hfit, hset, hlen1, hobs, ?_, ?_⟩
    · intro h0 hh hfit0
      rw [hh]
      exact HMAP64_SET_zero_nogrow h0 v64 hfit0
    · intro k2 habsent
      obtain ⟨hg, hgeq, _, _, _, _, _⟩ :=
        HMAP64_GET_spec { g1 with nullv := v64 } k2 hWF2 hsz1
      rw [hgeq]
      show (hmap64Observe { g1 with nullv := v64 } k2).getD
        ({ g1 with nullv := v64 } : Hmap64 V).nullv = v64
      rw [hobs k2, habsent]
      rfl
  · set_option maxRecDepth 10000 in decide
  · set_option maxRecDepth 10000 in decide

theorem claim_C10_witness :
    ((∃ h1, HMAP__FIT1 (none : Option (Hmap Nat)) true true = some h1 ∧
      HMAP_SET (none : Option (Hmap Nat)) 0 5 true true
        = some { h1 with nullv := 5 } ∧
      h1.len = HMAP_LEN (none : Option (Hmap Nat)) ∧
      (∀ k2, hmapObserve { h1 with nullv := 5 } k2
        = hmapObserveB (none : Option (Hmap Nat)) k2) ∧
      (∀ h0, (none : Option (Hmap Nat)) = some h0 →
        h0.len * 2 ≤ h0.maxlen →
        HMAP_SET (none : Option (Hmap Nat)) 0 5 true true
          = some { h0 with nullv := 5 }) ∧
      (∀ k2, hmapObserveB (none : Option (Hmap Nat)) k2 = none →
        (HMAP_GET (some { h1 with nullv := 5 }) k2 true true).1 = 5)) ∧
    (∃ g1, HMAP64__FIT1 (none : Option (Hmap64 Nat)) true true = some g1 ∧
      HMAP64_SET (none : Option (Hmap64 Nat)) 0 6 true true
        = some { g1 with nullv := 6 } ∧
      g1.len = HMAP64_LEN (none : Option (Hmap64 Nat)) ∧
      (∀ k2, hmap64Observe { g1 with nullv := 6 } k2
        = hmap64ObserveB (none : Option (Hmap64 Nat)) k2) ∧
      (∀ h0, (none : Option (Hmap64 Nat)) = some h0 →
        h0.len * 2 < h0.cap →
        HMAP64_SET (none : Option (Hmap64 Nat)) 0 6 true true
          = some { h0 with nullv := 6 }) ∧
      (∀ k2, hmap64ObserveB (none : Option (Hmap64 Nat)) k2 = none →
        (HMAP64_GET (some { g1 with nullv := 6 }) k2 true true).1 = 6)) ∧
    hmap64ObserveB (runOps64 (none : Option (Hmap64 Nat)) stale2Ops) 31
      = some 99 ∧
    (HMAP64_SET (runOps64 (none : Option (Hmap64 Nat)) stale2Ops)
        0 123 true true).map (fun g => (g.nullv, hmap64Observe g 31))
      = some (123, some 7)) :=
  claim_C10_amended (none : Option (Hmap Nat)) (none : Option (Hmap64 Nat))
    5 6 (fun h0 hh => by cases hh) (by decide)
    (fun h0 hh => by cases hh) (by decide)

end MapLemmas

end CDS
